import Mathlib

/-!
# Verification development for `nikogura/boilerplate`

Shallow embedding of `pkg/boilerplate/writer.go` (the template writer) and of
the library calls it makes.

Conventions of the embedding

* A Go `string` / `[]byte` / `bytes.Buffer` is a `Str`, a list of characters.
* A Go `error` is a `GoError`; `fmt.Errorf` with `%w` is `GoError.errorf`.
* A Go function that can fail, panic and mutate shared state returns the final
  state together with an `Outcome` (`nil`, `err e`, or `panic`).
* `TmplWriter` methods have a value receiver, but `FilePaths` is a slice, so
  element assignments made by a method are visible to the caller: the methods
  of the embedding return the updated `FilePaths`.
-/

namespace Boilerplate

deriving instance DecidableEq for Except

/-- Go strings, byte slices and buffers: a sequence of characters. -/
abbrev Str := List Char

/-! ## Library: package `strings` -/

/-- Go `strings.HasPrefix(s, p)`. -/
def HasPrefix (s p : Str) : Bool := p.isPrefixOf s

/-- Go `strings.HasSuffix(s, p)`. -/
def HasSuffix (s p : Str) : Bool := p.reverse.isPrefixOf s.reverse

/-- Go `strings.Index(s, sub)`: the index of the first occurrence of `sub` in
`s`; `none` stands for Go's `-1`. -/
def Index (sub : Str) : Str → Option Nat
  | [] => if sub.isEmpty then some 0 else none
  | c :: t =>
    if sub.isPrefixOf (c :: t) then some 0
    else (Index sub t).map (· + 1)

/-- Go `strings.Contains(s, sub)`. -/
def Contains (s sub : Str) : Bool := (Index sub s).isSome

/-- The loop of `strings.Replace` for a non-empty `old`: replace the first `n`
occurrences, scanning left to right, never rescanning what was written. -/
def replaceLoop (old new : Str) : Nat → Str → Str
  | 0, s => s
  | n + 1, s =>
    match Index old s with
    | none => s
    | some j => s.take j ++ new ++ replaceLoop old new n (s.drop (j + old.length))

/-- The loop of `strings.Replace` for an empty `old`: `new` is written at the
start and after each of the following characters, `n` times in all. -/
def insertLoop (new : Str) : Nat → Str → Str
  | 0, s => s
  | 1, s => new ++ s
  | _ + 2, [] => new
  | n + 2, c :: t => new ++ c :: insertLoop new (n + 1) t

/-- Go `strings.Replace(s, old, new, n)` for `n ≥ 0`. -/
def Replace (s old new : Str) (n : Nat) : Str :=
  if old = new ∨ n = 0 then s
  else if old.isEmpty then insertLoop new n s
  else replaceLoop old new n s

/-! ## Library: package `text/template`

The writer parses every template with `template.New("tmplWriter").Parse(str)`
and runs it with `Execute(buf, w.TmplVals)` on a `map[string]any`, with the
default options (no `Option("missingkey=error")`, no `Funcs`, default
delimiters).  The embedding covers the fragment of the template language the
archetypes use: literal text and actions that print one field of the data,
written `.Key` between the delimiters, with blanks allowed around the field.

* Text up to the next left delimiter is copied to the output.
* A left delimiter with no right delimiter after it is a parse error.
* An action whose first non-blank character is an opening brace is a parse
  error (the lexer emits it as a character token, which no command starts
  with).
* Any other action is outside the fragment: the embedding answers
  `unsupported`, which says nothing about what the library does.
* Only the fact that parsing fails is taken from the library, not which of
  its messages it fails with: for instance, an action closed by a single brace
  is reported here as unclosed, where the library reports a bad character.
  The texts of the errors are a parameter wherever a statement speaks of a
  message.
* A field of a map that has no entry for the key evaluates to the invalid
  value, which the default `missingkey` policy prints as `<no value>`.
-/

/-- Parameter dictionary `map[string]any`, restricted to string values, as an
association list; the first entry for a key is the map entry. -/
abbrev Dict := List (Str × Str)

/-- Map index expression `m[k]` with the comma-ok result. -/
def Dict.get (d : Dict) (k : Str) : Option Str :=
  match d.find? (fun e => e.1 = k) with
  | some e => some e.2
  | none => none

/-- Errors of `Parse` / `Execute`. -/
inductive TemplateError where
  /-- Left delimiter without a matching right delimiter. -/
  | unclosedAction
  /-- A character token where a command was expected. -/
  | unexpectedInCommand (c : Char)
  /-- The action is outside the modelled fragment. -/
  | unsupported (body : Str)
  /-- Recursion budget of the embedding exhausted; `parse` never returns it,
  see `parse_ne_fuel`. -/
  | fuel
  deriving DecidableEq, Repr

/-- Parse tree nodes of the fragment. -/
inductive Node where
  | text (s : Str)
  | field (name : Str)
  deriving DecidableEq, Repr

def leftDelim : Str := ['{', '{']
def rightDelim : Str := ['}', '}']

/-- Text of a placeholder printing the field `k`. -/
def placeholder (k : Str) : Str := leftDelim ++ '.' :: k ++ rightDelim

/-- Split `s` at the first occurrence of `d`: the text before it and the text
after it. -/
def cut (d s : Str) : Option (Str × Str) :=
  match Index d s with
  | none => none
  | some i => some (s.take i, s.drop (i + d.length))

/-- Blanks skipped inside an action. -/
def isBlank (c : Char) : Bool := c = ' ' ∨ c = '\t'

/-- ASCII letter, digit or underscore. -/
def isAlphaNumeric (c : Char) : Bool :=
  c = '_' ∨ ('a' ≤ c ∧ c ≤ 'z') ∨ ('A' ≤ c ∧ c ≤ 'Z') ∨ ('0' ≤ c ∧ c ≤ '9')

def isDigit (c : Char) : Bool := '0' ≤ c ∧ c ≤ '9'

/-- A field name: non-empty, alphanumeric, not starting with a digit (a dot
followed by a digit starts a number). -/
def isFieldName (k : Str) : Bool :=
  match k with
  | [] => false
  | c :: t => isAlphaNumeric c && !isDigit c && t.all isAlphaNumeric

/-- Strip blanks at both ends. -/
def trimBlank (s : Str) : Str :=
  ((s.dropWhile isBlank).reverse.dropWhile isBlank).reverse

/-- Parse the inside of one action. -/
def parseAction (body : Str) : Except TemplateError Node :=
  match trimBlank body with
  | '.' :: k => if isFieldName k then .ok (.field k) else .error (.unsupported body)
  | '{' :: _ => .error (.unexpectedInCommand '{')
  | _ => .error (.unsupported body)

/-- Parse with a recursion budget: one unit per action. -/
def parseFuel : Nat → Str → Except TemplateError (List Node)
  | 0, _ => .error .fuel
  | n + 1, s =>
    match cut leftDelim s with
    | none => .ok [.text s]
    | some (pre, rest) =>
      match cut rightDelim rest with
      | none => .error .unclosedAction
      | some (body, post) =>
        match parseAction body with
        | .error e => .error e
        | .ok node =>
          match parseFuel n post with
          | .error e => .error e
          | .ok nodes => .ok (.text pre :: node :: nodes)

/-- Parse a template: `template.New(name).Parse(s)`. -/
def parse (s : Str) : Except TemplateError (List Node) := parseFuel (s.length + 1) s

/-- The text printed for a missing map entry. -/
def noValue : Str := "<no value>".toList

/-- Output of one node on the data `d`. -/
def execNode (d : Dict) : Node → Str
  | .text s => s
  | .field k => (d.get k).getD noValue

/-- Run a parse tree: `tmpl.Execute(buf, d)`. -/
def execute (d : Dict) (nodes : List Node) : Str := (nodes.map (execNode d)).flatten

/-! ## Library: package `path/filepath` (Unix) -/

/-- Split at every slash: the elements of a path, empty ones included. -/
def splitSlash : Str → List Str
  | [] => [[]]
  | c :: t =>
    match splitSlash t with
    | [] => [[]]
    | e :: es => if c = '/' then [] :: e :: es else (c :: e) :: es

/-- The inner loop of `Clean` for a `..` element: step `w` back to the previous
separator, not below `dotdot`. -/
def backtrack (out : Str) (dotdot : Nat) : Nat → Nat
  | 0 => 0
  | w + 1 => if w + 1 > dotdot ∧ out.getD (w + 1) ' ' ≠ '/' then backtrack out dotdot w else w + 1

/-- One element of the main loop of `Clean`; the state is the output buffer
and the index `dotdot` below which `..` may not remove anything. -/
def cleanStep (rooted : Bool) (st : Str × Nat) (e : Str) : Str × Nat :=
  let out := st.1
  let dotdot := st.2
  if e = [] then st
  else if e = ['.'] then st
  else if e = ['.', '.'] then
    if out.length > dotdot then (out.take (backtrack out dotdot (out.length - 1)), dotdot)
    else if !rooted then
      let out1 := (if out.length > 0 then out ++ ['/'] else out) ++ ['.', '.']
      (out1, out1.length)
    else st
  else
    ((if (rooted && out.length != 1) || (!rooted && out.length != 0) then out ++ ['/'] else out) ++ e,
      dotdot)

/-- Go `filepath.Clean(path)`. -/
def Clean (path : Str) : Str :=
  if path = [] then ['.']
  else
    let rooted := path.head? = some '/'
    let init : Str × Nat := if rooted then (['/'], 1) else ([], 0)
    let out := ((splitSlash path).foldl (cleanStep rooted) init).1
    if out = [] then ['.'] else out

/-- Go `filepath.Dir(path)`: everything up to the last separator, cleaned. -/
def Dir (path : Str) : Str :=
  Clean ((path.reverse.dropWhile (fun c => c ≠ '/')).reverse)

/-! ## Errors and outcomes -/

/-- Go `error` values. -/
inductive GoError where
  /-- An error returned by `text/template`. -/
  | template (e : TemplateError)
  /-- An error returned by another library (`afero`, `embed`, `io`). -/
  | lib (msg : Str)
  /-- A `fmt.Errorf` without a wrapped error. -/
  | new (msg : Str)
  /-- A `fmt.Errorf` whose format has one `%w`: the text before it (arguments
  formatted), the wrapped error, the text after it. -/
  | errorf (pre : Str) (inner : GoError) (post : Str)
  deriving DecidableEq, Repr

/-- How a call ends: it returns `nil`, returns an error, or panics
(index or slice bound out of range). -/
inductive Outcome where
  | nil
  | err (e : GoError)
  | panic
  deriving DecidableEq, Repr

/-! ## Library: package `embed`

An `embed.FS` is a flat list of files and directories with their full
slash-separated names; `lookup` finds a name, `readDir` selects the entries
whose directory part is the given name. -/

structure EmbedFile where
  /-- full name, no trailing slash -/
  name : Str
  IsDir : Bool
  data : Str
  deriving DecidableEq, Repr

abbrev EmbedFS := List EmbedFile

/-- Go `fs.ValidPath`. -/
def ValidPath (name : Str) : Bool :=
  name = ['.'] || (splitSlash name).all (fun e => e ≠ [] && e ≠ ['.'] && e ≠ ['.', '.'])

/-- Directory part of a full name (`.` at top level): `split` of package embed. -/
def EmbedFile.dir (f : EmbedFile) : Str :=
  match (f.name.reverse.dropWhile (fun c => c ≠ '/')).reverse.dropLast with
  | [] => ['.']
  | d => d

/-- Last element of a full name: `DirEntry.Name()`. -/
def EmbedFile.Name (f : EmbedFile) : Str :=
  (f.name.reverse.takeWhile (fun c => c ≠ '/')).reverse

/-- `FS.lookup`; the root is not an entry of the list. -/
def EmbedFS.lookup (fs : EmbedFS) (name : Str) : Option EmbedFile :=
  if !ValidPath name then none
  else if name = ['.'] then some ⟨['.'], true, []⟩
  else fs.find? (fun f => f.name = name)

/-- `FS.ReadDir(name)`. -/
def EmbedFS.ReadDir (fs : EmbedFS) (name : Str) : Except GoError (List EmbedFile) :=
  match fs.lookup name with
  | none => .error (.lib ("open ".toList ++ name ++ ": file does not exist".toList))
  | some f =>
    if f.IsDir then .ok (fs.filter (fun g => g.dir = name))
    else .error (.lib ("read ".toList ++ name ++ ": not a directory".toList))

/-- `FS.Open(name)`. -/
def EmbedFS.Open (fs : EmbedFS) (name : Str) : Except GoError EmbedFile :=
  match fs.lookup name with
  | none => .error (.lib ("open ".toList ++ name ++ ": file does not exist".toList))
  | some f => .ok f

/-- `io.ReadAll` on an opened entry: reading a directory fails. -/
def ReadAll (f : EmbedFile) : Except GoError Str :=
  if f.IsDir then .error (.lib ("read ".toList ++ f.name ++ ": is a directory".toList))
  else .ok f.data

/-! ## Library: `afero.Fs`

The output filesystem is an interface; the writer uses `MkdirAll`, `Create`,
and `Write` / `Close` on the created file.  An implementation is any state
type with these operations; each may fail and may change the state even when
it fails.  A file handle is identified by the path it was created at. -/

structure Fs (σ : Type) where
  MkdirAll : σ → Str → σ × Option GoError
  Create : σ → Str → σ × Option GoError
  /-- returns the number of bytes written and the error -/
  Write : σ → Str → Str → σ × Nat × Option GoError
  Close : σ → Str → σ × Option GoError

/-- One call on the output filesystem. -/
inductive FsOp where
  | MkdirAll (path : Str)
  | Create (path : Str)
  | Write (path : Str) (data : Str)
  | Close (path : Str)
  deriving DecidableEq, Repr

/-- The output filesystem during a run: its state and the calls made so far,
oldest first. -/
structure World (σ : Type) where
  fs : σ
  ops : List FsOp
  deriving DecidableEq, Repr

/-! ## `writer.go` -/

structure FilePath where
  Path : Str
  Name : Str
  TemplPath : Str
  TemplName : Str
  IsDir : Bool
  deriving DecidableEq, Repr

structure TmplWriter (σ : Type) where
  OutFs : Fs σ
  TemplFs : EmbedFS
  FilePaths : List FilePath
  ProjDir : Str
  TmplVals : Dict

/-- A `for i := range w.FilePaths` loop whose body reads element `i`, may
assign it, and may leave the function: the elements after an early exit are
not visited. -/
def rangeFilePaths (body : FilePath → FilePath × Outcome) : List FilePath → List FilePath × Outcome
  | [] => ([], .nil)
  | fp :: rest =>
    match body fp with
    | (fp1, .nil) =>
      let r := rangeFilePaths body rest
      (fp1 :: r.1, r.2)
    | (fp1, o) => (fp1 :: rest, o)

/-- `TmplWriter.ResolveTemplateVars`; the `fmt.Errorf` of the `Parse` branch
wraps the only errors of the fragment. -/
def ResolveTemplateVars {σ : Type} (w : TmplWriter σ) (str : Str) : Except GoError Str :=
  match parse str with
  | .error e => .error (.errorf "path parsing error: ".toList (.template e) [])
  | .ok tmpl => .ok (execute w.TmplVals tmpl)

/-- The statement `if path[0] == '/' { path = path[1:] }`; `none` is the
index-out-of-range panic of `path[0]` on the empty string. -/
def stripLeadingSlash : Str → Option Str
  | [] => none
  | c :: t => if c = '/' then some t else some (c :: t)

/-- Body of the loop of `ResolveAllPathTemplates` for one element. -/
def resolveFilePath {σ : Type} (w : TmplWriter σ) (fp : FilePath) : FilePath × Outcome :=
  match ResolveTemplateVars w fp.Path with
  | .error e =>
    (fp, .err (.errorf ("path resolution failure: path=".toList ++ fp.Path ++ ", err=".toList) e []))
  | .ok buf =>
    match stripLeadingSlash (Replace buf w.ProjDir [] 1) with
    | none => (fp, .panic)
    | some path =>
      let fp1 := { fp with TemplPath := path }
      match ResolveTemplateVars w fp.Name with
      | .error e =>
        (fp1, .err (.errorf ("name resolution failure: path=".toList ++ fp.Name ++ ", err=".toList) e []))
      | .ok buf =>
        match stripLeadingSlash (Replace buf w.ProjDir [] 1) with
        | none => (fp1, .panic)
        | some name => ({ fp1 with TemplName := name }, .nil)

/-- `TmplWriter.ResolveAllPathTemplates`: the updated `FilePaths` and the
outcome. -/
def ResolveAllPathTemplates {σ : Type} (w : TmplWriter σ) : List FilePath × Outcome :=
  rangeFilePaths (resolveFilePath w) w.FilePaths

/-- The slice expression `s[:len(s)-1]`; `none` is the out-of-range panic on
the empty string. -/
def sliceDropLast : Str → Option Str
  | [] => none
  | s => some s.dropLast

/-- Body of the loop of `fixGoModTemplPaths` for one element. -/
def fixGoModFilePath (fp : FilePath) : FilePath × Outcome :=
  if fp.TemplName = "go.mod_".toList ∨ fp.TemplName = "go.sum_".toList then
    match sliceDropLast fp.TemplPath with
    | none => (fp, .panic)
    | some path =>
      match sliceDropLast fp.TemplName with
      | none => (fp, .panic)
      | some name => ({ fp with TemplPath := path, TemplName := name }, .nil)
  else (fp, .nil)

/-- `TmplWriter.fixGoModTemplPaths`. -/
def fixGoModTemplPaths {σ : Type} (w : TmplWriter σ) : List FilePath × Outcome :=
  rangeFilePaths fixGoModFilePath w.FilePaths

/-- `afero.Fs.MkdirAll`, recorded. -/
def World.MkdirAll {σ : Type} (fs : Fs σ) (wd : World σ) (path : Str) : World σ × Option GoError :=
  let r := fs.MkdirAll wd.fs path
  (⟨r.1, wd.ops ++ [.MkdirAll path]⟩, r.2)

/-- `afero.Fs.Create`, recorded. -/
def World.Create {σ : Type} (fs : Fs σ) (wd : World σ) (path : Str) : World σ × Option GoError :=
  let r := fs.Create wd.fs path
  (⟨r.1, wd.ops ++ [.Create path]⟩, r.2)

/-- `afero.File.Write`, recorded. -/
def World.Write {σ : Type} (fs : Fs σ) (wd : World σ) (path data : Str) :
    World σ × Nat × Option GoError :=
  let r := fs.Write wd.fs path data
  (⟨r.1, wd.ops ++ [.Write path data]⟩, r.2.1, r.2.2)

/-- `afero.File.Close`, recorded. -/
def World.Close {σ : Type} (fs : Fs σ) (wd : World σ) (path : Str) : World σ × Option GoError :=
  let r := fs.Close wd.fs path
  (⟨r.1, wd.ops ++ [.Close path]⟩, r.2)

/-- A `for _, fp := range w.FilePaths` loop whose body acts on the output
filesystem and may return an error. -/
def rangeWorld {σ : Type} (body : FilePath → World σ → World σ × Outcome) :
    List FilePath → World σ → World σ × Outcome
  | [], wd => (wd, .nil)
  | fp :: rest, wd =>
    match body fp wd with
    | (wd1, .nil) => rangeWorld body rest wd1
    | (wd1, o) => (wd1, o)

/-- `TmplWriter.CreatePath`. -/
def CreatePath {σ : Type} (w : TmplWriter σ) (root file : Str) (isDir : Bool) (wd : World σ) :
    World σ × Outcome :=
  let path := root ++ '/' :: file
  if isDir then
    match World.MkdirAll w.OutFs wd path with
    | (wd1, some e) => (wd1, .err (.errorf "directory creation failed: ".toList e []))
    | (wd1, none) => (wd1, .nil)
  else
    match World.MkdirAll w.OutFs wd (Dir path) with
    | (wd1, some e) => (wd1, .err (.errorf "directory creation failed: ".toList e []))
    | (wd1, none) => (wd1, .nil)

/-- Body of the loop of `CreateAllFilePathsAtRoot` for one element. -/
def createFilePathAtRoot {σ : Type} (w : TmplWriter σ) (root : Str) (fp : FilePath)
    (wd : World σ) : World σ × Outcome :=
  match CreatePath w root fp.TemplPath fp.IsDir wd with
  | (wd1, .err e) =>
    (wd1, .err (.errorf ("failed to create file(".toList ++ fp.TemplPath ++ "): err(".toList) e [')']))
  | r => r

/-- `TmplWriter.CreateAllFilePathsAtRoot`. -/
def CreateAllFilePathsAtRoot {σ : Type} (w : TmplWriter σ) (root : Str) (wd : World σ) :
    World σ × Outcome :=
  rangeWorld (createFilePathAtRoot w root) w.FilePaths wd

/-- `TmplWriter.ResolveFileTemplateData`. -/
def ResolveFileTemplateData {σ : Type} (w : TmplWriter σ) (fp : FilePath) : Except GoError Str :=
  match w.TemplFs.Open fp.Path with
  | .error e => .error (.errorf ("cannot open file(".toList ++ fp.Path ++ "): err(".toList) e [')'])
  | .ok file =>
    match ReadAll file with
    | .error e =>
      .error (.errorf ("cannot read file data(".toList ++ fp.Path ++ "): err(".toList) e [')'])
    | .ok data =>
      match ResolveTemplateVars w data with
      | .error e =>
        .error (.errorf ("cannot execute template with file(".toList ++ fp.Path ++ "): ".toList) e [])
      | .ok buf => .ok buf

/-- Go `strings.ReplaceAll(s, old, new)`, that is `Replace` with `n = -1`:
every occurrence, of which there are at most `len(s) + 1`. -/
def ReplaceAll (s old new : Str) : Str :=
  if old = new then s
  else if old.isEmpty then insertLoop new (s.length + 1) s
  else replaceLoop old new (s.length + 1) s

/-- The marker template of `removeBuildExclusions`. -/
def buildExclusionTemplate : Str :=
  "// +build exclude ".toList ++ placeholder "ProjectName".toList ++ "\n".toList

/-- `TmplWriter.removeBuildExclusions`. -/
def removeBuildExclusions {σ : Type} (w : TmplWriter σ) (buf : Str) : Except GoError Str :=
  match ResolveTemplateVars w buildExclusionTemplate with
  | .error e =>
    .error (.errorf "removing build exclusions cannot execute template: ".toList e [])
  | .ok replBuf => .ok (ReplaceAll buf replBuf [])

/-- The part of `WriteFileTemplateData` that runs between the deferred
`file.Close()` being registered and it being run.  The length `buf.Len()` and
the count `n` are in characters of `Str`, which are the bytes of Go for ASCII
content. -/
def writeOpenedFile {σ : Type} (w : TmplWriter σ) (fp : FilePath) (path : Str) (wd : World σ) :
    World σ × Outcome :=
  match ResolveFileTemplateData w fp with
  | .error e => (wd, .err (.errorf "failed to exec template: ".toList e []))
  | .ok buf =>
    match removeBuildExclusions w buf with
    | .error e =>
      (wd, .err (.errorf
        ("failed to remove build exclusions from file(".toList ++ fp.TemplName ++ "): ".toList) e []))
    | .ok buf1 =>
      match World.Write w.OutFs wd path buf1 with
      | (wd1, _, some e) =>
        (wd1, .err (.errorf ("cannot write file(".toList ++ path ++ ") bytes: ".toList) e []))
      | (wd1, n, none) =>
        if n ≠ buf1.length then
          (wd1, .err (.new ("wrong number of bytes written: exp(".toList ++
            (toString buf1.length).toList ++ ") act(".toList ++ (toString n).toList ++ [')'])))
        else (wd1, .nil)

/-- `TmplWriter.WriteFileTemplateData`; the error of the deferred `Close` is
discarded. -/
def WriteFileTemplateData {σ : Type} (w : TmplWriter σ) (fp : FilePath) (destDir : Str)
    (wd : World σ) : World σ × Outcome :=
  let path := destDir ++ '/' :: fp.TemplPath
  match World.Create w.OutFs wd path with
  | (wd1, some e) =>
    (wd1, .err (.errorf ("failed to create file(".toList ++ path ++ "): ".toList) e []))
  | (wd1, none) =>
    let r := writeOpenedFile w fp path wd1
    ((World.Close w.OutFs r.1 path).1, r.2)

/-- Body of the loop of `WriteAllDestFileTemplateData` for one element. -/
def writeDestFile {σ : Type} (w : TmplWriter σ) (destDir : Str) (fp : FilePath)
    (wd : World σ) : World σ × Outcome :=
  if fp.IsDir then (wd, .nil)
  else
    match WriteFileTemplateData w fp destDir wd with
    | (wd1, .err e) =>
      (wd1, .err (.errorf ("writing file(".toList ++ fp.TemplName ++ ") failed: ".toList) e []))
    | r => r

/-- `TmplWriter.WriteAllDestFileTemplateData`. -/
def WriteAllDestFileTemplateData {σ : Type} (w : TmplWriter σ) (destDir : Str) (wd : World σ) :
    World σ × Outcome :=
  rangeWorld (writeDestFile w destDir) w.FilePaths wd

/-- `TmplWriter.BuildProject`: the `FilePaths` as the call leaves them, the
output filesystem as it leaves it, and the outcome. -/
def BuildProject {σ : Type} (w : TmplWriter σ) (destDir : Str) (wd : World σ) :
    List FilePath × World σ × Outcome :=
  match ResolveAllPathTemplates w with
  | (fps1, .nil) =>
    match fixGoModTemplPaths { w with FilePaths := fps1 } with
    | (fps2, .nil) =>
      let w2 := { w with FilePaths := fps2 }
      match CreateAllFilePathsAtRoot w2 destDir wd with
      | (wd1, .nil) =>
        let r := WriteAllDestFileTemplateData w2 destDir wd1
        (fps2, r.1, r.2)
      | (wd1, o) => (fps2, wd1, o)
    | (fps2, o) => (fps2, wd, o)
  | (fps1, o) => (fps1, wd, o)

/-- The loop over the entries of one directory in `GetFilePaths`; `recur` is
the recursive call. -/
def getFilePathsLoop (recur : Str → Except GoError (List FilePath)) (root : Str) :
    List EmbedFile → List FilePath → Except GoError (List FilePath)
  | [], fp => .ok fp
  | e :: es, fp =>
    let cpath := root ++ '/' :: e.Name
    if e.IsDir then
      let fp1 := fp ++ [⟨cpath, e.Name, [], [], true⟩]
      match recur cpath with
      | .error childErr =>
        .error (.errorf ("failed to collected children at root path(".toList ++ cpath ++ "): ".toList)
          childErr [])
      | .ok children => getFilePathsLoop recur root es (fp1 ++ children)
    else getFilePathsLoop recur root es (fp ++ [⟨cpath, e.Name, [], [], false⟩])

/-- `TmplWriter.GetFilePaths` with a bound on the recursion depth. -/
def GetFilePathsFuel (fs : EmbedFS) : Nat → Str → Except GoError (List FilePath)
  | 0, _ => .error (.lib "recursion budget exhausted".toList)
  | d + 1, root =>
    match fs.ReadDir root with
    | .error e =>
      .error (.errorf ("failed to read embedded files at dir(".toList ++ root ++ "): ".toList) e [])
    | .ok entries => getFilePathsLoop (GetFilePathsFuel fs d) root entries []

/-- `TmplWriter.GetFilePaths`: every level of the recursion reads a directory
entry of the filesystem with a longer name, so the number of entries bounds
the depth. -/
def GetFilePaths (fs : EmbedFS) (root : Str) : Except GoError (List FilePath) :=
  GetFilePathsFuel fs (fs.length + 1) root

/-! ## `projects.go` -/

def CobraProjectType : Str := "cobra".toList
def HeadlessServiceType : Str := "headless-service".toList
def SPAProjectType : Str := "spa".toList
def IndirectSelectionType : Str := "indirect-selection".toList

/-- The four `//go:embed` package variables. -/
structure Assets where
  cobraProject : EmbedFS
  headlessServiceProject : EmbedFS
  spaProject : EmbedFS
  indirectSelectionProject : EmbedFS

/-- `GetProjectFs`. -/
def GetProjectFs (a : Assets) (projType : Str) : Except GoError (EmbedFS × Str) :=
  if projType = CobraProjectType then
    .ok (a.cobraProject, "project_templates/_cobraProject".toList)
  else if projType = HeadlessServiceType then
    .ok (a.headlessServiceProject, "project_templates/_headlessServiceProject".toList)
  else if projType = SPAProjectType then
    .ok (a.spaProject, "project_templates/_spaProject".toList)
  else if projType = IndirectSelectionType then
    .ok (a.indirectSelectionProject, "project_templates/_indirectSelectionProject".toList)
  else .error (.new ("failed to detect embedded package: ".toList ++ projType))

/-- `ValidProjectTypes`. -/
def ValidProjectTypes : List Str :=
  [CobraProjectType, HeadlessServiceType, SPAProjectType, IndirectSelectionType]

/-- `IsValidProjectType`. -/
def IsValidProjectType (v : Str) : Bool :=
  if v = CobraProjectType then true
  else if v = HeadlessServiceType then true
  else if v = SPAProjectType then true
  else if v = IndirectSelectionType then true
  else false

/-- `NewTmplWriter`; the writer value returned next to an error is dropped. -/
def NewTmplWriter {σ : Type} (a : Assets) (outFs : Fs σ) (projType : Str) (vals : Dict) :
    Except GoError (TmplWriter σ) :=
  match GetProjectFs a projType with
  | .error e => .error (.errorf "fs error: ".toList e [])
  | .ok (fs, dirName) =>
    match GetFilePaths fs dirName with
    | .error e =>
      .error (.errorf "failed to walk filepath from root(.): ".toList e [])
    | .ok fps => .ok ⟨outFs, fs, fps, dirName, vals⟩

/-- The value printed for the field `k`: the map entry, or `<no value>` when
there is none. -/
def fieldValue (d : Dict) (k : Str) : Str := (d.get k).getD noValue

/-! ## Vocabulary of the statements -/

/-- A template written as literal texts each followed by a placeholder, and a
final literal text: `pieces = [(l₁, k₁), …]` and `last` stand for
`l₁ {{.k₁}} l₂ {{.k₂}} … last`. -/
def render : List (Str × Str) → Str → Str
  | [], last => last
  | (l, k) :: ps, last => l ++ (placeholder k ++ render ps last)

/-- The same text with every placeholder replaced by the value of its field. -/
def substitute (d : Dict) : List (Str × Str) → Str → Str
  | [], last => last
  | (l, k) :: ps, last => l ++ (fieldValue d k ++ substitute d ps last)

/-- The two names `fixGoModTemplPaths` looks for. -/
abbrev isGoModMask (name : Str) : Prop := name = "go.mod_".toList ∨ name = "go.sum_".toList

/-! ## Examples: an output filesystem, an archetype, writers -/

/-- An output filesystem that never fails: the directories made, in order, and
the files with their content. -/
structure MemFs where
  dirs : List Str
  files : List (Str × Str)
  deriving DecidableEq, Repr

def MemFs.impl : Fs MemFs where
  MkdirAll s p := (⟨s.dirs ++ [p], s.files⟩, none)
  Create s p := (⟨s.dirs, s.files.filter (fun f => f.1 ≠ p) ++ [(p, [])]⟩, none)
  Write s p data :=
    (⟨s.dirs, s.files.map (fun f => if f.1 = p then (f.1, f.2 ++ data) else f)⟩, data.length, none)
  Close s _ := (s, none)

/-- The empty output filesystem before any call. -/
def emptyWorld : World MemFs := ⟨⟨[], []⟩, []⟩

/-- Root of the headless-service archetype. -/
def headlessRoot : Str := "project_templates/_headlessServiceProject".toList

/-- A small archetype tree under `headlessRoot`: a project directory named by
a placeholder, a masked `go.mod_`, and `cmd/root.go`. -/
def exampleFS : EmbedFS :=
  [ ⟨"project_templates".toList, true, []⟩,
    ⟨headlessRoot, true, []⟩,
    ⟨headlessRoot ++ '/' :: placeholder "ProjectName".toList, true, []⟩,
    ⟨headlessRoot ++ '/' :: placeholder "ProjectName".toList ++ "/cmd".toList, true, []⟩,
    ⟨headlessRoot ++ '/' :: placeholder "ProjectName".toList ++ "/go.mod_".toList, false,
      "module ".toList ++ placeholder "ProjectPackage".toList⟩,
    ⟨headlessRoot ++ '/' :: placeholder "ProjectName".toList ++ "/cmd/root.go".toList, false,
      buildExclusionTemplate ++ "package cmd".toList⟩ ]

/-- The nodes `GetFilePaths` enumerates for `exampleFS`. -/
def exampleFilePaths : List FilePath :=
  [ ⟨headlessRoot ++ '/' :: placeholder "ProjectName".toList,
      placeholder "ProjectName".toList, [], [], true⟩,
    ⟨headlessRoot ++ '/' :: placeholder "ProjectName".toList ++ "/cmd".toList,
      "cmd".toList, [], [], true⟩,
    ⟨headlessRoot ++ '/' :: placeholder "ProjectName".toList ++ "/cmd/root.go".toList,
      "root.go".toList, [], [], false⟩,
    ⟨headlessRoot ++ '/' :: placeholder "ProjectName".toList ++ "/go.mod_".toList,
      "go.mod_".toList, [], [], false⟩ ]

/-- A writer for `exampleFS` with the given dictionary. -/
def exampleWriter (vals : Dict) : TmplWriter MemFs :=
  ⟨MemFs.impl, exampleFS, exampleFilePaths, headlessRoot, vals⟩

/-- A writer with the given nodes, for the archetype root `headlessRoot`. -/
def writerOf (fps : List FilePath) (vals : Dict) : TmplWriter MemFs :=
  ⟨MemFs.impl, exampleFS, fps, headlessRoot, vals⟩

/-- The dictionary of the concrete scenario of the specification. -/
def demoVals : Dict :=
  [("ProjectName".toList, "demo".toList), ("ProjectPackage".toList, "example.com/demo".toList)]

/-- The condition on a literal text that is followed by a placeholder, and on
a field name, under which `render` is read back unambiguously. -/
abbrev pieceOk (p : Str × Str) : Prop :=
  Contains p.1 leftDelim = false ∧ p.1.getLast? ≠ some '{' ∧ isFieldName p.2 = true

/-- A template made of literal text and field placeholders only. -/
def isSimpleTemplate (s : Str) : Prop :=
  ∃ pieces last, s = render pieces last ∧ (∀ p ∈ pieces, pieceOk p) ∧
    Contains last leftDelim = false

/-- The first node of a parse tree with `l` put in front of its text. -/
def prependText (l : Str) : List Node → List Node
  | .text p :: ns => .text (l ++ p) :: ns
  | ns => .text l :: ns

/-- Package variables of the example: `exampleFS` as the headless-service
archetype. -/
def exampleAssets : Assets := ⟨[], exampleFS, [], []⟩

/-- The example writer after path resolution with `demoVals`. -/
def resolvedWriter : TmplWriter MemFs :=
  writerOf (ResolveAllPathTemplates (exampleWriter demoVals)).1 demoVals

/-- The node `go.mod_` of the example archetype after path resolution with
`demoVals`. -/
def resolvedGoMod : FilePath :=
  ⟨headlessRoot ++ '/' :: placeholder "ProjectName".toList ++ "/go.mod_".toList,
    "go.mod_".toList, "demo/go.mod_".toList, "go.mod_".toList, false⟩

/-- Two nodes: a project directory named by the placeholder for `ProjectName`,
and below it a file whose name opens an action and never closes it. -/
def unclosedNodes : List FilePath :=
  [ ⟨headlessRoot ++ '/' :: placeholder "ProjectName".toList,
      placeholder "ProjectName".toList, [], [], true⟩,
    ⟨headlessRoot ++ '/' :: placeholder "ProjectName".toList ++ '/' :: leftDelim ++ ".Oops".toList,
      leftDelim ++ ".Oops".toList, [], [], false⟩ ]

/-! ## Vocabulary of the statements: markers, filesystem contract, containment -/

/-- The build-exclusion marker resolved against the dictionary `d`. -/
def resolvedMarker (d : Dict) : Str :=
  "// +build exclude ".toList ++ (fieldValue d "ProjectName".toList ++ "\n".toList)

/-- Number of positions of `s` at which `sub` occurs (overlapping occurrences
counted). -/
def occurrences (sub : Str) : Str → Nat
  | [] => if sub.isEmpty then 1 else 0
  | c :: t => (if sub.isPrefixOf (c :: t) then 1 else 0) + occurrences sub t

/-- The text `p₁ m p₂ m … pₙ m last`: the parts `pᵢ`, each followed by the
marker `m`, then `last`. -/
def joinMarked (m : Str) : List Str → Str → Str
  | [], last => last
  | p :: ps, last => p ++ (m ++ joinMarked m ps last)

/-- What is assumed of an output filesystem when a statement speaks of the
directories and files that exist after a run.  `isDir s p`: in state `s` the
path `p` is a directory; `content s p = some c`: `p` is a regular file with
content `c`.  A successful `MkdirAll` makes its path a directory; a successful
`Create` makes its path an empty regular file; a successful `Write` on an
empty file leaves in it the bytes it reports written; no call of the four turns
a directory into something else, and neither `Create`, `Write` nor `Close`
makes a regular file cease to be one. -/
structure FsContract {σ : Type} (fs : Fs σ) where
  isDir : σ → Str → Prop
  content : σ → Str → Option Str
  mkdirAll_makes : ∀ s p, (fs.MkdirAll s p).2 = none → isDir (fs.MkdirAll s p).1 p
  create_makes : ∀ s p, (fs.Create s p).2 = none → content (fs.Create s p).1 p = some []
  write_fresh : ∀ s p data, content s p = some [] → (fs.Write s p data).2.2 = none →
    content (fs.Write s p data).1 p = some (data.take (fs.Write s p data).2.1)
  close_keeps : ∀ s p q, content (fs.Close s p).1 q = content s q
  dir_mkdirAll : ∀ s p q, isDir s q → isDir (fs.MkdirAll s p).1 q
  dir_create : ∀ s p q, isDir s q → isDir (fs.Create s p).1 q
  dir_write : ∀ s p data q, isDir s q → isDir (fs.Write s p data).1 q
  dir_close : ∀ s p q, isDir s q → isDir (fs.Close s p).1 q
  file_create : ∀ s p q, (content s q).isSome = true → (content (fs.Create s p).1 q).isSome = true
  file_write : ∀ s p data q, (content s q).isSome = true →
    (content (fs.Write s p data).1 q).isSome = true

/-- The contract together with the frame property of files.  `same q p`: the
paths `q` and `p` name the same file, as `/out/x.go` and `/out/./x.go` do on a
filesystem that resolves paths.  Paths that name the same file have the same
content, and `Create` and `Write` on a path leave the content of every path
that names another file as it was. -/
structure FsFrameContract {σ : Type} (fs : Fs σ) extends FsContract fs where
  same : Str → Str → Prop
  same_refl : ∀ p, same p p
  content_same : ∀ s p q, same q p → content s q = content s p
  create_other : ∀ s p q, ¬ same q p → content (fs.Create s p).1 q = content s q
  write_other : ∀ s p data q, ¬ same q p → content (fs.Write s p data).1 q = content s q

/-- The `MkdirAll` call `CreatePath` makes for a node: the node's destination
for a directory, its parent directory for a file. -/
def mkdirOp (root : Str) (fp : FilePath) : FsOp :=
  if fp.IsDir then .MkdirAll (root ++ '/' :: fp.TemplPath)
  else .MkdirAll (Dir (root ++ '/' :: fp.TemplPath))

/-- A call that belongs to writing the file at `path`. -/
def isFileOp (path : Str) (o : FsOp) : Prop :=
  o = .Create path ∨ (∃ data, o = .Write path data) ∨ o = .Close path

/-- The elements of a path that name something: empty elements and `.` left
out. -/
def elements (p : Str) : List Str :=
  (splitSlash p).filter (fun e => e ≠ [] ∧ e ≠ ['.'])

/-- A cleaned path `cp` lies in the directory `d` or below it: both are
absolute or both relative, and the elements of `cp` are those of the cleaned
`d` followed by elements none of which is `..`. -/
def liesUnderClean (d cp : Str) : Prop :=
  (cp.head? = some '/' ↔ (Clean d).head? = some '/') ∧
    ∃ rest, elements cp = elements (Clean d) ++ rest ∧ ['.', '.'] ∉ rest

/-- The path `p`, once `.` and `..` are resolved, lies in `d` or below it. -/
def liesUnder (d p : Str) : Prop := liesUnderClean d (Clean p)

/-! ## Examples: a disk -/

/-- For examples: a disk on which a path is free (`none`), a directory
(`some none`) or a regular file with its content. -/
abbrev DiskFs := Str → Option (Option Str)

/-- The disk `s` with the entry of `p` replaced. -/
def DiskFs.set (s : DiskFs) (p : Str) (v : Option (Option Str)) : DiskFs :=
  fun q => if q = p then v else s q

/-- `MkdirAll` fails on a regular file, `Create` fails on a directory and
truncates otherwise, `Write` appends to a regular file. -/
def DiskFs.impl : Fs DiskFs where
  MkdirAll s p :=
    match s p with
    | some (some _) => (s, some (.lib "not a directory".toList))
    | _ => (s.set p (some none), none)
  Create s p :=
    match s p with
    | some none => (s, some (.lib "is a directory".toList))
    | _ => (s.set p (some (some [])), none)
  Write s p data :=
    match s p with
    | some (some c) => (s.set p (some (some (c ++ data))), data.length, none)
    | _ => (s, 0, some (.lib "bad file descriptor".toList))
  Close s _ := (s, none)

/-- The content of a regular file of the disk. -/
def DiskFs.content (s : DiskFs) (p : Str) : Option Str :=
  match s p with
  | some (some c) => some c
  | _ => none

/-- The empty disk before any call. -/
def emptyDisk : World DiskFs := ⟨fun _ => none, []⟩

/-- The example writer on a disk. -/
def diskWriter (fps : List FilePath) (vals : Dict) : TmplWriter DiskFs :=
  ⟨DiskFs.impl, exampleFS, fps, headlessRoot, vals⟩

/-! ## Further vocabulary and example data -/

/-- The example disk satisfies the contract. -/
def DiskFs.contract : FsFrameContract DiskFs.impl where
  isDir s p := s p = some none
  content := DiskFs.content
  mkdirAll_makes s p h := by
    simp only [DiskFs.impl] at h ⊢
    split at h <;> simp_all [DiskFs.set]
  create_makes s p h := by
    simp only [DiskFs.impl] at h ⊢
    split at h <;> simp_all [DiskFs.set, DiskFs.content]
  write_fresh s p data hc h := by
    simp only [DiskFs.impl, DiskFs.content] at h hc ⊢
    split at h <;> simp_all [DiskFs.set, DiskFs.content]
  close_keeps s p q := rfl
  dir_mkdirAll s p q hq := by
    simp only [DiskFs.impl]
    split
    · exact hq
    · simp only [DiskFs.set]
      split
      · rfl
      · exact hq
  dir_create s p q hq := by
    simp only [DiskFs.impl]
    split
    · exact hq
    · rename_i hnd
      simp only [DiskFs.set]
      split
      · rename_i e; subst e; exact absurd hq (hnd)
      · exact hq
  dir_write s p data q hq := by
    simp only [DiskFs.impl]
    split
    · rename_i c hc
      simp only [DiskFs.set]
      split
      · rename_i e; subst e; rw [hq] at hc; simp at hc
      · exact hq
    · exact hq
  dir_close s p q hq := hq
  file_create s p q hq := by
    simp only [DiskFs.impl]
    split
    · exact hq
    · by_cases e : q = p
      · simp [DiskFs.set, DiskFs.content, e]
      · simpa [DiskFs.set, DiskFs.content, e] using hq
  file_write s p data q hq := by
    simp only [DiskFs.impl]
    split
    · by_cases e : q = p
      · simp [DiskFs.set, DiskFs.content, e]
      · simpa [DiskFs.set, DiskFs.content, e] using hq
    · exact hq
  same q p := q = p
  same_refl _ := rfl
  content_same s p q h := by rw [h]
  create_other s p q hne := by
    simp only [DiskFs.impl]
    split
    · rfl
    · simp [DiskFs.set, DiskFs.content, hne]
  write_other s p data q hne := by
    simp only [DiskFs.impl]
    split
    · simp [DiskFs.set, DiskFs.content, hne]
    · rfl

/-- For examples: the disk behind a filesystem that resolves the paths it is
given, so that `/out/x.go` and `/out/./x.go` are one file.  Every call cleans
its path first. -/
def CleanFs.impl : Fs DiskFs where
  MkdirAll s p := DiskFs.impl.MkdirAll s (Clean p)
  Create s p := DiskFs.impl.Create s (Clean p)
  Write s p data := DiskFs.impl.Write s (Clean p) data
  Close s p := DiskFs.impl.Close s (Clean p)

/-- The content of the regular file a path names on the path-resolving disk. -/
def CleanFs.content (s : DiskFs) (p : Str) : Option Str := DiskFs.content s (Clean p)

/-- The path-resolving disk satisfies the contract with the frame property:
two paths name the same file when they are the same once cleaned. -/
def CleanFs.contract : FsFrameContract CleanFs.impl where
  isDir s p := s (Clean p) = some none
  content := CleanFs.content
  mkdirAll_makes s p h := DiskFs.contract.mkdirAll_makes s (Clean p) h
  create_makes s p h := DiskFs.contract.create_makes s (Clean p) h
  write_fresh s p data hc h := DiskFs.contract.write_fresh s (Clean p) data hc h
  close_keeps s p q := rfl
  dir_mkdirAll s p q hq := DiskFs.contract.dir_mkdirAll s (Clean p) (Clean q) hq
  dir_create s p q hq := DiskFs.contract.dir_create s (Clean p) (Clean q) hq
  dir_write s p data q hq := DiskFs.contract.dir_write s (Clean p) data (Clean q) hq
  dir_close s p q hq := hq
  file_create s p q hq := DiskFs.contract.file_create s (Clean p) (Clean q) hq
  file_write s p data q hq := DiskFs.contract.file_write s (Clean p) data (Clean q) hq
  same q p := Clean q = Clean p
  same_refl _ := rfl
  content_same s p q h := by
    show DiskFs.content s (Clean q) = DiskFs.content s (Clean p)
    rw [h]
  create_other s p q hne := DiskFs.contract.create_other s (Clean p) (Clean q) hne
  write_other s p data q hne := DiskFs.contract.write_other s (Clean p) data (Clean q) hne

/-- A broken archetype for examples: next to `good.go` the file `bad.go`, whose
content opens an action and never closes it. -/
def brokenFS : EmbedFS :=
  [ ⟨"t".toList, true, []⟩,
    ⟨"t/good.go".toList, false, "package good".toList⟩,
    ⟨"t/bad.go".toList, false, "package ".toList ++ leftDelim ++ ".Oops".toList⟩,
    ⟨"t/late.go".toList, false, "package late".toList⟩ ]

/-- A writer on a disk for `brokenFS`, with nodes already resolved. -/
def brokenWriter (fps : List FilePath) : TmplWriter DiskFs :=
  ⟨DiskFs.impl, brokenFS, fps, "t".toList, demoVals⟩

/-- A disk on which the destination of `cmd/root.go` already holds a file. -/
def usedDisk : World DiskFs :=
  ⟨DiskFs.set (fun _ => none) "/tmp/out/demo/cmd/root.go".toList
    (some (some "package old // a longer content than the new one".toList)), []⟩

/-- Node of `brokenFS` for `good.go`, resolved. -/
def goodNode : FilePath :=
  ⟨"t/good.go".toList, "good.go".toList, "good.go".toList, "good.go".toList, false⟩

/-- Node of `brokenFS` for `bad.go`, resolved. -/
def badNode : FilePath :=
  ⟨"t/bad.go".toList, "bad.go".toList, "bad.go".toList, "bad.go".toList, false⟩

/-- Node of `brokenFS` for `late.go`, resolved. -/
def lateNode : FilePath :=
  ⟨"t/late.go".toList, "late.go".toList, "late.go".toList, "late.go".toList, false⟩

/-- The error `WriteFileTemplateData` returns for `badNode`. -/
def badContentError : GoError :=
  .errorf "failed to exec template: ".toList
    (.errorf "cannot execute template with file(t/bad.go): ".toList
      (.errorf "path parsing error: ".toList (.template .unclosedAction) []) []) []

/-- The path argument of a call. -/
def FsOp.path : FsOp → Str
  | .MkdirAll p => p
  | .Create p => p
  | .Write p _ => p
  | .Close p => p

/-- Initial state of the main loop of `Clean`. -/
def cleanInit (rooted : Bool) : Str × Nat := if rooted then (['/'], 1) else ([], 0)

/-- Final step of `Clean`: the empty buffer stands for `.`. -/
def cleanEnd (out : Str) : Str := if out = [] then ['.'] else out

/-- The invariant of the main loop of `Clean`: the buffer starts with a slash
exactly for a rooted path, and then `dotdot` stays at `1`. -/
def cleanInv (rooted : Bool) (st : Str × Nat) : Prop :=
  (st.1.head? = some '/' ↔ rooted = true) ∧ (rooted = true → st.2 = 1)

/-! ## Library: case mapping of package `strings`

`strings.ToUpper` and `strings.ToLower` treat strings of ASCII characters
themselves and hand every other string to `unicode.ToUpper` /
`unicode.ToLower`, which map a character above `unicode.MaxASCII` through the
case tables of package `unicode`.  The tables are a parameter. -/

/-- The case tables of package `unicode` on the characters above
`unicode.MaxASCII`: `unicode.To(unicode.UpperCase, r)` and
`unicode.To(unicode.LowerCase, r)`. -/
structure CaseTables where
  upper : Char → Char
  lower : Char → Char

/-- The test `c < utf8.RuneSelf` on every character. -/
def isASCII (s : Str) : Bool := s.all (fun c => c.toNat < 128)

/-- The statement `c -= 'a' - 'A'` on a lower-case ASCII letter. -/
def asciiUpper (c : Char) : Char :=
  if 'a' ≤ c ∧ c ≤ 'z' then Char.ofNat (c.toNat - 32) else c

/-- The statement `c += 'a' - 'A'` on an upper-case ASCII letter. -/
def asciiLower (c : Char) : Char :=
  if 'A' ≤ c ∧ c ≤ 'Z' then Char.ofNat (c.toNat + 32) else c

/-- Go `unicode.ToUpper(r)`. -/
def unicodeToUpper (t : CaseTables) (c : Char) : Char :=
  if c.toNat ≤ 127 then asciiUpper c else t.upper c

/-- Go `unicode.ToLower(r)`. -/
def unicodeToLower (t : CaseTables) (c : Char) : Char :=
  if c.toNat ≤ 127 then asciiLower c else t.lower c

/-- Go `strings.ToUpper(s)`. -/
def ToUpper (t : CaseTables) (s : Str) : Str :=
  if isASCII s then
    if !s.any (fun c => 'a' ≤ c ∧ c ≤ 'z') then s else s.map asciiUpper
  else s.map (unicodeToUpper t)

/-- Go `strings.ToLower(s)`. -/
def ToLower (t : CaseTables) (s : Str) : Str :=
  if isASCII s then
    if !s.any (fun c => 'A' ≤ c ∧ c ≤ 'Z') then s else s.map asciiLower
  else s.map (unicodeToLower t)

/-- Go `strings.Join(elems, sep)`. -/
def Join : List Str → Str → Str
  | [], _ => []
  | [a], _ => a
  | a :: b :: rest, sep => a ++ sep ++ Join (b :: rest) sep

/-- Index expression `m[k]` on a `map[string]bool`: `false` when there is no
entry. -/
def indexBool (m : List (Str × Bool)) (k : Str) : Bool :=
  match m.find? (fun e => e.1 = k) with
  | some e => e.2
  | none => false

/-- The verb `%d` of `fmt` on an `int`. -/
def formatInt (n : Int) : Str := (toString n).toList

/-! ## Archetype `headless-service`: `config.go` -/

namespace HeadlessService

/-- `time.Duration` is an `int64` count of nanoseconds. -/
structure ServerConfig where
  Port : Int
  ReadTimeout : Int
  WriteTimeout : Int
  deriving DecidableEq, Repr

structure LoggingConfig where
  Level : Str
  Format : Str
  deriving DecidableEq, Repr

structure MetricsConfig where
  Enabled : Bool
  Namespace : Str
  deriving DecidableEq, Repr

structure WorkerConfig where
  Interval : Int
  deriving DecidableEq, Repr

structure Config where
  Server : ServerConfig
  Logging : LoggingConfig
  Metrics : MetricsConfig
  Worker : WorkerConfig
  deriving DecidableEq, Repr

/-- The map literal `validLevels`. -/
def validLevels : List (Str × Bool) :=
  [("debug".toList, true), ("info".toList, true), ("warn".toList, true), ("error".toList, true),
    ("dpanic".toList, true), ("panic".toList, true), ("fatal".toList, true)]

/-- The map literal `validFormats`. -/
def validFormats : List (Str × Bool) := [("json".toList, true), ("console".toList, true)]

/-- `validateConfig` of the headless-service archetype; `none` is `nil`. -/
def validateConfig (cfg : Config) : Option GoError :=
  if cfg.Server.Port ≤ 0 ∨ cfg.Server.Port > 65535 then
    some (.new ("server.port must be between 1 and 65535, got ".toList ++ formatInt cfg.Server.Port))
  else if cfg.Server.ReadTimeout ≤ 0 then
    some (.new "server.read_timeout must be positive".toList)
  else if cfg.Server.WriteTimeout ≤ 0 then
    some (.new "server.write_timeout must be positive".toList)
  else if !indexBool validLevels cfg.Logging.Level then
    some (.new
      "logging.level must be one of: debug, info, warn, error, dpanic, panic, fatal".toList)
  else if !indexBool validFormats cfg.Logging.Format then
    some (.new "logging.format must be one of: json, console".toList)
  else if cfg.Worker.Interval ≤ 0 then
    some (.new "worker.interval must be positive".toList)
  else none

end HeadlessService

/-! ## Archetype `spa`: `config.go` -/

namespace SPA

structure Config where
  ServerAddress : Str
  MetricsAddress : Str
  LogLevel : Str
  OIDCClientID : Str
  OIDCClientSecret : Str
  OIDCIssuerURL : Str
  OIDCRedirectURL : Str
  OIDCCookieDomain : Str
  OIDCCookieSecure : Bool
  OIDCStaticToken : Str
  deriving DecidableEq, Repr

/-- The slice literal `validLogLevels`. -/
def validLogLevels : List Str :=
  ["debug".toList, "info".toList, "warn".toList, "error".toList, "fatal".toList, "panic".toList]

/-- The loop `for _, level := range validLogLevels` with its `break`: the
value of `validLevel` after it. -/
def validLevelLoop (t : CaseTables) (logLevel : Str) : List Str → Bool
  | [] => false
  | level :: rest => if ToLower t logLevel = level then true else validLevelLoop t logLevel rest

/-- `validateConfig` of the spa archetype; `none` is `nil`. -/
def validateConfig (t : CaseTables) (config : Config) : Option GoError :=
  if !validLevelLoop t config.LogLevel validLogLevels then
    some (.new ("invalid log level: ".toList ++ config.LogLevel ++ " (must be one of: ".toList ++
      Join validLogLevels ", ".toList ++ [')']))
  else if config.OIDCClientID ≠ [] ∧ config.OIDCClientSecret = [] then
    some (.new "oidc_client_secret is required when oidc_client_id is set".toList)
  else if config.OIDCClientSecret ≠ [] ∧ config.OIDCClientID = [] then
    some (.new "oidc_client_id is required when oidc_client_secret is set".toList)
  else if config.ServerAddress = [] then
    some (.new "server_address cannot be empty".toList)
  else if config.MetricsAddress = [] then
    some (.new "metrics_address cannot be empty".toList)
  else none

end SPA

/-- Case tables that leave every character as it is; for examples on ASCII
strings, which never reach the tables. -/
def idTables : CaseTables := ⟨id, id⟩

/-- Assignment `m[k] = v` on a map: the entry for `k` is replaced, or added. -/
def Dict.set (d : Dict) (k v : Str) : Dict :=
  if d.any (fun e => e.1 = k) then d.map (fun e => if e.1 = k then (k, v) else e)
  else d ++ [(k, v)]

/-! ## `headlessServiceParams.go`, `indirectSelectionParams.go`, `spaParams.go` -/

structure HeadlessServiceParams where
  ProjectName : Str
  ProjectPackage : Str
  EnvPrefix : Str
  ProjectShortDesc : Str
  ProjectLongDesc : Str
  MaintainerName : Str
  MaintainerEmail : Str
  GolangVersion : Str
  DbtRepo : Str
  ProjectVersion : Str
  DefaultServerPort : Str
  ServerShortDesc : Str
  ServerLongDesc : Str
  OwnerName : Str
  OwnerEmail : Str
  deriving DecidableEq, Repr

/-- The map `json.Unmarshal` fills from what `json.Marshal` wrote for the
struct: one entry per `json` tag, holding the string of the field.  Neither
call fails on a struct of strings. -/
def HeadlessServiceParams.jsonMap (hsp : HeadlessServiceParams) : Dict :=
  [("ProjectName".toList, hsp.ProjectName), ("ProjectPackage".toList, hsp.ProjectPackage),
    ("EnvPrefix".toList, hsp.EnvPrefix), ("ProjectShortDesc".toList, hsp.ProjectShortDesc),
    ("ProjectLongDesc".toList, hsp.ProjectLongDesc), ("MaintainerName".toList, hsp.MaintainerName),
    ("MaintainerEmail".toList, hsp.MaintainerEmail), ("GolangVersion".toList, hsp.GolangVersion),
    ("DbtRepo".toList, hsp.DbtRepo), ("ProjectVersion".toList, hsp.ProjectVersion),
    ("DefaultServerPort".toList, hsp.DefaultServerPort),
    ("ServerShortDesc".toList, hsp.ServerShortDesc), ("ServerLongDesc".toList, hsp.ServerLongDesc),
    ("OwnerName".toList, hsp.OwnerName), ("OwnerEmail".toList, hsp.OwnerEmail)]

/-- `HeadlessServiceParams.AsMap`: the map and the error, which is `nil`. -/
def HeadlessServiceParams.AsMap (hsp : HeadlessServiceParams) : Dict × Option GoError :=
  (hsp.jsonMap.set "ProjectPackageName".toList (ReplaceAll hsp.ProjectName ['-'] []), none)

structure IndirectSelectionParams where
  ProjectName : Str
  ProjectPackage : Str
  EnvPrefix : Str
  ProjectShortDesc : Str
  ProjectLongDesc : Str
  MaintainerName : Str
  MaintainerEmail : Str
  GolangVersion : Str
  DbtRepo : Str
  ProjectVersion : Str
  DefaultServerPort : Str
  ServerShortDesc : Str
  ServerLongDesc : Str
  OwnerName : Str
  OwnerEmail : Str
  deriving DecidableEq, Repr

/-- The map `json.Unmarshal` fills from what `json.Marshal` wrote for the
struct: one entry per `json` tag, holding the string of the field. -/
def IndirectSelectionParams.jsonMap (isp : IndirectSelectionParams) : Dict :=
  [("ProjectName".toList, isp.ProjectName), ("ProjectPackage".toList, isp.ProjectPackage),
    ("EnvPrefix".toList, isp.EnvPrefix), ("ProjectShortDesc".toList, isp.ProjectShortDesc),
    ("ProjectLongDesc".toList, isp.ProjectLongDesc), ("MaintainerName".toList, isp.MaintainerName),
    ("MaintainerEmail".toList, isp.MaintainerEmail), ("GolangVersion".toList, isp.GolangVersion),
    ("DbtRepo".toList, isp.DbtRepo), ("ProjectVersion".toList, isp.ProjectVersion),
    ("DefaultServerPort".toList, isp.DefaultServerPort),
    ("ServerShortDesc".toList, isp.ServerShortDesc), ("ServerLongDesc".toList, isp.ServerLongDesc),
    ("OwnerName".toList, isp.OwnerName), ("OwnerEmail".toList, isp.OwnerEmail)]

/-- `IndirectSelectionParams.AsMap`: the map and the error, which is `nil`. -/
def IndirectSelectionParams.AsMap (isp : IndirectSelectionParams) : Dict × Option GoError :=
  (isp.jsonMap.set "ProjectPackageName".toList (ReplaceAll isp.ProjectName ['-'] []), none)

/-- `SPAParams`: every field is a `*string`; `none` is the nil pointer. -/
structure SPAParams where
  ProjectName : Option Str
  ProjectPackage : Option Str
  ProjectPackageName : Option Str
  ProjectShortDesc : Option Str
  ProjectLongDesc : Option Str
  ProjectVersion : Option Str
  GolangVersion : Option Str
  ProjectMaintainerName : Option Str
  ProjectMaintainerEmail : Option Str
  DbtRepo : Option Str
  deriving DecidableEq, Repr

/-- `NewSPAParams`: every pointer initialised with `new(string)`. -/
def NewSPAParams : SPAParams :=
  ⟨some [], some [], some [], some [], some [], some [], some [], some [], some [], some []⟩

/-- `SPAParams.AsMap`: the map and the error, which is `nil`; `none` is the
panic of dereferencing a nil pointer in the map literal. -/
def SPAParams.AsMap (t : CaseTables) (p : SPAParams) : Option (Dict × Option GoError) :=
  match p.ProjectName, p.ProjectPackage, p.ProjectShortDesc, p.ProjectLongDesc, p.ProjectVersion,
    p.GolangVersion, p.ProjectMaintainerName, p.ProjectMaintainerEmail, p.DbtRepo with
  | some projectName, some projectPackage, some projectShortDesc, some projectLongDesc,
      some projectVersion, some golangVersion, some projectMaintainerName,
      some projectMaintainerEmail, some dbtRepo =>
    let data : Dict :=
      [("ProjectName".toList, projectName), ("ProjectPackage".toList, projectPackage),
        ("ProjectShortDesc".toList, projectShortDesc), ("ProjectLongDesc".toList, projectLongDesc),
        ("ProjectVersion".toList, projectVersion), ("GolangVersion".toList, golangVersion),
        ("ProjectMaintainerName".toList, projectMaintainerName),
        ("ProjectMaintainerEmail".toList, projectMaintainerEmail), ("DbtRepo".toList, dbtRepo)]
    let data1 := data.set "ProjectPackageName".toList (ReplaceAll projectName ['-'] [])
    let envPrefix := ToUpper t (ReplaceAll projectName ['-'] ['_'])
    some (data1.set "ProjectEnvPrefix".toList envPrefix, none)
  | _, _, _, _, _, _, _, _, _ => none

/-- Parameters of the concrete scenarios: `NewSPAParams` with the project name
assigned. -/
def spaParamsNamed (name : Str) : SPAParams := { NewSPAParams with ProjectName := some name }

/-- What the tables have to satisfy at a character for the environment prefix
to be free of dashes and lower-case ASCII letters and stable under the
transformation: the upper-case form is neither a dash nor a lower-case ASCII
letter, and is its own upper-case form. -/
def upperStable (t : CaseTables) (c : Char) : Prop :=
  t.upper c ≠ '-' ∧ ¬ ('a' ≤ t.upper c ∧ t.upper c ≤ 'z') ∧
    (127 < (t.upper c).toNat → t.upper (t.upper c) = t.upper c)

/-- A disk on which the destination of `bad.go` is a directory. -/
def dirDisk : World DiskFs :=
  ⟨DiskFs.set (fun _ => none) "/out/bad.go".toList (some none), []⟩

/-- A disk on which the destination of `bad.go` holds a file. -/
def oldDisk : World DiskFs :=
  ⟨DiskFs.set (fun _ => none) "/out/bad.go".toList (some (some "package old".toList)), []⟩

/-- The dictionary of a scenario in which the project itself is named
`go.mod_`. -/
def maskedNameVals : Dict :=
  [("ProjectName".toList, "go.mod_".toList), ("ProjectPackage".toList, "example.com/demo".toList)]

/-- An archetype in which three files get the same destination: `x.go`, a
file named by the field `B` and a file named by the field `C`. -/
def aliasFS : EmbedFS :=
  [ ⟨"t".toList, true, []⟩,
    ⟨"t/x.go".toList, false, "package first".toList⟩,
    ⟨"t/".toList ++ placeholder "B".toList, false, "package second".toList⟩,
    ⟨"t/".toList ++ placeholder "C".toList, false, "package third".toList⟩ ]

/-- The nodes of `aliasFS`. -/
def aliasNodes : List FilePath :=
  [ ⟨"t/x.go".toList, "x.go".toList, [], [], false⟩,
    ⟨"t/".toList ++ placeholder "B".toList, placeholder "B".toList, [], [], false⟩,
    ⟨"t/".toList ++ placeholder "C".toList, placeholder "C".toList, [], [], false⟩ ]

/-- A writer for `aliasFS` on the path-resolving disk; the dictionary gives
`B` the value `x.go` and `C` the value `./x.go`, another spelling of it. -/
def aliasWriter : TmplWriter DiskFs :=
  ⟨CleanFs.impl, aliasFS, aliasNodes, "t".toList,
    [("B".toList, "x.go".toList), ("C".toList, "./x.go".toList)]⟩

/-- The nodes of `aliasFS` after path resolution with the dictionary of
`aliasWriter`. -/
def aliasResolved : List FilePath :=
  [ ⟨"t/x.go".toList, "x.go".toList, "x.go".toList, "x.go".toList, false⟩,
    ⟨"t/".toList ++ placeholder "B".toList, placeholder "B".toList, "x.go".toList,
      "x.go".toList, false⟩,
    ⟨"t/".toList ++ placeholder "C".toList, placeholder "C".toList, "./x.go".toList,
      "./x.go".toList, false⟩ ]

/-- The node of `aliasFS` that resolves to `./x.go`. -/
def aliasThird : FilePath :=
  ⟨"t/".toList ++ placeholder "C".toList, placeholder "C".toList, "./x.go".toList,
    "./x.go".toList, false⟩

/-- The method `Error()` of a Go `error`: the message.  The texts of the
errors of `text/template` are a parameter. -/
def GoError.Error (text : TemplateError → Str) : GoError → Str
  | .template e => text e
  | .lib msg => msg
  | .new msg => msg
  | .errorf pre inner post => pre ++ GoError.Error text inner ++ post

/-- An output filesystem on which every call succeeds and `Write` reports
that it wrote no byte. -/
def shortFs : Fs Unit where
  MkdirAll s _ := (s, none)
  Create s _ := (s, none)
  Write s _ _ := (s, 0, none)
  Close s _ := (s, none)

/-- The text of the errors of `text/template` in the examples. -/
def unclosedText : TemplateError → Str := fun _ => "template: tmplWriter:1: unclosed action".toList

/-- A writer for the example archetype on `shortFs`. -/
def shortWriter : TmplWriter Unit := ⟨shortFs, exampleFS, exampleFilePaths, headlessRoot, demoVals⟩

/-- A writer whose only node is `t/bad.go`, a file whose content does not
parse. -/
def badGoWriter : TmplWriter DiskFs :=
  brokenWriter [⟨"t/bad.go".toList, "bad.go".toList, [], [], false⟩]

/-- The error `BuildProject` returns for `badGoWriter`. -/
def badGoError : GoError :=
  .errorf "writing file(bad.go) failed: ".toList badContentError []

/-! ## Template trees

The children of a directory, in the order `ReadDir` lists them: each is a file
or a directory with its own children. -/

/-- A list of sibling nodes of a template tree. -/
inductive Forest where
  | nil
  | file (name : Str) (rest : Forest)
  | dir (name : Str) (children : Forest) (rest : Forest)
  deriving DecidableEq, Repr

/-- Number of nodes. -/
def Forest.size : Forest → Nat
  | .nil => 0
  | .file _ rest => rest.size + 1
  | .dir _ children rest => children.size + rest.size + 1

/-- Number of directory levels below the parent. -/
def Forest.height : Forest → Nat
  | .nil => 0
  | .file _ rest => rest.height
  | .dir _ children rest => max (children.height + 1) rest.height

/-- Names of the siblings. -/
def Forest.names : Forest → List Str
  | .nil => []
  | .file name rest => name :: rest.names
  | .dir name _ rest => name :: rest.names

/-- Depth-first pre-order listing of the nodes below the directory `parent`:
every node with `Path` the path of its parent, a slash and its name; a
directory is followed at once by the listing of its children, then come its
later siblings. -/
def Forest.preorder (parent : Str) : Forest → List FilePath
  | .nil => []
  | .file name rest => ⟨parent ++ '/' :: name, name, [], [], false⟩ :: rest.preorder parent
  | .dir name children rest =>
    ⟨parent ++ '/' :: name, name, [], [], true⟩ ::
      (children.preorder (parent ++ '/' :: name) ++ rest.preorder parent)

/-- Sibling names are pairwise distinct and contain no slash, at every
level. -/
def Forest.WellFormed : Forest → Prop
  | .nil => True
  | .file name rest => '/' ∉ name ∧ name ∉ rest.names ∧ rest.WellFormed
  | .dir name children rest =>
    '/' ∉ name ∧ name ∉ rest.names ∧ children.WellFormed ∧ rest.WellFormed

/-- The entries `entries` of the directory `parent` are the siblings, and the
embedded filesystem lists below each directory its children. -/
def presentsList (fs : EmbedFS) (parent : Str) : List EmbedFile → Forest → Bool
  | [], .nil => true
  | e :: es, .file name rest =>
    decide (e.Name = name) && !e.IsDir && presentsList fs parent es rest
  | e :: es, .dir name children rest =>
    decide (e.Name = name) && e.IsDir &&
      (match fs.ReadDir (parent ++ '/' :: name) with
        | .ok l => presentsList fs (parent ++ '/' :: name) l children
        | .error _ => false) &&
      presentsList fs parent es rest
  | _, _ => false

/-- The embedded filesystem holds the template tree `f` below `root`:
`ReadDir` of `root` and of every directory below lists the children of the
tree, in order. -/
def presents (fs : EmbedFS) (root : Str) (f : Forest) : Bool :=
  match fs.ReadDir root with
  | .ok l => presentsList fs root l f
  | .error _ => false

/-- The tree of `exampleFS` below `headlessRoot`. -/
def exampleForest : Forest :=
  .dir (placeholder "ProjectName".toList)
    (.dir "cmd".toList (.file "root.go".toList .nil) (.file "go.mod_".toList .nil)) .nil

/-! ## The archetypes -/

/-- A node of an archetype: its full name in the embedded filesystem, its
kind, and the fields printed by the actions of its content, in the order of
their first occurrence.  Every action in the contents prints one field. -/
structure TemplateFile where
  name : Str
  IsDir : Bool
  fields : List Str
  deriving DecidableEq, Repr

/-- Root of the spa archetype. -/
def spaRoot : Str := "project_templates/_spaProject".toList

/-- Root of the indirect-selection archetype. -/
def indirectSelectionRoot : Str := "project_templates/_indirectSelectionProject".toList

/-- The project directory of an archetype, named by a placeholder. -/
def projectDir (root : Str) : Str := root ++ '/' :: placeholder "ProjectName".toList

/-- The package directory of an archetype, named by a placeholder. -/
def packageDir (root : Str) : Str :=
  projectDir root ++ "/pkg/".toList ++ placeholder "ProjectPackageName".toList

/-- The directories and Go source files of the archetype `headless-service`. -/
def headlessTemplates : List TemplateFile :=
  [ ⟨projectDir headlessRoot, true, []⟩,
    ⟨projectDir headlessRoot ++ "/cmd".toList, true, []⟩,
    ⟨projectDir headlessRoot ++ "/cmd/root.go".toList, false,
      ["ProjectVersion".toList, "OwnerName".toList, "OwnerEmail".toList, "ProjectName".toList,
        "ProjectShortDesc".toList, "ProjectLongDesc".toList]⟩,
    ⟨projectDir headlessRoot ++ "/cmd/server.go".toList, false,
      ["ProjectVersion".toList, "OwnerName".toList, "OwnerEmail".toList,
        "ProjectPackage".toList, "ProjectPackageName".toList, "ServerShortDesc".toList,
        "ServerLongDesc".toList]⟩,
    ⟨projectDir headlessRoot ++ "/pkg".toList, true, []⟩,
    ⟨packageDir headlessRoot, true, []⟩,
    ⟨packageDir headlessRoot ++ "/config.go".toList, false,
      ["ProjectPackageName".toList, "ProjectName".toList]⟩,
    ⟨packageDir headlessRoot ++ "/config_test.go".toList, false,
      ["ProjectPackageName".toList, "ProjectName".toList]⟩,
    ⟨packageDir headlessRoot ++ "/logging.go".toList, false,
      ["ProjectPackageName".toList]⟩,
    ⟨packageDir headlessRoot ++ "/metrics.go".toList, false,
      ["ProjectPackageName".toList]⟩,
    ⟨packageDir headlessRoot ++ "/server.go".toList, false,
      ["ProjectPackageName".toList]⟩,
    ⟨packageDir headlessRoot ++ "/server_test.go".toList, false,
      ["ProjectPackageName".toList]⟩,
    ⟨packageDir headlessRoot ++ "/".toList ++ placeholder "ProjectPackageName".toList ++ ".go".toList, false,
      ["ProjectPackageName".toList, "ProjectName".toList]⟩,
    ⟨packageDir headlessRoot ++ "/".toList ++ placeholder "ProjectPackageName".toList ++ "_test.go".toList, false,
      ["ProjectPackageName".toList]⟩ ]

/-- The directories and Go source files of the archetype `spa`. -/
def spaTemplates : List TemplateFile :=
  [ ⟨projectDir spaRoot, true, []⟩,
    ⟨projectDir spaRoot ++ "/cmd".toList, true, []⟩,
    ⟨projectDir spaRoot ++ "/cmd/root.go".toList, false,
      ["ProjectName".toList, "ProjectShortDesc".toList, "ProjectLongDesc".toList]⟩,
    ⟨projectDir spaRoot ++ "/cmd/server.go".toList, false,
      ["ProjectPackage".toList, "ProjectPackageName".toList, "ProjectName".toList]⟩,
    ⟨projectDir spaRoot ++ "/pkg".toList, true, []⟩,
    ⟨projectDir spaRoot ++ "/pkg/auth".toList, true, []⟩,
    ⟨projectDir spaRoot ++ "/pkg/auth/oidc.go".toList, false, []⟩,
    ⟨projectDir spaRoot ++ "/pkg/auth/oidc_test.go".toList, false, []⟩,
    ⟨projectDir spaRoot ++ "/pkg/ui".toList, true, []⟩,
    ⟨projectDir spaRoot ++ "/pkg/ui/ui.go".toList, false, []⟩,
    ⟨projectDir spaRoot ++ "/pkg/ui/ui_test.go".toList, false, []⟩,
    ⟨packageDir spaRoot, true, []⟩,
    ⟨packageDir spaRoot ++ "/config.go".toList, false,
      ["ProjectPackageName".toList, "ProjectName".toList, "ProjectEnvPrefix".toList]⟩,
    ⟨packageDir spaRoot ++ "/config_test.go".toList, false,
      ["ProjectPackageName".toList]⟩,
    ⟨packageDir spaRoot ++ "/logging.go".toList, false,
      ["ProjectPackageName".toList, "ProjectName".toList]⟩,
    ⟨packageDir spaRoot ++ "/metrics.go".toList, false,
      ["ProjectPackageName".toList]⟩,
    ⟨packageDir spaRoot ++ "/metrics_test.go".toList, false,
      ["ProjectPackageName".toList]⟩,
    ⟨packageDir spaRoot ++ "/server.go".toList, false,
      ["ProjectPackageName".toList, "ProjectPackage".toList, "ProjectName".toList]⟩,
    ⟨packageDir spaRoot ++ "/server_test.go".toList, false,
      ["ProjectPackageName".toList, "ProjectName".toList]⟩ ]

/-- The directories and Go source files of the archetype `indirect-selection`. -/
def indirectSelectionTemplates : List TemplateFile :=
  [ ⟨projectDir indirectSelectionRoot, true, []⟩,
    ⟨projectDir indirectSelectionRoot ++ "/cmd".toList, true, []⟩,
    ⟨projectDir indirectSelectionRoot ++ "/cmd/bar.go".toList, false, []⟩,
    ⟨projectDir indirectSelectionRoot ++ "/cmd/baz.go".toList, false, []⟩,
    ⟨projectDir indirectSelectionRoot ++ "/cmd/foo.go".toList, false, []⟩,
    ⟨projectDir indirectSelectionRoot ++ "/cmd/root.go".toList, false,
      ["ProjectPackage".toList, "ProjectPackageName".toList, "ProjectName".toList]⟩,
    ⟨projectDir indirectSelectionRoot ++ "/cmd/server.go".toList, false,
      ["ProjectPackage".toList, "ProjectPackageName".toList, "ProjectName".toList,
        "EnvPrefix".toList]⟩,
    ⟨projectDir indirectSelectionRoot ++ "/pkg".toList, true, []⟩,
    ⟨projectDir indirectSelectionRoot ++ "/pkg/jwt".toList, true, []⟩,
    ⟨projectDir indirectSelectionRoot ++ "/pkg/jwt/jwt.go".toList, false, []⟩,
    ⟨projectDir indirectSelectionRoot ++ "/pkg/jwt/user.go".toList, false, []⟩,
    ⟨packageDir indirectSelectionRoot, true, []⟩,
    ⟨packageDir indirectSelectionRoot ++ "/auth.go".toList, false,
      ["ProjectPackageName".toList, "ProjectPackage".toList]⟩,
    ⟨packageDir indirectSelectionRoot ++ "/client.go".toList, false,
      ["ProjectPackageName".toList, "ProjectPackage".toList]⟩,
    ⟨packageDir indirectSelectionRoot ++ "/config.go".toList, false,
      ["ProjectPackageName".toList, "ProjectName".toList, "EnvPrefix".toList]⟩,
    ⟨packageDir indirectSelectionRoot ++ "/config_test.go".toList, false,
      ["ProjectPackageName".toList]⟩,
    ⟨packageDir indirectSelectionRoot ++ "/health.go".toList, false,
      ["ProjectPackageName".toList]⟩,
    ⟨packageDir indirectSelectionRoot ++ "/metrics.go".toList, false,
      ["ProjectPackageName".toList]⟩,
    ⟨packageDir indirectSelectionRoot ++ "/metrics_server.go".toList, false,
      ["ProjectPackageName".toList]⟩,
    ⟨packageDir indirectSelectionRoot ++ "/metrics_server_test.go".toList, false,
      ["ProjectPackageName".toList]⟩,
    ⟨packageDir indirectSelectionRoot ++ "/metrics_test.go".toList, false,
      ["ProjectPackageName".toList]⟩,
    ⟨packageDir indirectSelectionRoot ++ "/server.go".toList, false,
      ["ProjectPackageName".toList]⟩ ]

/-- The fields printed by the actions of a template; empty when the template
does not parse. -/
def fieldsOf (s : Str) : List Str :=
  match parse s with
  | .ok nodes => nodes.filterMap (fun n => match n with | .field k => some k | .text _ => none)
  | .error _ => []

/-- Keys of the map of `HeadlessServiceParams.AsMap` and of
`IndirectSelectionParams.AsMap`: the `json` tags and `ProjectPackageName`. -/
def serviceKeys : List Str :=
  ["ProjectName".toList, "ProjectPackage".toList, "EnvPrefix".toList, "ProjectShortDesc".toList,
    "ProjectLongDesc".toList, "MaintainerName".toList, "MaintainerEmail".toList,
    "GolangVersion".toList, "DbtRepo".toList, "ProjectVersion".toList,
    "DefaultServerPort".toList, "ServerShortDesc".toList, "ServerLongDesc".toList,
    "OwnerName".toList, "OwnerEmail".toList, "ProjectPackageName".toList]

/-- Keys of the map of `SPAParams.AsMap`. -/
def spaKeys : List Str :=
  ["ProjectName".toList, "ProjectPackage".toList, "ProjectShortDesc".toList,
    "ProjectLongDesc".toList, "ProjectVersion".toList, "GolangVersion".toList,
    "ProjectMaintainerName".toList, "ProjectMaintainerEmail".toList, "DbtRepo".toList,
    "ProjectPackageName".toList, "ProjectEnvPrefix".toList]

/-! ## Lemmas: `strings.Index` -/

theorem isPrefixOf_two (a b : Char) (s : Str) :
    [a, b].isPrefixOf s = true ↔ ∃ r, s = a :: b :: r := by
  match s with
  | [] => simp [List.isPrefixOf]
  | [x] => simp [List.isPrefixOf]
  | x :: y :: r =>
    simp [List.isPrefixOf]
    constructor
    · rintro ⟨h1, h2⟩; exact ⟨h1.symm, h2.symm⟩
    · rintro ⟨h1, h2⟩; exact ⟨h1.symm, h2.symm⟩

theorem Index_lt_length_add (sub s : Str) (i : Nat) (h : Index sub s = some i) :
    i + sub.length ≤ s.length := by
  induction s generalizing i with
  | nil =>
    simp only [Index] at h
    split at h
    · rename_i he
      simp only [List.isEmpty_eq_true] at he
      simp at h
      subst he; subst h; simp
    · simp at h
  | cons c t ih =>
    simp only [Index] at h
    split at h
    · rename_i hp
      simp at h; subst h
      have := (List.isPrefixOf_iff_prefix.mp hp).length_le
      simpa using this
    · cases hI : Index sub t with
      | none => simp [hI] at h
      | some j =>
        simp [hI] at h
        have := ih j hI
        simp only [List.length_cons]; omega

theorem cut_length (d s pre rest : Str) (h : cut d s = some (pre, rest)) :
    rest.length + d.length ≤ s.length := by
  unfold cut at h
  cases hI : Index d s with
  | none => simp [hI] at h
  | some i =>
    simp [hI] at h
    have := Index_lt_length_add d s i hI
    rw [← h.2]; simp only [List.length_drop]; omega

/-! ## Lemmas: the parser does not run out of budget -/

theorem parseFuel_congr : ∀ (n m : Nat) (s : Str), s.length < n → s.length < m →
    parseFuel n s = parseFuel m s := by
  intro n
  induction n with
  | zero => intro m s h; omega
  | succ n ih =>
    intro m s hn hm
    cases m with
    | zero => omega
    | succ m =>
      simp only [parseFuel]
      cases h1 : cut leftDelim s with
      | none => rfl
      | some pr =>
        obtain ⟨pre, rest⟩ := pr
        simp only []
        cases h2 : cut rightDelim rest with
        | none => rfl
        | some bp =>
          obtain ⟨body, post⟩ := bp
          simp only []
          have l1 := cut_length _ _ _ _ h1
          have l2 := cut_length _ _ _ _ h2
          simp only [leftDelim, rightDelim, List.length_cons, List.length_nil] at l1 l2
          rw [ih m post (by omega) (by omega)]

/-- The recursion equation of `parse`, free of the budget. -/
theorem parse_eq (s : Str) :
    parse s =
      match cut leftDelim s with
      | none => .ok [.text s]
      | some (pre, rest) =>
        match cut rightDelim rest with
        | none => .error .unclosedAction
        | some (body, post) =>
          match parseAction body with
          | .error e => .error e
          | .ok node =>
            match parse post with
            | .error e => .error e
            | .ok nodes => .ok (.text pre :: node :: nodes) := by
  show parseFuel (s.length + 1) s = _
  rw [parseFuel]
  cases h1 : cut leftDelim s with
  | none => rfl
  | some pr =>
    obtain ⟨pre, rest⟩ := pr
    simp only []
    cases h2 : cut rightDelim rest with
    | none => rfl
    | some bp =>
      obtain ⟨body, post⟩ := bp
      simp only []
      have l1 := cut_length _ _ _ _ h1
      have l2 := cut_length _ _ _ _ h2
      simp only [leftDelim, rightDelim, List.length_cons, List.length_nil] at l1 l2
      rw [parseFuel_congr s.length (post.length + 1) post (by omega) (by omega)]
      rfl

theorem parseAction_ne_fuel (body : Str) : parseAction body ≠ .error .fuel := by
  unfold parseAction
  split
  · split <;> simp
  · simp
  · simp

/-- The budget `parse` gives itself is always enough. -/
theorem parse_ne_fuel : ∀ (n : Nat) (s : Str), s.length < n → parse s ≠ .error .fuel := by
  intro n
  induction n with
  | zero => intro s h; omega
  | succ n ih =>
    intro s hs
    rw [parse_eq]
    cases h1 : cut leftDelim s with
    | none => simp
    | some pr =>
      obtain ⟨pre, rest⟩ := pr
      simp only []
      cases h2 : cut rightDelim rest with
      | none => simp
      | some bp =>
        obtain ⟨body, post⟩ := bp
        simp only []
        have l1 := cut_length _ _ _ _ h1
        have l2 := cut_length _ _ _ _ h2
        simp only [leftDelim, rightDelim, List.length_cons, List.length_nil] at l1 l2
        cases h3 : parseAction body with
        | error e =>
          simp only []
          intro hc
          apply parseAction_ne_fuel body
          rw [h3, Except.error.inj hc]
        | ok node =>
          simp only []
          have := ih post (by omega)
          cases h4 : parse post with
          | error e =>
            simp only []
            intro hc
            apply this
            rw [h4]; exact hc
          | ok nodes => simp

/-! ## Lemmas: finding the delimiters -/

theorem Index_cons (sub : Str) (c : Char) (t : Str) :
    Index sub (c :: t) =
      if sub.isPrefixOf (c :: t) then some 0 else (Index sub t).map (· + 1) := rfl

theorem Index_cons_none (sub : Str) (c : Char) (t : Str) (h : Index sub (c :: t) = none) :
    sub.isPrefixOf (c :: t) = false ∧ Index sub t = none := by
  rw [Index_cons] at h
  split at h
  · simp at h
  · rename_i hp
    refine ⟨Bool.eq_false_iff.mpr hp, ?_⟩
    cases hI : Index sub t with
    | none => rfl
    | some j => simp [hI] at h

theorem Index_left (l y : Str) (h1 : Index leftDelim l = none) (h2 : l.getLast? ≠ some '{') :
    Index leftDelim (l ++ (leftDelim ++ y)) = some l.length := by
  induction l with
  | nil => simp [Index, leftDelim, List.isPrefixOf]
  | cons c t ih =>
    obtain ⟨hp, ht⟩ := Index_cons_none _ _ _ h1
    have hlast : t.getLast? ≠ some '{' := by
      cases t with
      | nil => simp
      | cons c1 t1 => simpa [List.getLast?_cons_cons] using h2
    have hnp : leftDelim.isPrefixOf (c :: (t ++ (leftDelim ++ y))) = false := by
      cases hb : leftDelim.isPrefixOf (c :: (t ++ (leftDelim ++ y))) with
      | false => rfl
      | true =>
        exfalso
        obtain ⟨r, hr⟩ := (isPrefixOf_two '{' '{' _).mp hb
        cases t with
        | nil =>
          simp [leftDelim] at hr
          apply h2
          simp [hr.1]
        | cons c1 t1 =>
          simp at hr
          have : leftDelim.isPrefixOf (c :: c1 :: t1) = true :=
            (isPrefixOf_two '{' '{' _).mpr ⟨t1, by rw [hr.1, hr.2.1]⟩
          rw [this] at hp
          exact Bool.noConfusion hp
    rw [List.cons_append, Index_cons, hnp, ih ht hlast]
    simp

theorem Index_right (b y : Str) (h : ∀ c ∈ b, c ≠ '}') :
    Index rightDelim (b ++ (rightDelim ++ y)) = some b.length := by
  induction b with
  | nil => simp [Index, rightDelim, List.isPrefixOf]
  | cons c t ih =>
    have hc : c ≠ '}' := h c (List.mem_cons_self _ _)
    have hnp : rightDelim.isPrefixOf (c :: (t ++ (rightDelim ++ y))) = false := by
      cases hb : rightDelim.isPrefixOf (c :: (t ++ (rightDelim ++ y))) with
      | false => rfl
      | true =>
        obtain ⟨r, hr⟩ := (isPrefixOf_two '}' '}' _).mp hb
        simp at hr
        exact absurd hr.1 hc
    rw [List.cons_append, Index_cons, hnp, ih (fun c hc => h c (List.mem_cons_of_mem _ hc))]
    simp

theorem cut_left (l y : Str) (h1 : Contains l leftDelim = false) (h2 : l.getLast? ≠ some '{') :
    cut leftDelim (l ++ (leftDelim ++ y)) = some (l, y) := by
  have h1' : Index leftDelim l = none := by
    simpa [Contains] using h1
  unfold cut
  rw [Index_left l y h1' h2]
  simp [leftDelim]

theorem cut_right (b y : Str) (h : ∀ c ∈ b, c ≠ '}') :
    cut rightDelim (b ++ (rightDelim ++ y)) = some (b, y) := by
  unfold cut
  rw [Index_right b y h]
  simp [rightDelim]

theorem cut_none (d s : Str) (h : Contains s d = false) : cut d s = none := by
  have h1 : Index d s = none := by simpa [Contains] using h
  simp [cut, h1]

/-! ## Lemmas: one placeholder -/

theorem isAlphaNumeric_not_blank (c : Char) (h : isAlphaNumeric c = true) : isBlank c = false := by
  cases hb : isBlank c with
  | false => rfl
  | true =>
    simp only [isBlank, decide_eq_true_eq] at hb
    rcases hb with rfl | rfl <;> revert h <;> decide

theorem isAlphaNumeric_not_close (c : Char) (h : isAlphaNumeric c = true) : c ≠ '}' := by
  rintro rfl; revert h; decide

theorem isFieldName_all (k : Str) (h : isFieldName k = true) : ∀ c ∈ k, isAlphaNumeric c = true := by
  cases k with
  | nil => simp [isFieldName] at h
  | cons c t =>
    simp only [isFieldName, Bool.and_eq_true, List.all_eq_true] at h
    intro x hx
    rcases List.mem_cons.mp hx with rfl | hx
    · exact h.1.1
    · exact h.2 x hx

theorem isFieldName_ne_nil (k : Str) (h : isFieldName k = true) : k ≠ [] := by
  rintro rfl; simp [isFieldName] at h

theorem trimBlank_field (k : Str) (h : isFieldName k = true) : trimBlank ('.' :: k) = '.' :: k := by
  have hne := isFieldName_ne_nil k h
  have hall := isFieldName_all k h
  unfold trimBlank
  have h1 : List.dropWhile isBlank ('.' :: k) = '.' :: k := by
    rw [List.dropWhile_cons]; simp [isBlank]
  rw [h1]
  have h2 : (List.reverse ('.' :: k)).dropWhile isBlank = List.reverse ('.' :: k) := by
    have hr : k.reverse ≠ [] := by simpa using hne
    obtain ⟨c, r, hcr⟩ := List.exists_cons_of_ne_nil hr
    have hc : c ∈ k := by
      have : c ∈ k.reverse := by rw [hcr]; exact List.mem_cons_self _ _
      simpa using this
    rw [List.reverse_cons, hcr, List.cons_append, List.dropWhile_cons,
      isAlphaNumeric_not_blank c (hall c hc)]
    simp
  rw [h2, List.reverse_reverse]

theorem parseAction_field (k : Str) (h : isFieldName k = true) :
    parseAction ('.' :: k) = .ok (.field k) := by
  unfold parseAction
  rw [trimBlank_field k h]
  simp [h]

theorem parse_placeholder (l k rest : Str) (h1 : Contains l leftDelim = false)
    (h2 : l.getLast? ≠ some '{') (hk : isFieldName k = true) :
    parse (l ++ (placeholder k ++ rest)) =
      match parse rest with
      | .error e => .error e
      | .ok nodes => .ok (.text l :: .field k :: nodes) := by
  rw [parse_eq]
  have e1 : l ++ (placeholder k ++ rest) = l ++ (leftDelim ++ (('.' :: k) ++ (rightDelim ++ rest))) := by
    simp [placeholder]
  rw [e1, cut_left l _ h1 h2]
  simp only []
  have hb : ∀ c ∈ ('.' :: k), c ≠ '}' := by
    intro c hc
    rcases List.mem_cons.mp hc with rfl | hc
    · decide
    · exact isAlphaNumeric_not_close c (isFieldName_all k hk c hc)
  rw [cut_right ('.' :: k) rest hb]
  simp only []
  rw [parseAction_field k hk]

theorem parse_text (s : Str) (h : Contains s leftDelim = false) : parse s = .ok [.text s] := by
  rw [parse_eq, cut_none _ _ h]

theorem ResolveTemplateVars_text {σ : Type} (w : TmplWriter σ) (s : Str)
    (h : Contains s leftDelim = false) : ResolveTemplateVars w s = .ok s := by
  simp [ResolveTemplateVars, parse_text s h, execute, execNode]

theorem ResolveTemplateVars_placeholder {σ : Type} (w : TmplWriter σ) (l k rest : Str)
    (h1 : Contains l leftDelim = false) (h2 : l.getLast? ≠ some '{') (hk : isFieldName k = true) :
    ResolveTemplateVars w (l ++ (placeholder k ++ rest)) =
      match ResolveTemplateVars w rest with
      | .error e => .error e
      | .ok out => .ok (l ++ (fieldValue w.TmplVals k ++ out)) := by
  unfold ResolveTemplateVars
  rw [parse_placeholder l k rest h1 h2 hk]
  cases parse rest with
  | error e => rfl
  | ok nodes => simp [execute, execNode, fieldValue]

/-! ## Lemmas: loops over `FilePaths` -/

theorem rangeFilePaths_cons (body : FilePath → FilePath × Outcome) (fp : FilePath)
    (rest : List FilePath) :
    rangeFilePaths body (fp :: rest) =
      if (body fp).2 = .nil then
        ((body fp).1 :: (rangeFilePaths body rest).1, (rangeFilePaths body rest).2)
      else ((body fp).1 :: rest, (body fp).2) := by
  rw [rangeFilePaths]
  rcases hb : body fp with ⟨fp1, o⟩
  cases o <;> simp

theorem rangeFilePaths_length (body : FilePath → FilePath × Outcome) (l : List FilePath) :
    (rangeFilePaths body l).1.length = l.length := by
  induction l with
  | nil => rfl
  | cons fp rest ih =>
    rw [rangeFilePaths_cons]
    split <;> simp [ih]

/-- When the loop runs to its end, every element has been replaced by what the
body made of it, and the body ended normally on each. -/
theorem rangeFilePaths_nil (body : FilePath → FilePath × Outcome) (l : List FilePath)
    (h : (rangeFilePaths body l).2 = .nil) :
    (rangeFilePaths body l).1 = l.map (fun fp => (body fp).1) ∧
      ∀ fp ∈ l, (body fp).2 = .nil := by
  induction l with
  | nil => simp [rangeFilePaths]
  | cons fp rest ih =>
    rw [rangeFilePaths_cons] at h ⊢
    by_cases hb : (body fp).2 = .nil
    · simp only [hb, if_true] at h ⊢
      obtain ⟨h1, h2⟩ := ih h
      refine ⟨by simp [h1], ?_⟩
      intro x hx
      rcases List.mem_cons.mp hx with rfl | hx
      · exact hb
      · exact h2 x hx
    · simp only [hb, if_false] at h

/-- Whatever the outcome, each element is either untouched or what the body
made of it. -/
theorem rangeFilePaths_get (body : FilePath → FilePath × Outcome) (l : List FilePath)
    (i : Nat) (fp : FilePath) (h : l[i]? = some fp) :
    (rangeFilePaths body l).1[i]? = some fp ∨ (rangeFilePaths body l).1[i]? = some (body fp).1 := by
  induction l generalizing i with
  | nil => simp at h
  | cons a rest ih =>
    rw [rangeFilePaths_cons]
    cases i with
    | zero =>
      simp at h; subst h
      split <;> simp
    | succ j =>
      simp at h
      split
      · simpa using ih j h
      · left; simpa using h

/-- If the body ends normally on every element, so does the loop. -/
theorem rangeFilePaths_total (body : FilePath → FilePath × Outcome) (l : List FilePath)
    (h : ∀ fp ∈ l, (body fp).2 = .nil) : (rangeFilePaths body l).2 = .nil := by
  induction l with
  | nil => rfl
  | cons fp rest ih =>
    rw [rangeFilePaths_cons]
    have hb := h fp (List.mem_cons_self _ _)
    simp only [hb, if_true]
    exact ih (fun x hx => h x (List.mem_cons_of_mem _ hx))

/-! ## Lemmas: templates of literal text and placeholders -/

theorem ResolveTemplateVars_render {σ : Type} (w : TmplWriter σ) (pieces : List (Str × Str))
    (last : Str) (hp : ∀ p ∈ pieces, pieceOk p) (hl : Contains last leftDelim = false) :
    ResolveTemplateVars w (render pieces last) = .ok (substitute w.TmplVals pieces last) := by
  induction pieces with
  | nil => simpa [render, substitute] using ResolveTemplateVars_text w last hl
  | cons p ps ih =>
    obtain ⟨l, k⟩ := p
    obtain ⟨h1, h2, h3⟩ := hp (l, k) (List.mem_cons_self _ _)
    have ih1 := ih (fun q hq => hp q (List.mem_cons_of_mem _ hq))
    simp only [render, substitute]
    rw [ResolveTemplateVars_placeholder w l k _ h1 h2 h3, ih1]

theorem fieldValue_missing (d : Dict) (k : Str) (h : d.get k = none) : fieldValue d k = noValue := by
  simp [fieldValue, h]

theorem fieldValue_present (d : Dict) (k v : Str) (h : d.get k = some v) : fieldValue d k = v := by
  simp [fieldValue, h]

/-! ## Lemmas: a literal text in front of a template -/

theorem Index_append_left (l x : Str) (h1 : Index leftDelim l = none)
    (h2 : l.getLast? ≠ some '{') :
    Index leftDelim (l ++ x) = (Index leftDelim x).map (· + l.length) := by
  induction l with
  | nil => simp
  | cons c t ih =>
    obtain ⟨hp, ht⟩ := Index_cons_none _ _ _ h1
    have hlast : t.getLast? ≠ some '{' := by
      cases t with
      | nil => simp
      | cons c1 t1 => simpa [List.getLast?_cons_cons] using h2
    have hnp : leftDelim.isPrefixOf (c :: (t ++ x)) = false := by
      cases hb : leftDelim.isPrefixOf (c :: (t ++ x)) with
      | false => rfl
      | true =>
        exfalso
        obtain ⟨r, hr⟩ := (isPrefixOf_two '{' '{' _).mp hb
        cases t with
        | nil =>
          simp at hr
          apply h2
          simp [hr.1]
        | cons c1 t1 =>
          simp at hr
          have : leftDelim.isPrefixOf (c :: c1 :: t1) = true :=
            (isPrefixOf_two '{' '{' _).mpr ⟨t1, by rw [hr.1, hr.2.1]⟩
          rw [this] at hp
          exact Bool.noConfusion hp
    rw [List.cons_append, Index_cons, hnp, ih ht hlast]
    cases Index leftDelim x with
    | none => rfl
    | some j => simp [Nat.add_assoc]

theorem cut_append_left (l x : Str) (h1 : Contains l leftDelim = false)
    (h2 : l.getLast? ≠ some '{') :
    cut leftDelim (l ++ x) = (cut leftDelim x).map (fun pr => (l ++ pr.1, pr.2)) := by
  have h1' : Index leftDelim l = none := by simpa [Contains] using h1
  unfold cut
  rw [Index_append_left l x h1' h2]
  cases hI : Index leftDelim x with
  | none => rfl
  | some j =>
    simp only [Option.map_some', Option.some.injEq, Prod.mk.injEq]
    constructor
    · rw [Nat.add_comm, List.take_append]
    · have : j + l.length + leftDelim.length = l.length + (j + leftDelim.length) := by omega
      rw [this, List.drop_append]

theorem parse_append_left (l x : Str) (h1 : Contains l leftDelim = false)
    (h2 : l.getLast? ≠ some '{') :
    parse (l ++ x) =
      match parse x with
      | .error e => .error e
      | .ok nodes => .ok (prependText l nodes) := by
  rw [parse_eq (l ++ x), parse_eq x, cut_append_left l x h1 h2]
  cases cut leftDelim x with
  | none => rfl
  | some pr =>
    obtain ⟨pre, rest⟩ := pr
    simp only [Option.map_some']
    cases cut rightDelim rest with
    | none => rfl
    | some bp =>
      obtain ⟨body, post⟩ := bp
      simp only []
      cases parseAction body with
      | error e => rfl
      | ok node =>
        simp only []
        cases parse post with
        | error e => rfl
        | ok nodes => rfl

theorem execute_prependText (d : Dict) (l : Str) (nodes : List Node) :
    execute d (prependText l nodes) = l ++ execute d nodes := by
  cases nodes with
  | nil => simp [prependText, execute, execNode]
  | cons n ns =>
    cases n with
    | text p => simp [prependText, execute, execNode]
    | field k => simp [prependText, execute, execNode]

theorem ResolveTemplateVars_append_left {σ : Type} (w : TmplWriter σ) (l x : Str)
    (h1 : Contains l leftDelim = false) (h2 : l.getLast? ≠ some '{') :
    ResolveTemplateVars w (l ++ x) =
      match ResolveTemplateVars w x with
      | .error e => .error e
      | .ok out => .ok (l ++ out) := by
  unfold ResolveTemplateVars
  rw [parse_append_left l x h1 h2]
  cases parse x with
  | error e => rfl
  | ok nodes => simp [execute_prependText]

/-! ## Lemmas: `GetFilePaths` and `NewTmplWriter` -/

theorem getFilePathsLoop_under (recur : Str → Except GoError (List FilePath)) (root : Str)
    (hrec : ∀ cpath res, recur cpath = .ok res → ∀ fp ∈ res, ∃ rel, fp.Path = cpath ++ '/' :: rel) :
    ∀ (entries : List EmbedFile) (acc res : List FilePath),
      (∀ fp ∈ acc, ∃ rel, fp.Path = root ++ '/' :: rel) →
      getFilePathsLoop recur root entries acc = .ok res →
      ∀ fp ∈ res, ∃ rel, fp.Path = root ++ '/' :: rel := by
  intro entries
  induction entries with
  | nil =>
    intro acc res hacc h
    simp only [getFilePathsLoop, Except.ok.injEq] at h
    subst h; exact hacc
  | cons e es ih =>
    intro acc res hacc h
    rw [getFilePathsLoop] at h
    simp only [] at h
    split at h
    · cases hr : recur (root ++ '/' :: e.Name) with
      | error err => rw [hr] at h; simp at h
      | ok children =>
        rw [hr] at h
        simp only [] at h
        refine ih _ res ?_ h
        intro fp hfp
        rcases List.mem_append.mp hfp with hfp | hfp
        · rcases List.mem_append.mp hfp with hfp | hfp
          · exact hacc fp hfp
          · simp only [List.mem_singleton] at hfp
            subst hfp; exact ⟨e.Name, rfl⟩
        · obtain ⟨rel, hrel⟩ := hrec _ _ hr fp hfp
          exact ⟨e.Name ++ '/' :: rel, by rw [hrel]; simp⟩
    · refine ih _ res ?_ h
      intro fp hfp
      rcases List.mem_append.mp hfp with hfp | hfp
      · exact hacc fp hfp
      · simp only [List.mem_singleton] at hfp
        subst hfp; exact ⟨e.Name, rfl⟩

/-- Every node enumerated from `root` has a `Path` that is `root`, a slash,
and a relative path. -/
theorem GetFilePathsFuel_under (fs : EmbedFS) :
    ∀ (d : Nat) (root : Str) (res : List FilePath), GetFilePathsFuel fs d root = .ok res →
      ∀ fp ∈ res, ∃ rel, fp.Path = root ++ '/' :: rel := by
  intro d
  induction d with
  | zero => intro root res h; simp [GetFilePathsFuel] at h
  | succ d ih =>
    intro root res h
    rw [GetFilePathsFuel] at h
    cases hr : fs.ReadDir root with
    | error e => rw [hr] at h; simp at h
    | ok entries =>
      rw [hr] at h
      simp only [] at h
      exact getFilePathsLoop_under _ root (ih) entries [] res (by simp) h

theorem GetProjectFs_root (a : Assets) (projType : Str) (fs : EmbedFS) (root : Str)
    (h : GetProjectFs a projType = .ok (fs, root)) :
    Contains root leftDelim = false ∧ root ≠ [] := by
  unfold GetProjectFs at h
  split at h
  · simp only [Except.ok.injEq, Prod.mk.injEq] at h; rw [← h.2]; decide
  · split at h
    · simp only [Except.ok.injEq, Prod.mk.injEq] at h; rw [← h.2]; decide
    · split at h
      · simp only [Except.ok.injEq, Prod.mk.injEq] at h; rw [← h.2]; decide
      · split at h
        · simp only [Except.ok.injEq, Prod.mk.injEq] at h; rw [← h.2]; decide
        · simp at h

/-- What `NewTmplWriter` establishes: `ProjDir` is an archetype root, without
left delimiter, and every node's `Path` lies under it. -/
theorem NewTmplWriter_ok {σ : Type} (a : Assets) (outFs : Fs σ) (projType : Str) (vals : Dict)
    (w : TmplWriter σ) (h : NewTmplWriter a outFs projType vals = .ok w) :
    Contains w.ProjDir leftDelim = false ∧ w.ProjDir ≠ [] ∧ w.TmplVals = vals ∧
      ∀ fp ∈ w.FilePaths, ∃ rel, fp.Path = w.ProjDir ++ '/' :: rel := by
  unfold NewTmplWriter at h
  cases hg : GetProjectFs a projType with
  | error e => rw [hg] at h; simp at h
  | ok pr =>
    obtain ⟨fs, dirName⟩ := pr
    rw [hg] at h
    simp only [] at h
    cases hf : GetFilePaths fs dirName with
    | error e => rw [hf] at h; simp at h
    | ok fps =>
      rw [hf] at h
      simp only [Except.ok.injEq] at h
      subst h
      obtain ⟨r1, r2⟩ := GetProjectFs_root a projType fs dirName hg
      exact ⟨r1, r2, rfl, GetFilePathsFuel_under fs _ dirName fps hf⟩

/-! ## Lemmas: removing the archetype root -/

theorem Index_self_append (root y : Str) (h : root ≠ []) : Index root (root ++ y) = some 0 := by
  cases root with
  | nil => exact absurd rfl h
  | cons c t =>
    rw [List.cons_append, Index_cons]
    have : (c :: t).isPrefixOf (c :: (t ++ y)) = true := by
      rw [← List.cons_append]
      exact List.isPrefixOf_iff_prefix.mpr (List.prefix_append _ _)
    rw [this]; rfl

theorem Replace_leading (root y : Str) : Replace (root ++ y) root [] 1 = y := by
  unfold Replace
  by_cases h : root = []
  · subst h; simp
  · have h1 : ¬ (root = [] ∨ 1 = 0) := by simp [h]
    have h2 : root.isEmpty = false := by
      cases root with
      | nil => exact absurd rfl h
      | cons c t => rfl
    rw [if_neg h1, h2]
    simp [replaceLoop, Index_self_append root y h]

theorem Replace_absent (s old : Str) (h : Contains s old = false) : Replace s old [] 1 = s := by
  have hI : Index old s = none := by simpa [Contains] using h
  unfold Replace
  split
  · rfl
  · split
    · rename_i h1 h2
      exfalso
      apply h1
      left
      simpa using h2
    · simp [replaceLoop, hI]

theorem stripLeadingSlash_contains (s t old : Str) (h : stripLeadingSlash s = some t)
    (hc : Contains s old = false) : Contains t old = false := by
  cases s with
  | nil => simp [stripLeadingSlash] at h
  | cons c r =>
    simp only [stripLeadingSlash] at h
    split at h
    · simp only [Option.some.injEq] at h
      subst h
      have hI : Index old (c :: r) = none := by simpa [Contains] using hc
      simp [Contains, (Index_cons_none _ _ _ hI).2]
    · simp only [Option.some.injEq] at h
      subst h; exact hc

theorem Index_snoc_none (l : Str) (c : Char) (h : Index leftDelim l = none) (hc : c ≠ '{') :
    Index leftDelim (l ++ [c]) = none := by
  induction l with
  | nil => simp [Index, leftDelim, List.isPrefixOf]
  | cons a t ih =>
    obtain ⟨hp, ht⟩ := Index_cons_none _ _ _ h
    have hnp : leftDelim.isPrefixOf (a :: (t ++ [c])) = false := by
      cases hb : leftDelim.isPrefixOf (a :: (t ++ [c])) with
      | false => rfl
      | true =>
        exfalso
        obtain ⟨r, hr⟩ := (isPrefixOf_two '{' '{' _).mp hb
        cases t with
        | nil =>
          simp at hr
          exact hc hr.2.1
        | cons c1 t1 =>
          simp at hr
          have : leftDelim.isPrefixOf (a :: c1 :: t1) = true :=
            (isPrefixOf_two '{' '{' _).mpr ⟨t1, by rw [hr.1, hr.2.1]⟩
          rw [this] at hp
          exact Bool.noConfusion hp
    rw [List.cons_append, Index_cons, hnp, ih ht]
    rfl

/-- Resolving a path under a root without left delimiter: the root and the
slash come out unchanged in front of the resolved relative path. -/
theorem ResolveTemplateVars_under {σ : Type} (w : TmplWriter σ) (root rel s : Str)
    (hroot : Contains root leftDelim = false)
    (h : ResolveTemplateVars w (root ++ '/' :: rel) = .ok s) :
    ∃ out, ResolveTemplateVars w rel = .ok out ∧ s = root ++ '/' :: out := by
  have hI : Index leftDelim root = none := by simpa [Contains] using hroot
  have h1 : Contains (root ++ ['/']) leftDelim = false := by
    simp [Contains, Index_snoc_none root '/' hI (by decide)]
  have h2 : (root ++ ['/']).getLast? ≠ some '{' := by simp
  have e : root ++ '/' :: rel = (root ++ ['/']) ++ rel := by simp
  rw [e, ResolveTemplateVars_append_left w _ rel h1 h2] at h
  cases hr : ResolveTemplateVars w rel with
  | error err => rw [hr] at h; simp at h
  | ok out =>
    rw [hr] at h
    simp only [Except.ok.injEq] at h
    exact ⟨out, rfl, by rw [← h]; simp⟩

/-- What a normal end of the loop body of `ResolveAllPathTemplates` means. -/
theorem resolveFilePath_nil {σ : Type} (w : TmplWriter σ) (fp : FilePath)
    (h : (resolveFilePath w fp).2 = .nil) :
    ∃ s n path name, ResolveTemplateVars w fp.Path = .ok s ∧
      stripLeadingSlash (Replace s w.ProjDir [] 1) = some path ∧
      ResolveTemplateVars w fp.Name = .ok n ∧
      stripLeadingSlash (Replace n w.ProjDir [] 1) = some name ∧
      (resolveFilePath w fp).1 = { fp with TemplPath := path, TemplName := name } := by
  unfold resolveFilePath at h ⊢
  cases h1 : ResolveTemplateVars w fp.Path with
  | error e => rw [h1] at h; simp at h
  | ok s =>
    rw [h1] at h
    simp only [] at h ⊢
    cases h2 : stripLeadingSlash (Replace s w.ProjDir [] 1) with
    | none => rw [h2] at h; simp at h
    | some path =>
      rw [h2] at h
      simp only [] at h ⊢
      cases h3 : ResolveTemplateVars w fp.Name with
      | error e => rw [h3] at h; simp at h
      | ok n =>
        rw [h3] at h
        simp only [] at h ⊢
        cases h4 : stripLeadingSlash (Replace n w.ProjDir [] 1) with
        | none => rw [h4] at h; simp at h
        | some name => exact ⟨s, n, path, name, rfl, h2, rfl, h4, rfl⟩

/-! ## Lemmas: the calls made on the output filesystem -/

theorem rangeWorld_cons {σ : Type} (body : FilePath → World σ → World σ × Outcome)
    (fp : FilePath) (rest : List FilePath) (wd : World σ) :
    rangeWorld body (fp :: rest) wd =
      if (body fp wd).2 = .nil then rangeWorld body rest (body fp wd).1 else body fp wd := by
  rw [rangeWorld]
  rcases hb : body fp wd with ⟨wd1, o⟩
  cases o <;> simp

/-- A loop whose body only adds calls only adds calls. -/
theorem rangeWorld_mono {σ : Type} (body : FilePath → World σ → World σ × Outcome)
    (hmono : ∀ fp wd, wd.ops <+: (body fp wd).1.ops) :
    ∀ (l : List FilePath) (wd : World σ), wd.ops <+: (rangeWorld body l wd).1.ops := by
  intro l
  induction l with
  | nil => intro wd; exact List.prefix_refl _
  | cons fp rest ih =>
    intro wd
    rw [rangeWorld_cons]
    split
    · exact (hmono fp wd).trans (ih _)
    · exact hmono fp wd

/-- A call that the body makes for every element satisfying `Q` on which it
ends normally has been made for each such element when the loop returns
`nil`. -/
theorem rangeWorld_mem {σ : Type} (body : FilePath → World σ → World σ × Outcome)
    (op : FilePath → FsOp) (Q : FilePath → Prop)
    (hmono : ∀ fp wd, wd.ops <+: (body fp wd).1.ops)
    (hop : ∀ fp wd, Q fp → (body fp wd).2 = .nil → op fp ∈ (body fp wd).1.ops) :
    ∀ (l : List FilePath) (wd : World σ), (rangeWorld body l wd).2 = .nil →
      ∀ fp ∈ l, Q fp → op fp ∈ (rangeWorld body l wd).1.ops := by
  intro l
  induction l with
  | nil => intro wd _ fp hfp; simp at hfp
  | cons a rest ih =>
    intro wd h fp hfp hq
    rw [rangeWorld_cons] at h ⊢
    by_cases hb : (body a wd).2 = .nil
    · simp only [hb, if_true] at h ⊢
      rcases List.mem_cons.mp hfp with rfl | hfp
      · exact (rangeWorld_mono body hmono rest _).subset (hop _ wd hq hb)
      · exact ih _ h fp hfp hq
    · simp only [hb, if_false] at h

/-- Every call present after the loop was there before or was made by the
body for some element. -/
theorem rangeWorld_subset {σ : Type} (body : FilePath → World σ → World σ × Outcome)
    (R : FilePath → FsOp → Prop)
    (hR : ∀ fp wd o, o ∈ (body fp wd).1.ops → o ∈ wd.ops ∨ R fp o) :
    ∀ (l : List FilePath) (wd : World σ) (o : FsOp), o ∈ (rangeWorld body l wd).1.ops →
      o ∈ wd.ops ∨ ∃ fp ∈ l, R fp o := by
  intro l
  induction l with
  | nil => intro wd o h; exact Or.inl h
  | cons a rest ih =>
    intro wd o h
    rw [rangeWorld_cons] at h
    split at h
    · rcases ih _ o h with h1 | ⟨fp, hfp, hr⟩
      · rcases hR a wd o h1 with h2 | h2
        · exact Or.inl h2
        · exact Or.inr ⟨a, List.mem_cons_self _ _, h2⟩
      · exact Or.inr ⟨fp, List.mem_cons_of_mem _ hfp, hr⟩
    · rcases hR a wd o h with h2 | h2
      · exact Or.inl h2
      · exact Or.inr ⟨a, List.mem_cons_self _ _, h2⟩

theorem CreatePath_ops {σ : Type} (w : TmplWriter σ) (root file : Str) (isDir : Bool)
    (wd : World σ) :
    ∃ p, (CreatePath w root file isDir wd).1.ops = wd.ops ++ [.MkdirAll p] := by
  unfold CreatePath
  simp only [World.MkdirAll]
  cases isDir with
  | true =>
    simp only [if_true]
    rcases w.OutFs.MkdirAll wd.fs (root ++ '/' :: file) with ⟨s1, oe⟩
    cases oe <;> exact ⟨_, rfl⟩
  | false =>
    simp only [Bool.false_eq_true, if_false]
    rcases w.OutFs.MkdirAll wd.fs (Dir (root ++ '/' :: file)) with ⟨s1, oe⟩
    cases oe <;> exact ⟨_, rfl⟩

theorem createFilePathAtRoot_fst {σ : Type} (w : TmplWriter σ) (root : Str) (fp : FilePath)
    (wd : World σ) :
    (createFilePathAtRoot w root fp wd).1 = (CreatePath w root fp.TemplPath fp.IsDir wd).1 := by
  unfold createFilePathAtRoot
  rcases CreatePath w root fp.TemplPath fp.IsDir wd with ⟨wd1, oc⟩
  cases oc <;> rfl

/-- The calls of `CreateAllFilePathsAtRoot` are `MkdirAll` calls. -/
theorem CreateAllFilePathsAtRoot_ops {σ : Type} (w : TmplWriter σ) (root : Str) (wd : World σ)
    (o : FsOp) (h : o ∈ (CreateAllFilePathsAtRoot w root wd).1.ops) :
    o ∈ wd.ops ∨ ∃ p, o = .MkdirAll p := by
  unfold CreateAllFilePathsAtRoot at h
  have hR : ∀ (fp : FilePath) (wd0 : World σ) (o0 : FsOp),
      o0 ∈ (createFilePathAtRoot w root fp wd0).1.ops →
      o0 ∈ wd0.ops ∨ (fun _ o => ∃ p, o = FsOp.MkdirAll p) fp o0 := by
    intro fp wd0 o0 h0
    obtain ⟨p, hp⟩ := CreatePath_ops w root fp.TemplPath fp.IsDir wd0
    rw [createFilePathAtRoot_fst, hp] at h0
    rcases List.mem_append.mp h0 with h0 | h0
    · exact Or.inl h0
    · exact Or.inr ⟨p, by simpa using h0⟩
  rcases rangeWorld_subset _ (fun _ o => ∃ p, o = FsOp.MkdirAll p) hR w.FilePaths wd o h with h1 | h1
  · exact Or.inl h1
  · obtain ⟨_, _, hp⟩ := h1
    exact Or.inr hp

/-- The calls of `WriteFileTemplateData`: `Create` at the destination path,
then `Write` and `Close` on the created file; after a return of `nil` a
`Write` is among them. -/
theorem WriteFileTemplateData_ops {σ : Type} (w : TmplWriter σ) (fp : FilePath) (destDir : Str)
    (wd : World σ) :
    ∃ l, (WriteFileTemplateData w fp destDir wd).1.ops
        = wd.ops ++ (.Create (destDir ++ '/' :: fp.TemplPath) :: l) ∧
      (∀ o ∈ l, (∃ data, o = .Write (destDir ++ '/' :: fp.TemplPath) data) ∨
        o = .Close (destDir ++ '/' :: fp.TemplPath)) ∧
      ((WriteFileTemplateData w fp destDir wd).2 = .nil →
        ∃ data, FsOp.Write (destDir ++ '/' :: fp.TemplPath) data ∈ l) := by
  unfold WriteFileTemplateData
  simp only [World.Create]
  rcases w.OutFs.Create wd.fs (destDir ++ '/' :: fp.TemplPath) with ⟨s1, oe⟩
  cases oe with
  | some e => exact ⟨[], rfl, by simp, by simp⟩
  | none =>
    simp only [World.Close]
    unfold writeOpenedFile
    cases ResolveFileTemplateData w fp with
    | error e =>
      exact ⟨[.Close (destDir ++ '/' :: fp.TemplPath)], by simp, by simp, by simp⟩
    | ok buf =>
      simp only []
      cases removeBuildExclusions w buf with
      | error e =>
        exact ⟨[.Close (destDir ++ '/' :: fp.TemplPath)], by simp, by simp, by simp⟩
      | ok buf1 =>
        simp only [World.Write]
        rcases w.OutFs.Write s1 (destDir ++ '/' :: fp.TemplPath) buf1 with ⟨s2, n, oe2⟩
        cases oe2 with
        | some e =>
          exact ⟨[.Write (destDir ++ '/' :: fp.TemplPath) buf1,
            .Close (destDir ++ '/' :: fp.TemplPath)], by simp, by simp, by simp⟩
        | none =>
          simp only []
          split <;>
          exact ⟨[.Write (destDir ++ '/' :: fp.TemplPath) buf1,
            .Close (destDir ++ '/' :: fp.TemplPath)], by simp, by simp, by simp⟩

theorem writeDestFile_fst {σ : Type} (w : TmplWriter σ) (destDir : Str) (fp : FilePath)
    (wd : World σ) :
    (writeDestFile w destDir fp wd).1 =
      if fp.IsDir then wd else (WriteFileTemplateData w fp destDir wd).1 := by
  unfold writeDestFile
  split
  · rfl
  · rcases WriteFileTemplateData w fp destDir wd with ⟨wd1, oc⟩
    cases oc <;> rfl

theorem writeDestFile_mono {σ : Type} (w : TmplWriter σ) (destDir : Str) (fp : FilePath)
    (wd : World σ) : wd.ops <+: (writeDestFile w destDir fp wd).1.ops := by
  rw [writeDestFile_fst]
  split
  · exact List.prefix_refl _
  · obtain ⟨l, hl, _⟩ := WriteFileTemplateData_ops w fp destDir wd
    rw [hl]; exact List.prefix_append _ _

theorem writeDestFile_create {σ : Type} (w : TmplWriter σ) (destDir : Str) (fp : FilePath)
    (wd : World σ) (hd : fp.IsDir = false) :
    FsOp.Create (destDir ++ '/' :: fp.TemplPath) ∈ (writeDestFile w destDir fp wd).1.ops := by
  rw [writeDestFile_fst, hd]
  obtain ⟨l, hl, _⟩ := WriteFileTemplateData_ops w fp destDir wd
  simp [hl]

theorem writeDestFile_ops {σ : Type} (w : TmplWriter σ) (destDir : Str) (fp : FilePath)
    (wd : World σ) (o : FsOp) (h : o ∈ (writeDestFile w destDir fp wd).1.ops) :
    o ∈ wd.ops ∨ (fp.IsDir = false ∧
      (o = .Create (destDir ++ '/' :: fp.TemplPath) ∨
        (∃ data, o = .Write (destDir ++ '/' :: fp.TemplPath) data) ∨
        o = .Close (destDir ++ '/' :: fp.TemplPath))) := by
  rw [writeDestFile_fst] at h
  cases hd : fp.IsDir with
  | true => rw [hd] at h; exact Or.inl h
  | false =>
    rw [hd] at h
    simp only [Bool.false_eq_true, if_false] at h
    obtain ⟨l, hl, hl2, _⟩ := WriteFileTemplateData_ops w fp destDir wd
    rw [hl] at h
    rcases List.mem_append.mp h with h | h
    · exact Or.inl h
    · rcases List.mem_cons.mp h with h | h
      · exact Or.inr ⟨rfl, Or.inl h⟩
      · exact Or.inr ⟨rfl, Or.inr (hl2 o h)⟩

/-- In a run of `WriteAllDestFileTemplateData` that returns `nil`, a file has
been created at the destination of every node that is not a directory. -/
theorem WriteAll_creates {σ : Type} (w : TmplWriter σ) (destDir : Str) (wd : World σ)
    (h : (WriteAllDestFileTemplateData w destDir wd).2 = .nil) (fp : FilePath)
    (hfp : fp ∈ w.FilePaths) (hd : fp.IsDir = false) :
    FsOp.Create (destDir ++ '/' :: fp.TemplPath) ∈ (WriteAllDestFileTemplateData w destDir wd).1.ops :=
  rangeWorld_mem (writeDestFile w destDir) (fun fp => .Create (destDir ++ '/' :: fp.TemplPath))
    (fun fp => fp.IsDir = false) (writeDestFile_mono w destDir)
    (fun fp wd0 hq _ => writeDestFile_create w destDir fp wd0 hq) w.FilePaths wd h fp hfp hd

/-- Every `Create` present after `WriteAllDestFileTemplateData` was there
before or is at the destination of a node that is not a directory. -/
theorem WriteAll_create_only {σ : Type} (w : TmplWriter σ) (destDir : Str) (wd : World σ)
    (q : Str) (h : FsOp.Create q ∈ (WriteAllDestFileTemplateData w destDir wd).1.ops) :
    FsOp.Create q ∈ wd.ops ∨
      ∃ fp ∈ w.FilePaths, fp.IsDir = false ∧ q = destDir ++ '/' :: fp.TemplPath := by
  rcases rangeWorld_subset (writeDestFile w destDir)
      (fun fp o => fp.IsDir = false ∧
        (o = .Create (destDir ++ '/' :: fp.TemplPath) ∨
          (∃ data, o = .Write (destDir ++ '/' :: fp.TemplPath) data) ∨
          o = .Close (destDir ++ '/' :: fp.TemplPath)))
      (writeDestFile_ops w destDir) w.FilePaths wd _ h with h1 | ⟨fp, hfp, hd, hr⟩
  · exact Or.inl h1
  · rcases hr with hr | ⟨_, hr⟩ | hr
    · exact Or.inr ⟨fp, hfp, hd, by simpa using hr⟩
    · exact absurd hr (by simp)
    · exact absurd hr (by simp)

/-! ## Lemmas: `BuildProject` -/

/-- When path resolution does not return `nil`, `BuildProject` ends the same
way and the output filesystem has not been called. -/
theorem BuildProject_resolution_stops {σ : Type} (w : TmplWriter σ) (destDir : Str)
    (wd : World σ) (h : (ResolveAllPathTemplates w).2 ≠ .nil) :
    BuildProject w destDir wd = ((ResolveAllPathTemplates w).1, wd, (ResolveAllPathTemplates w).2) := by
  unfold BuildProject
  rcases hr : ResolveAllPathTemplates w with ⟨fps1, o⟩
  rw [hr] at h
  cases o with
  | nil => exact absurd rfl h
  | err e => rfl
  | panic => rfl

/-- The phases of a run of `BuildProject` that returns `nil`. -/
theorem BuildProject_nil {σ : Type} (w : TmplWriter σ) (destDir : Str) (wd : World σ)
    (h : (BuildProject w destDir wd).2.2 = .nil) :
    ∃ fps1 fps2 wd1, ResolveAllPathTemplates w = (fps1, .nil) ∧
      fixGoModTemplPaths { w with FilePaths := fps1 } = (fps2, .nil) ∧
      CreateAllFilePathsAtRoot { w with FilePaths := fps2 } destDir wd = (wd1, .nil) ∧
      (WriteAllDestFileTemplateData { w with FilePaths := fps2 } destDir wd1).2 = .nil ∧
      BuildProject w destDir wd =
        (fps2, (WriteAllDestFileTemplateData { w with FilePaths := fps2 } destDir wd1).1, .nil) := by
  unfold BuildProject at h ⊢
  rcases hr : ResolveAllPathTemplates w with ⟨fps1, o1⟩
  rw [hr] at h
  cases o1 with
  | err e => simp at h
  | panic => simp at h
  | nil =>
    simp only [] at h ⊢
    rcases hf : fixGoModTemplPaths { w with FilePaths := fps1 } with ⟨fps2, o2⟩
    rw [hf] at h
    cases o2 with
    | err e => simp at h
    | panic => simp at h
    | nil =>
      simp only [] at h ⊢
      rcases hc : CreateAllFilePathsAtRoot { w with FilePaths := fps2 } destDir wd with ⟨wd1, o3⟩
      rw [hc] at h
      cases o3 with
      | err e => simp at h
      | panic => simp at h
      | nil =>
        simp only [] at h ⊢
        exact ⟨fps1, fps2, wd1, rfl, hf, hc, h, by rw [h]⟩

/-! ## Lemmas: `fixGoModTemplPaths` -/

theorem fixGoModFilePath_frame (fp : FilePath) :
    (fixGoModFilePath fp).1.Path = fp.Path ∧ (fixGoModFilePath fp).1.Name = fp.Name ∧
      (fixGoModFilePath fp).1.IsDir = fp.IsDir := by
  unfold fixGoModFilePath
  split
  · cases h1 : sliceDropLast fp.TemplPath with
    | none => simp
    | some path =>
      cases h2 : sliceDropLast fp.TemplName with
      | none => simp
      | some name => simp
  · simp

theorem fixGoModFilePath_other (fp : FilePath) (h : ¬ isGoModMask fp.TemplName) :
    fixGoModFilePath fp = (fp, .nil) := by
  unfold fixGoModFilePath
  rw [if_neg h]

theorem sliceDropLast_of_ne_nil (s : Str) (h : s ≠ []) : sliceDropLast s = some s.dropLast := by
  cases s with
  | nil => exact absurd rfl h
  | cons c t => rfl

theorem isGoModMask_ne_nil (name : Str) (h : isGoModMask name) : name ≠ [] := by
  rcases h with rfl | rfl <;> decide

theorem isGoModMask_hasSuffix (name : Str) (h : isGoModMask name) : HasSuffix name ['_'] = true := by
  rcases h with rfl | rfl <;> decide

theorem fixGoModFilePath_mask (fp : FilePath) (h : isGoModMask fp.TemplName)
    (hp : fp.TemplPath ≠ []) :
    fixGoModFilePath fp =
      ({ fp with TemplPath := fp.TemplPath.dropLast, TemplName := fp.TemplName.dropLast }, .nil) := by
  unfold fixGoModFilePath
  rw [if_pos h, sliceDropLast_of_ne_nil _ hp, sliceDropLast_of_ne_nil _ (isGoModMask_ne_nil _ h)]

theorem fixGoModFilePath_nil_path (fp : FilePath) (h : isGoModMask fp.TemplName)
    (hn : (fixGoModFilePath fp).2 = .nil) : fp.TemplPath ≠ [] := by
  intro hp
  unfold fixGoModFilePath at hn
  rw [if_pos h, hp] at hn
  simp [sliceDropLast] at hn

theorem hasSuffix_ne_nil (s p : Str) (h : HasSuffix s p = true) (hp : p ≠ []) : s ≠ [] := by
  rintro rfl
  cases p with
  | nil => exact hp rfl
  | cons c t =>
    have : (c :: t).reverse ≠ [] := by simp
    obtain ⟨x, r, hx⟩ := List.exists_cons_of_ne_nil this
    simp only [HasSuffix, List.reverse_nil] at h
    rw [hx] at h
    simp [List.isPrefixOf] at h

/-- The element at index `i` after a loop that ran to its end. -/
theorem rangeFilePaths_nil_get (body : FilePath → FilePath × Outcome) (l : List FilePath)
    (h : (rangeFilePaths body l).2 = .nil) (i : Nat) (fp : FilePath) (hi : l[i]? = some fp) :
    (rangeFilePaths body l).1[i]? = some (body fp).1 ∧ (body fp).2 = .nil := by
  obtain ⟨h1, h2⟩ := rangeFilePaths_nil body l h
  refine ⟨?_, h2 fp (List.mem_iff_getElem?.mpr ⟨i, hi⟩)⟩
  rw [h1, List.getElem?_map, hi]
  rfl

/-- C10. `fixGoModTemplPaths`, however it ends, keeps the number and order of
the nodes, never changes `Path`, `Name` or `IsDir` of any node, and leaves a
node whose `TemplName` does not end in an underscore exactly as it was. -/
theorem C10_fixGoModTemplPaths_frame {σ : Type} (w : TmplWriter σ) :
    (fixGoModTemplPaths w).1.length = w.FilePaths.length ∧
      ∀ (i : Nat) (fp : FilePath), w.FilePaths[i]? = some fp →
        ∃ fp1, (fixGoModTemplPaths w).1[i]? = some fp1 ∧
          fp1.Path = fp.Path ∧ fp1.Name = fp.Name ∧ fp1.IsDir = fp.IsDir ∧
          (HasSuffix fp.TemplName ['_'] = false → fp1 = fp) := by
  refine ⟨rangeFilePaths_length _ _, ?_⟩
  intro i fp hi
  rcases rangeFilePaths_get fixGoModFilePath w.FilePaths i fp hi with h | h
  · exact ⟨fp, h, rfl, rfl, rfl, fun _ => rfl⟩
  · obtain ⟨f1, f2, f3⟩ := fixGoModFilePath_frame fp
    refine ⟨_, h, f1, f2, f3, ?_⟩
    intro hs
    have hm : ¬ isGoModMask fp.TemplName := by
      intro hm
      rw [isGoModMask_hasSuffix _ hm] at hs
      exact Bool.noConfusion hs
    rw [fixGoModFilePath_other fp hm]

/-- Witness for C10: a masked `go.mod_` between two ordinary nodes. -/
theorem C10_fixGoModTemplPaths_frame_witness :
    (fixGoModTemplPaths (writerOf
        [⟨[], [], "demo".toList, "demo".toList, true⟩,
         ⟨[], [], "demo/go.mod_".toList, "go.mod_".toList, false⟩,
         ⟨[], [], "demo/cmd".toList, "cmd".toList, true⟩] demoVals)).1
      = [⟨[], [], "demo".toList, "demo".toList, true⟩,
         ⟨[], [], "demo/go.mod".toList, "go.mod".toList, false⟩,
         ⟨[], [], "demo/cmd".toList, "cmd".toList, true⟩] ∧
    ∃ fp1, (fixGoModTemplPaths (writerOf
        [⟨[], [], "demo".toList, "demo".toList, true⟩,
         ⟨[], [], "demo/go.mod_".toList, "go.mod_".toList, false⟩,
         ⟨[], [], "demo/cmd".toList, "cmd".toList, true⟩] demoVals)).1[2]? = some fp1 ∧
      fp1.Path = [] ∧ fp1.Name = [] ∧ fp1.IsDir = true ∧
      (HasSuffix "cmd".toList ['_'] = false → fp1 = ⟨[], [], "demo/cmd".toList, "cmd".toList, true⟩) :=
  ⟨by decide,
    (C10_fixGoModTemplPaths_frame (writerOf
        [⟨[], [], "demo".toList, "demo".toList, true⟩,
         ⟨[], [], "demo/go.mod_".toList, "go.mod_".toList, false⟩,
         ⟨[], [], "demo/cmd".toList, "cmd".toList, true⟩] demoVals)).2 2
      ⟨[], [], "demo/cmd".toList, "cmd".toList, true⟩ (by decide)⟩

theorem HasSuffix_iff (s p : Str) : HasSuffix s p = true ↔ ∃ q, s = q ++ p := by
  unfold HasSuffix
  rw [List.isPrefixOf_iff_prefix, List.reverse_prefix]
  constructor
  · rintro ⟨q, hq⟩; exact ⟨q, hq.symm⟩
  · rintro ⟨q, hq⟩; exact ⟨q, hq.symm⟩

theorem fixGoModFilePath_not_mask (fp : FilePath) (h : (fixGoModFilePath fp).2 = .nil) :
    ¬ isGoModMask (fixGoModFilePath fp).1.TemplName := by
  by_cases hm : isGoModMask fp.TemplName
  · rw [fixGoModFilePath_mask fp hm (fixGoModFilePath_nil_path fp hm h)]
    rcases hm with hm | hm
    · rw [hm]
      show ¬ isGoModMask (List.dropLast "go.mod_".toList)
      decide
    · rw [hm]
      show ¬ isGoModMask (List.dropLast "go.sum_".toList)
      decide
  · rw [fixGoModFilePath_other fp hm]
    exact hm

/-- `fixGoModTemplPaths` returns (does not panic) when every node named
`go.mod_` or `go.sum_` has a non-empty `TemplPath`. -/
theorem fixGoModTemplPaths_returns {σ : Type} (w : TmplWriter σ)
    (h : ∀ fp ∈ w.FilePaths, isGoModMask fp.TemplName → fp.TemplPath ≠ []) :
    (fixGoModTemplPaths w).2 = .nil := by
  apply rangeFilePaths_total
  intro fp hfp
  by_cases hm : isGoModMask fp.TemplName
  · rw [fixGoModFilePath_mask fp hm (h fp hfp hm)]
  · rw [fixGoModFilePath_other fp hm]

/-! ## Path resolution and the output filesystem -/

/-- If the `Path` or the `Name` of some node does not resolve, path resolution
does not return `nil`. -/
theorem ResolveAllPathTemplates_fails {σ : Type} (w : TmplWriter σ) (fp : FilePath)
    (hfp : fp ∈ w.FilePaths)
    (hfail : (∃ e, ResolveTemplateVars w fp.Path = .error e) ∨
      (∃ e, ResolveTemplateVars w fp.Name = .error e)) :
    (ResolveAllPathTemplates w).2 ≠ .nil := by
  intro hnil
  obtain ⟨_, h2⟩ := rangeFilePaths_nil (resolveFilePath w) w.FilePaths hnil
  obtain ⟨s, n, _, _, r1, _, r3, _, _⟩ := resolveFilePath_nil w fp (h2 fp hfp)
  rcases hfail with ⟨e, he⟩ | ⟨e, he⟩
  · rw [r1] at he; exact Except.noConfusion he
  · rw [r3] at he; exact Except.noConfusion he

/-- If the `Path` or the `Name` of some node does not resolve, `BuildProject`
does not return `nil`, and it leaves the output filesystem as it was, without
having called it. -/
theorem BuildProject_untouched_on_resolution_failure {σ : Type} (w : TmplWriter σ)
    (destDir : Str) (wd : World σ) (fp : FilePath) (hfp : fp ∈ w.FilePaths)
    (hfail : (∃ e, ResolveTemplateVars w fp.Path = .error e) ∨
      (∃ e, ResolveTemplateVars w fp.Name = .error e)) :
    (BuildProject w destDir wd).2.2 ≠ .nil ∧ (BuildProject w destDir wd).2.1 = wd := by
  have h := ResolveAllPathTemplates_fails w fp hfp hfail
  rw [BuildProject_resolution_stops w destDir wd h]
  exact ⟨h, rfl⟩

/-- C1 (failing input). `ProjectName` is the empty string; the first node's
`Name` resolves to the empty string and the second node's `Path` does not
resolve (unclosed action).  `BuildProject` does not return an error: it panics
on `name[0]` at the first node, before the failing node is reached.  The
output filesystem is untouched. -/
theorem C1_panic_before_failing_node :
    ResolveTemplateVars (writerOf unclosedNodes [("ProjectName".toList, [])])
        (headlessRoot ++ '/' :: placeholder "ProjectName".toList ++ '/' :: leftDelim ++ ".Oops".toList)
      = .error (.errorf "path parsing error: ".toList (.template .unclosedAction) []) ∧
    (BuildProject (writerOf unclosedNodes [("ProjectName".toList, [])]) "/tmp/out".toList
        emptyWorld).2.2 = .panic ∧
    (BuildProject (writerOf unclosedNodes [("ProjectName".toList, [])]) "/tmp/out".toList
        emptyWorld).2.1 = emptyWorld := by
  decide

/-- C8 (counterexample). A node named `LICENSE_` ends in the mask character,
yet `fixGoModTemplPaths` returns it unchanged: the underscore is not removed
from `TemplName` nor from `TemplPath`. -/
theorem C8_counterexample :
    HasSuffix "LICENSE_".toList ['_'] = true ∧
    fixGoModTemplPaths (writerOf [⟨[], [], "demo/LICENSE_".toList, "LICENSE_".toList, false⟩] demoVals)
      = ([⟨[], [], "demo/LICENSE_".toList, "LICENSE_".toList, false⟩], .nil) := by
  decide

/-- C8 (amended). For a node whose `TemplName` ends in an underscore, after
`fixGoModTemplPaths` has returned: when the name is exactly `go.mod_` or
`go.sum_`, `TemplName` and `TemplPath` have each lost their last character and
nothing else has changed; any other such node is unchanged. -/
theorem C8_unmask_only_go_mod {σ : Type} (w : TmplWriter σ) (i : Nat) (fp : FilePath)
    (hi : w.FilePaths[i]? = some fp) (hret : (fixGoModTemplPaths w).2 = .nil)
    (_hs : HasSuffix fp.TemplName ['_'] = true) :
    ∃ fp1, (fixGoModTemplPaths w).1[i]? = some fp1 ∧
      (isGoModMask fp.TemplName →
        fp1 = { fp with TemplPath := fp.TemplPath.dropLast, TemplName := fp.TemplName.dropLast }) ∧
      (¬ isGoModMask fp.TemplName → fp1 = fp) := by
  obtain ⟨h1, h2⟩ := rangeFilePaths_nil_get fixGoModFilePath w.FilePaths hret i fp hi
  refine ⟨_, h1, ?_, ?_⟩
  · intro hm
    rw [fixGoModFilePath_mask fp hm (fixGoModFilePath_nil_path fp hm h2)]
  · intro hm
    rw [fixGoModFilePath_other fp hm]

/-- Witness for C8 (amended): `go.sum_` is un-masked, `LICENSE_` is not. -/
theorem C8_unmask_only_go_mod_witness :
    ∃ fp1, (fixGoModTemplPaths (writerOf
        [⟨[], [], "demo/go.sum_".toList, "go.sum_".toList, false⟩,
         ⟨[], [], "demo/LICENSE_".toList, "LICENSE_".toList, false⟩] demoVals)).1[1]? = some fp1 ∧
      (isGoModMask "LICENSE_".toList →
        fp1 = ⟨[], [], "demo/LICENSE".toList, "LICENSE".toList, false⟩) ∧
      (¬ isGoModMask "LICENSE_".toList →
        fp1 = ⟨[], [], "demo/LICENSE_".toList, "LICENSE_".toList, false⟩) :=
  C8_unmask_only_go_mod (writerOf
        [⟨[], [], "demo/go.sum_".toList, "go.sum_".toList, false⟩,
         ⟨[], [], "demo/LICENSE_".toList, "LICENSE_".toList, false⟩] demoVals) 1
    ⟨[], [], "demo/LICENSE_".toList, "LICENSE_".toList, false⟩ (by decide) (by decide) (by decide)

/-- C4. A string with no left delimiter resolves to itself, for every
dictionary. -/
theorem C4_no_placeholder_identity {σ : Type} (w : TmplWriter σ) (s : Str)
    (h : Contains s leftDelim = false) : ResolveTemplateVars w s = .ok s :=
  ResolveTemplateVars_text w s h

/-- Witness for C4. -/
theorem C4_no_placeholder_identity_witness :
    Contains "cmd/root.go".toList leftDelim = false ∧
      ResolveTemplateVars (exampleWriter demoVals) "cmd/root.go".toList = .ok "cmd/root.go".toList :=
  ⟨by decide, C4_no_placeholder_identity (exampleWriter demoVals) "cmd/root.go".toList (by decide)⟩

/-- C3 (counterexample). The literal text `{` contains no left delimiter and
the key `K` has a string value, yet the template made of that literal followed
by the placeholder for `K` does not resolve to the literal followed by the
value: the three braces are read as a delimiter followed by a brace, a parse
error. -/
theorem C3_counterexample :
    Contains ['{'] leftDelim = false ∧ isFieldName "K".toList = true ∧
      Dict.get [("K".toList, "v".toList)] "K".toList = some "v".toList ∧
      ResolveTemplateVars (writerOf [] [("K".toList, "v".toList)])
          (render [(['{'], "K".toList)] [])
        = .error (.errorf "path parsing error: ".toList (.template (.unexpectedInCommand '{')) []) ∧
      substitute [("K".toList, "v".toList)] [(['{'], "K".toList)] [] = ['{', 'v'] := by
  decide

/-- C3 (amended). For a template made of literal texts and field
placeholders, where no literal text contains a left delimiter, no literal text
that is followed by a placeholder ends in an opening brace, and the dictionary
has an entry for every key: `ResolveTemplateVars` succeeds and returns the
template with each placeholder replaced by the entry of its key, the literal
text unchanged and the inserted values not expanded again. -/
theorem C3_substitution {σ : Type} (w : TmplWriter σ) (pieces : List (Str × Str)) (last : Str)
    (hp : ∀ p ∈ pieces, pieceOk p) (hl : Contains last leftDelim = false)
    (hkeys : ∀ p ∈ pieces, (w.TmplVals.get p.2).isSome = true) :
    ResolveTemplateVars w (render pieces last) = .ok (substitute w.TmplVals pieces last) ∧
      ∀ p ∈ pieces, w.TmplVals.get p.2 = some (fieldValue w.TmplVals p.2) := by
  refine ⟨ResolveTemplateVars_render w pieces last hp hl, ?_⟩
  intro p hmem
  have := hkeys p hmem
  cases hg : w.TmplVals.get p.2 with
  | none => rw [hg] at this; exact Bool.noConfusion this
  | some v => rw [fieldValue_present _ _ v hg]

/-- Witness for C3 (amended): the value of `B` is itself the text of a
placeholder and is inserted as it is. -/
theorem C3_substitution_witness :
    ResolveTemplateVars
        (writerOf [] [("A".toList, "demo".toList), ("B".toList, placeholder "A".toList)])
        (render [("x/".toList, "A".toList), ("/y-".toList, "B".toList), ([], "A".toList)] ".go".toList)
      = .ok ("x/demo/y-".toList ++ placeholder "A".toList ++ "demo.go".toList) :=
  ((C3_substitution
      (writerOf [] [("A".toList, "demo".toList), ("B".toList, placeholder "A".toList)])
      [("x/".toList, "A".toList), ("/y-".toList, "B".toList), ([], "A".toList)] ".go".toList
      (by decide) (by decide) (by decide)).1).trans (by decide)

/-! ## Lemmas: resolution never fails on simple templates -/

theorem resolveFilePath_simple {σ : Type} (w : TmplWriter σ) (fp : FilePath)
    (h1 : isSimpleTemplate fp.Path) (h2 : isSimpleTemplate fp.Name) (e : GoError) :
    (resolveFilePath w fp).2 ≠ .err e := by
  obtain ⟨ps1, l1, e1, hp1, hl1⟩ := h1
  obtain ⟨ps2, l2, e2, hp2, hl2⟩ := h2
  unfold resolveFilePath
  rw [e1, ResolveTemplateVars_render w ps1 l1 hp1 hl1]
  simp only []
  cases stripLeadingSlash (Replace (substitute w.TmplVals ps1 l1) w.ProjDir [] 1) with
  | none => simp
  | some path =>
    simp only []
    rw [e2, ResolveTemplateVars_render w ps2 l2 hp2 hl2]
    simp only []
    cases stripLeadingSlash (Replace (substitute w.TmplVals ps2 l2) w.ProjDir [] 1) with
    | none => simp
    | some name => simp

theorem rangeFilePaths_no_err (body : FilePath → FilePath × Outcome) (l : List FilePath)
    (h : ∀ fp ∈ l, ∀ e, (body fp).2 ≠ .err e) (e : GoError) :
    (rangeFilePaths body l).2 ≠ .err e := by
  induction l with
  | nil => simp [rangeFilePaths]
  | cons fp rest ih =>
    rw [rangeFilePaths_cons]
    split
    · exact ih (fun x hx => h x (List.mem_cons_of_mem _ hx))
    · exact h fp (List.mem_cons_self _ _) e

theorem exampleFilePaths_simple :
    ∀ fp ∈ exampleFilePaths, isSimpleTemplate fp.Path ∧ isSimpleTemplate fp.Name := by
  intro fp hfp
  simp only [exampleFilePaths, List.mem_cons, List.mem_singleton, List.not_mem_nil, or_false] at hfp
  rcases hfp with rfl | rfl | rfl | rfl
  · exact ⟨⟨[(headlessRoot ++ ['/'], "ProjectName".toList)], [], by decide, by decide, by decide⟩,
      ⟨[([], "ProjectName".toList)], [], by decide, by decide, by decide⟩⟩
  · exact ⟨⟨[(headlessRoot ++ ['/'], "ProjectName".toList)], "/cmd".toList, by decide, by decide,
        by decide⟩,
      ⟨[], "cmd".toList, by decide, by decide, by decide⟩⟩
  · exact ⟨⟨[(headlessRoot ++ ['/'], "ProjectName".toList)], "/cmd/root.go".toList, by decide,
        by decide, by decide⟩,
      ⟨[], "root.go".toList, by decide, by decide, by decide⟩⟩
  · exact ⟨⟨[(headlessRoot ++ ['/'], "ProjectName".toList)], "/go.mod_".toList, by decide,
        by decide, by decide⟩,
      ⟨[], "go.mod_".toList, by decide, by decide, by decide⟩⟩

/-- C2 (counterexample). The dictionary is empty, so it has no entry for
`ProjectName`; the placeholder for `ProjectName` still resolves, to the text
`<no value>`, and `BuildProject` on the example archetype, whose paths all
reference `ProjectName`, returns `nil` after creating directories and files. -/
theorem C2_counterexample :
    Dict.get [] "ProjectName".toList = none ∧
      ResolveTemplateVars (exampleWriter []) (placeholder "ProjectName".toList)
        = .ok "<no value>".toList ∧
      (BuildProject (exampleWriter []) "/tmp/out".toList emptyWorld).2.2 = .nil ∧
      (BuildProject (exampleWriter []) "/tmp/out".toList emptyWorld).2.1.fs.dirs
        = ["/tmp/out/<no value>".toList, "/tmp/out/<no value>/cmd".toList,
           "/tmp/out/<no value>/cmd".toList, "/tmp/out/<no value>".toList] ∧
      (BuildProject (exampleWriter []) "/tmp/out".toList emptyWorld).2.1.fs.files.map (·.1)
        = ["/tmp/out/<no value>/cmd/root.go".toList, "/tmp/out/<no value>/go.mod".toList] := by
  decide

/-- C2 (amended). A placeholder whose key has no entry in the dictionary does
not make `ResolveTemplateVars` fail: after a literal text `l` (without left
delimiter, not ending in an opening brace) the placeholder is replaced by the
text `<no value>` and resolution goes on with the rest.  Consequently
`ResolveAllPathTemplates` never returns an error for nodes whose `Path` and
`Name` are made of literal text and field placeholders, whatever keys the
dictionary lacks, and `BuildProject` does not stop for that reason. -/
theorem C2_missing_key_no_value {σ : Type} (w : TmplWriter σ) (l k rest : Str)
    (hl : Contains l leftDelim = false) (hl2 : l.getLast? ≠ some '{')
    (hk : isFieldName k = true) (hmiss : w.TmplVals.get k = none) :
    ResolveTemplateVars w (l ++ (placeholder k ++ rest)) =
        (match ResolveTemplateVars w rest with
          | .error e => .error e
          | .ok out => .ok (l ++ (noValue ++ out))) ∧
      ((∀ fp ∈ w.FilePaths, isSimpleTemplate fp.Path ∧ isSimpleTemplate fp.Name) →
        ∀ e, (ResolveAllPathTemplates w).2 ≠ .err e) := by
  constructor
  · rw [ResolveTemplateVars_placeholder w l k rest hl hl2 hk, fieldValue_missing _ _ hmiss]
  · intro h e
    exact rangeFilePaths_no_err _ _ (fun fp hfp e => resolveFilePath_simple w fp (h fp hfp).1 (h fp hfp).2 e) e

/-- Witness for C2 (amended): the example archetype with an empty dictionary. -/
theorem C2_missing_key_no_value_witness :
    ResolveTemplateVars (exampleWriter [])
        ((headlessRoot ++ ['/']) ++ (placeholder "ProjectName".toList ++ "/cmd".toList))
      = .ok ((headlessRoot ++ ['/']) ++ (noValue ++ "/cmd".toList)) ∧
    ∀ e, (ResolveAllPathTemplates (exampleWriter [])).2 ≠ .err e :=
  have h := C2_missing_key_no_value (exampleWriter [])
    (headlessRoot ++ ['/']) "ProjectName".toList "/cmd".toList (by decide) (by decide) (by decide)
    (by decide)
  ⟨h.1.trans (by decide), h.2 exampleFilePaths_simple⟩

/-- For a node whose `Path` lies under `ProjDir`, a normal end of the loop body
sets `TemplPath` to the resolved path without its leading `ProjDir` and slash. -/
theorem resolveFilePath_under {σ : Type} (w : TmplWriter σ) (fp : FilePath) (rel : Str)
    (hroot : Contains w.ProjDir leftDelim = false) (hpath : fp.Path = w.ProjDir ++ '/' :: rel)
    (h : (resolveFilePath w fp).2 = .nil) :
    ∃ out n name, ResolveTemplateVars w fp.Path = .ok (w.ProjDir ++ '/' :: out) ∧
      ResolveTemplateVars w fp.Name = .ok n ∧
      stripLeadingSlash (Replace n w.ProjDir [] 1) = some name ∧
      (resolveFilePath w fp).1 = { fp with TemplPath := out, TemplName := name } := by
  obtain ⟨s, n, path, name, h1, h2, h3, h4, h5⟩ := resolveFilePath_nil w fp h
  rw [hpath] at h1
  obtain ⟨out, _, hs⟩ := ResolveTemplateVars_under w w.ProjDir rel s hroot h1
  subst hs
  rw [Replace_leading] at h2
  simp only [stripLeadingSlash, if_true, Option.some.injEq] at h2
  subst h2
  exact ⟨out, n, name, by rw [hpath]; exact h1, h3, h4, h5⟩

/-- C5. For a writer made by `NewTmplWriter` (nodes enumerated by
`GetFilePaths` from the archetype root returned by `GetProjectFs`), after
`ResolveAllPathTemplates` has returned `nil`: the resolved `Path` of every node
starts with the root and a slash, and the node's `TemplPath` is that resolved
path with the root and the slash removed. -/
theorem C5_templPath_relative {σ : Type} (a : Assets) (outFs : Fs σ) (projType : Str)
    (vals : Dict) (w : TmplWriter σ) (hnew : NewTmplWriter a outFs projType vals = .ok w)
    (hres : (ResolveAllPathTemplates w).2 = .nil) (i : Nat) (fp : FilePath)
    (hi : w.FilePaths[i]? = some fp) :
    ∃ s fp1, ResolveTemplateVars w fp.Path = .ok s ∧
      (ResolveAllPathTemplates w).1[i]? = some fp1 ∧
      HasPrefix s (w.ProjDir ++ ['/']) = true ∧
      fp1.TemplPath = s.drop (w.ProjDir.length + 1) := by
  obtain ⟨hroot, _, _, hunder⟩ := NewTmplWriter_ok a outFs projType vals w hnew
  obtain ⟨rel, hrel⟩ := hunder fp (List.mem_iff_getElem?.mpr ⟨i, hi⟩)
  obtain ⟨g1, g2⟩ := rangeFilePaths_nil_get (resolveFilePath w) w.FilePaths hres i fp hi
  obtain ⟨out, n, name, r1, _, _, r4⟩ := resolveFilePath_under w fp rel hroot hrel g2
  refine ⟨_, _, r1, g1, ?_, ?_⟩
  · have : w.ProjDir ++ '/' :: out = (w.ProjDir ++ ['/']) ++ out := by simp
    rw [this]
    exact List.isPrefixOf_iff_prefix.mpr (List.prefix_append _ _)
  · rw [r4]
    have : w.ProjDir ++ '/' :: out = (w.ProjDir ++ ['/']) ++ out := by simp
    rw [this]
    have hl : w.ProjDir.length + 1 = (w.ProjDir ++ ['/']).length := by simp
    rw [hl, List.drop_left]

theorem exampleWriter_new :
    NewTmplWriter exampleAssets MemFs.impl HeadlessServiceType demoVals
      = .ok (exampleWriter demoVals) := by
  have h : GetFilePaths exampleFS headlessRoot = .ok exampleFilePaths := by decide
  simp only [NewTmplWriter, GetProjectFs, exampleAssets]
  rw [if_neg (by decide), if_pos (by decide)]
  simp only []
  rw [show "project_templates/_headlessServiceProject".toList = headlessRoot from rfl, h]
  rfl

/-- Witness for C5: the node `cmd/root.go` of the example archetype with
`ProjectName` set to `demo` gets the `TemplPath` `demo/cmd/root.go`. -/
theorem C5_templPath_relative_witness :
    (∃ s fp1,
      ResolveTemplateVars (exampleWriter demoVals)
          (headlessRoot ++ '/' :: placeholder "ProjectName".toList ++ "/cmd/root.go".toList)
        = .ok s ∧
      (ResolveAllPathTemplates (exampleWriter demoVals)).1[2]? = some fp1 ∧
      HasPrefix s ((exampleWriter demoVals).ProjDir ++ ['/']) = true ∧
      fp1.TemplPath = s.drop ((exampleWriter demoVals).ProjDir.length + 1)) ∧
    ((ResolveAllPathTemplates (exampleWriter demoVals)).1[2]?).map (·.TemplPath)
      = some "demo/cmd/root.go".toList :=
  ⟨C5_templPath_relative exampleAssets MemFs.impl HeadlessServiceType demoVals
      (exampleWriter demoVals) exampleWriter_new (by decide) 2
      ⟨headlessRoot ++ '/' :: placeholder "ProjectName".toList ++ "/cmd/root.go".toList,
        "root.go".toList, [], [], false⟩ (by decide),
    by decide⟩

/-- C6 (counterexample). With `ProjectName` set to a value that contains the
archetype root, `ResolveAllPathTemplates` returns `nil` and the `TemplPath` of
the first node still contains `ProjDir`: only the first occurrence was
removed. -/
theorem C6_counterexample :
    (ResolveAllPathTemplates
        (exampleWriter [("ProjectName".toList, "my/".toList ++ headlessRoot)])).2 = .nil ∧
      ((ResolveAllPathTemplates
        (exampleWriter [("ProjectName".toList, "my/".toList ++ headlessRoot)])).1[0]?).map
          (·.TemplPath) = some ("my/".toList ++ headlessRoot) ∧
      Contains ("my/".toList ++ headlessRoot)
        (exampleWriter [("ProjectName".toList, "my/".toList ++ headlessRoot)]).ProjDir = true := by
  decide

/-- C6 (amended). For a writer made by `NewTmplWriter`, after
`ResolveAllPathTemplates` has returned `nil`, a node's `TemplPath` does not
contain `ProjDir` provided the resolved `Path`, once its leading `ProjDir` and
slash are taken off, does not contain it, and its `TemplName` does not contain
`ProjDir` provided the resolved `Name` does not contain it. -/
theorem C6_root_removed_once {σ : Type} (a : Assets) (outFs : Fs σ) (projType : Str)
    (vals : Dict) (w : TmplWriter σ) (hnew : NewTmplWriter a outFs projType vals = .ok w)
    (hres : (ResolveAllPathTemplates w).2 = .nil) (i : Nat) (fp : FilePath)
    (hi : w.FilePaths[i]? = some fp) :
    ∃ s n fp1, ResolveTemplateVars w fp.Path = .ok s ∧ ResolveTemplateVars w fp.Name = .ok n ∧
      (ResolveAllPathTemplates w).1[i]? = some fp1 ∧
      (Contains (s.drop (w.ProjDir.length + 1)) w.ProjDir = false →
        Contains fp1.TemplPath w.ProjDir = false) ∧
      (Contains n w.ProjDir = false → Contains fp1.TemplName w.ProjDir = false) := by
  obtain ⟨hroot, _, _, hunder⟩ := NewTmplWriter_ok a outFs projType vals w hnew
  obtain ⟨rel, hrel⟩ := hunder fp (List.mem_iff_getElem?.mpr ⟨i, hi⟩)
  obtain ⟨g1, g2⟩ := rangeFilePaths_nil_get (resolveFilePath w) w.FilePaths hres i fp hi
  obtain ⟨out, n, name, r1, r2, r3, r4⟩ := resolveFilePath_under w fp rel hroot hrel g2
  refine ⟨_, n, _, r1, r2, g1, ?_, ?_⟩
  · intro hc
    rw [r4]
    have : w.ProjDir ++ '/' :: out = (w.ProjDir ++ ['/']) ++ out := by simp
    have hl : w.ProjDir.length + 1 = (w.ProjDir ++ ['/']).length := by simp
    rw [this, hl, List.drop_left] at hc
    exact hc
  · intro hc
    rw [r4]
    rw [Replace_absent n w.ProjDir hc] at r3
    exact stripLeadingSlash_contains n name w.ProjDir r3 hc

/-- Witness for C6 (amended): the node `cmd/root.go` with `ProjectName` set to
`demo`. -/
theorem C6_root_removed_once_witness :
    ∃ s n fp1,
      ResolveTemplateVars (exampleWriter demoVals)
          (headlessRoot ++ '/' :: placeholder "ProjectName".toList ++ "/cmd/root.go".toList)
        = .ok s ∧
      ResolveTemplateVars (exampleWriter demoVals) "root.go".toList = .ok n ∧
      (ResolveAllPathTemplates (exampleWriter demoVals)).1[2]? = some fp1 ∧
      (Contains (s.drop ((exampleWriter demoVals).ProjDir.length + 1))
          (exampleWriter demoVals).ProjDir = false →
        Contains fp1.TemplPath (exampleWriter demoVals).ProjDir = false) ∧
      (Contains n (exampleWriter demoVals).ProjDir = false →
        Contains fp1.TemplName (exampleWriter demoVals).ProjDir = false) :=
  C6_root_removed_once exampleAssets MemFs.impl HeadlessServiceType demoVals
    (exampleWriter demoVals) exampleWriter_new (by decide) 2
    ⟨headlessRoot ++ '/' :: placeholder "ProjectName".toList ++ "/cmd/root.go".toList,
      "root.go".toList, [], [], false⟩ (by decide)

/-- C7 (failing input). With `ProjectName` set to the empty string, the first
node of the example archetype has a `Name` that resolves to the empty string;
`name[0]` is then out of range and `ResolveAllPathTemplates` panics instead of
returning. -/
theorem C7_panic_on_empty_name :
    ResolveTemplateVars (exampleWriter [("ProjectName".toList, [])])
        (placeholder "ProjectName".toList) = .ok [] ∧
      (ResolveAllPathTemplates (exampleWriter [("ProjectName".toList, [])])).2 = .panic ∧
      (BuildProject (exampleWriter [("ProjectName".toList, [])]) "/tmp/out".toList emptyWorld).2.2
        = .panic := by
  decide

/-! ## Lemmas: the build-exclusion marker -/

theorem Index_append_right (sub a b : Str) (i : Nat) (h : Index sub a = some i) :
    Index sub (a ++ b) = some i := by
  induction a generalizing i with
  | nil =>
    simp only [Index] at h
    split at h
    · rename_i he
      simp only [List.isEmpty_eq_true] at he
      subst he
      simp only [Option.some.injEq] at h
      subst h
      cases b with
      | nil => rfl
      | cons c t => simp [Index_cons, List.isPrefixOf]
    · simp at h
  | cons c t ih =>
    rw [Index_cons] at h
    rw [List.cons_append, Index_cons]
    by_cases hp : sub.isPrefixOf (c :: t) = true
    · rw [if_pos hp] at h
      have hp2 : sub.isPrefixOf (c :: (t ++ b)) = true := by
        rw [List.isPrefixOf_iff_prefix] at hp ⊢
        rw [← List.cons_append]
        exact hp.trans (List.prefix_append _ _)
      rw [if_pos hp2]; exact h
    · rw [if_neg hp] at h
      cases hI : Index sub t with
      | none => rw [hI] at h; simp at h
      | some j =>
        rw [hI] at h
        have hlen := Index_lt_length_add sub t j hI
        have hp2 : ¬ sub.isPrefixOf (c :: (t ++ b)) = true := by
          intro hq
          apply hp
          rw [List.isPrefixOf_iff_prefix] at hq ⊢
          rw [← List.cons_append] at hq
          exact List.prefix_of_prefix_length_le hq (List.prefix_append _ _)
            (by simp only [List.length_cons]; omega)
        rw [if_neg hp2, ih j hI]
        exact h

theorem replaceLoop_absent (old new : Str) (n : Nat) (s : Str) (h : Index old s = none) :
    replaceLoop old new n s = s := by
  cases n with
  | zero => rfl
  | succ n => simp [replaceLoop, h]

theorem replaceLoop_at (old new : Str) (n : Nat) (p rest : Str)
    (h2 : Index old (p ++ (old ++ rest)) = some p.length) :
    replaceLoop old new (n + 1) (p ++ (old ++ rest)) = p ++ (new ++ replaceLoop old new n rest) := by
  rw [replaceLoop, h2]
  simp only []
  rw [List.take_left, ← List.append_assoc p old rest]
  have : p.length + old.length = (p ++ old).length := by simp
  rw [this, List.drop_left, List.append_assoc]

theorem joinMarked_length (m : Str) (ps : List Str) (last : Str) :
    ps.length * m.length ≤ (joinMarked m ps last).length := by
  induction ps with
  | nil => simp
  | cons p ps ih =>
    simp only [joinMarked, List.length_append, List.length_cons, Nat.succ_mul]
    omega

theorem replaceLoop_joinMarked (m : Str) :
    ∀ (ps : List Str) (last : Str) (n : Nat), ps.length ≤ n →
      (∀ p ∈ ps, Index m (p ++ m) = some p.length) → Index m last = none →
      replaceLoop m [] n (joinMarked m ps last) = ps.flatten ++ last := by
  intro ps
  induction ps with
  | nil =>
    intro last n _ _ hl
    simpa [joinMarked] using replaceLoop_absent m [] n last hl
  | cons p ps ih =>
    intro last n hn hp hl
    cases n with
    | zero => simp at hn
    | succ n =>
      simp only [joinMarked]
      have h2 : Index m (p ++ (m ++ joinMarked m ps last)) = some p.length := by
        rw [← List.append_assoc]
        exact Index_append_right m (p ++ m) _ _ (hp p (List.mem_cons_self _ _))
      rw [replaceLoop_at m [] n p _ h2]
      rw [ih last n (by simpa using hn) (fun q hq => hp q (List.mem_cons_of_mem _ hq)) hl]
      simp

theorem ReplaceAll_joinMarked (m : Str) (hm : m ≠ []) (ps : List Str) (last : Str)
    (hp : ∀ p ∈ ps, Index m (p ++ m) = some p.length) (hl : Index m last = none) :
    ReplaceAll (joinMarked m ps last) m [] = ps.flatten ++ last := by
  unfold ReplaceAll
  have h2 : m.isEmpty = false := by
    cases m with
    | nil => exact absurd rfl hm
    | cons c t => rfl
  rw [if_neg hm, h2]
  simp only [Bool.false_eq_true, if_false]
  apply replaceLoop_joinMarked m ps last _ _ hp hl
  have := joinMarked_length m ps last
  have hpos : 0 < m.length := List.length_pos.mpr hm
  have : ps.length ≤ ps.length * m.length := Nat.le_mul_of_pos_right _ hpos
  omega

theorem resolvedMarker_ne_nil (d : Dict) : resolvedMarker d ≠ [] := by
  simp [resolvedMarker]

/-- The marker template resolves for every dictionary. -/
theorem ResolveTemplateVars_marker {σ : Type} (w : TmplWriter σ) :
    ResolveTemplateVars w buildExclusionTemplate = .ok (resolvedMarker w.TmplVals) := by
  unfold buildExclusionTemplate
  rw [List.append_assoc,
    ResolveTemplateVars_placeholder w _ _ _ (by decide) (by decide) (by decide),
    ResolveTemplateVars_text w _ (by decide)]
  rfl

theorem removeBuildExclusions_eq {σ : Type} (w : TmplWriter σ) (buf : Str) :
    removeBuildExclusions w buf = .ok (ReplaceAll buf (resolvedMarker w.TmplVals) []) := by
  unfold removeBuildExclusions
  rw [ResolveTemplateVars_marker]

theorem ReplaceAll_absent (buf m : Str) (h : Index m buf = none) : ReplaceAll buf m [] = buf := by
  unfold ReplaceAll
  split
  · rfl
  · split
    · rename_i h1 h2
      exfalso; apply h1; simpa using h2
    · exact replaceLoop_absent m [] _ buf h

theorem Index_restrict (sub a b : Str) (i : Nat) (h : Index sub (a ++ b) = some i)
    (hlen : i + sub.length ≤ a.length) : Index sub a = some i := by
  induction a generalizing i with
  | nil =>
    simp only [List.length_nil, Nat.le_zero, Nat.add_eq_zero, List.length_eq_zero] at hlen
    obtain ⟨rfl, rfl⟩ := hlen
    rfl
  | cons c t ih =>
    rw [List.cons_append, Index_cons] at h
    rw [Index_cons]
    by_cases hp : sub.isPrefixOf (c :: (t ++ b)) = true
    · rw [if_pos hp] at h
      simp only [Option.some.injEq] at h
      subst h
      have hp2 : sub.isPrefixOf (c :: t) = true := by
        rw [List.isPrefixOf_iff_prefix] at hp ⊢
        rw [← List.cons_append] at hp
        exact List.prefix_of_prefix_length_le hp (List.prefix_append _ _) (by simpa using hlen)
      rw [if_pos hp2]
    · rw [if_neg hp] at h
      cases hI : Index sub (t ++ b) with
      | none => rw [hI] at h; simp at h
      | some j =>
        rw [hI] at h
        simp only [Option.map_some', Option.some.injEq] at h
        subst h
        have hp2 : ¬ sub.isPrefixOf (c :: t) = true := by
          intro hq
          apply hp
          rw [List.isPrefixOf_iff_prefix] at hq ⊢
          rw [← List.cons_append]
          exact hq.trans (List.prefix_append _ _)
        rw [if_neg hp2, ih j hI (by simp only [List.length_cons] at hlen; omega)]
        rfl

theorem Index_spec (sub s : Str) (i : Nat) (h : Index sub s = some i) :
    s = s.take i ++ (sub ++ s.drop (i + sub.length)) := by
  induction s generalizing i with
  | nil =>
    simp only [Index] at h
    split at h
    · rename_i he
      simp only [List.isEmpty_eq_true] at he
      subst he; simp
    · simp at h
  | cons c t ih =>
    rw [Index_cons] at h
    by_cases hp : sub.isPrefixOf (c :: t) = true
    · rw [if_pos hp] at h
      simp only [Option.some.injEq] at h
      subst h
      obtain ⟨r, hr⟩ := List.isPrefixOf_iff_prefix.mp hp
      simp only [List.take_zero, List.nil_append, Nat.zero_add]
      conv_lhs => rw [← hr]
      conv_rhs => rw [← hr, List.drop_left]
    · rw [if_neg hp] at h
      cases hI : Index sub t with
      | none => rw [hI] at h; simp at h
      | some j =>
        rw [hI] at h
        simp only [Option.map_some', Option.some.injEq] at h
        subst h
        have := ih j hI
        simp only [List.take_succ_cons, List.cons_append, List.cons.injEq, true_and]
        have e : j + 1 + sub.length = (j + sub.length) + 1 := by omega
        rw [e, List.drop_succ_cons]
        exact this

/-- Every text is a sequence of parts each followed by the first occurrence of
`m` in what remains, and a last part without `m`. -/
theorem joinMarked_exists (m : Str) (hm : m ≠ []) :
    ∀ (n : Nat) (buf : Str), buf.length < n →
      ∃ ps last, buf = joinMarked m ps last ∧
        (∀ p ∈ ps, Index m (p ++ m) = some p.length) ∧ Index m last = none := by
  intro n
  induction n with
  | zero => intro buf h; omega
  | succ n ih =>
    intro buf hlen
    cases hI : Index m buf with
    | none => exact ⟨[], buf, rfl, by simp, hI⟩
    | some i =>
      have hb := Index_lt_length_add m buf i hI
      have hpos : 0 < m.length := List.length_pos.mpr hm
      have hspec := Index_spec m buf i hI
      obtain ⟨ps, last, e1, e2, e3⟩ := ih (buf.drop (i + m.length))
        (by simp only [List.length_drop]; omega)
      refine ⟨buf.take i :: ps, last, ?_, ?_, e3⟩
      · simp only [joinMarked]
        rw [← e1]; exact hspec
      · intro p hp
        rcases List.mem_cons.mp hp with rfl | hp
        · have hl : (buf.take i).length = i := by
            simp only [List.length_take]; omega
          rw [hl]
          apply Index_restrict m (buf.take i ++ m) (buf.drop (i + m.length)) i
          · rw [List.append_assoc, ← hspec]; exact hI
          · simp only [List.length_append, hl]; omega
        · exact e2 p hp

theorem occurrences_cons (sub : Str) (c : Char) (t : Str) :
    occurrences sub (c :: t) =
      (if sub.isPrefixOf (c :: t) then 1 else 0) + occurrences sub t := rfl

theorem occurrences_append_left (sub p x : Str) :
    occurrences sub x ≤ occurrences sub (p ++ x) := by
  induction p with
  | nil => simp
  | cons c t ih =>
    rw [List.cons_append, occurrences_cons]
    omega

theorem occurrences_self_append (m s : Str) (hm : m ≠ []) :
    1 + occurrences m s ≤ occurrences m (m ++ s) := by
  cases m with
  | nil => exact absurd rfl hm
  | cons c t =>
    have hp : (c :: t).isPrefixOf (c :: (t ++ s)) = true := by
      rw [← List.cons_append]
      exact List.isPrefixOf_iff_prefix.mpr (List.prefix_append _ _)
    rw [List.cons_append, occurrences_cons, hp]
    have := occurrences_append_left (c :: t) t s
    simp only [if_true]
    omega

theorem Index_none_of_occurrences (sub s : Str) (h : occurrences sub s = 0) :
    Index sub s = none := by
  induction s with
  | nil =>
    simp only [occurrences] at h
    simp only [Index]
    split at h
    · simp at h
    · rename_i he; simp [he]
  | cons c t ih =>
    rw [occurrences_cons] at h
    rw [Index_cons]
    by_cases hp : sub.isPrefixOf (c :: t) = true
    · simp [hp] at h
    · simp only [hp, if_false] at h ⊢
      rw [ih (by omega)]; rfl

/-- When `m` occurs exactly once in `p m s`, that occurrence is the first one
and `s` has none. -/
theorem Index_of_occurrences_one (m p s : Str) (hm : m ≠ [])
    (h : occurrences m (p ++ (m ++ s)) = 1) :
    Index m (p ++ (m ++ s)) = some p.length ∧ Index m s = none := by
  have h1 := occurrences_self_append m s hm
  have h2 := occurrences_append_left m p (m ++ s)
  refine ⟨?_, Index_none_of_occurrences m s (by omega)⟩
  clear h1 h2
  induction p with
  | nil => simpa using Index_self_append m s hm
  | cons c t ih =>
    have h1 := occurrences_self_append m s hm
    have h2 := occurrences_append_left m t (m ++ s)
    rw [List.cons_append, occurrences_cons] at h
    rw [List.cons_append, Index_cons]
    by_cases hp : m.isPrefixOf (c :: (t ++ (m ++ s))) = true
    · simp only [hp, if_true] at h; omega
    · simp only [hp, if_false] at h ⊢
      rw [ih (by omega)]
      simp

/-- C11. With `ProjectName` set to `demo` the marker template resolves to the
line `// +build exclude demo` with its newline, and for all `p` and `s` such
that this marker occurs exactly once in `p ++ marker ++ s`,
`removeBuildExclusions` returns `p ++ s` and no error. -/
theorem C11_single_marker_removed {σ : Type} (w : TmplWriter σ)
    (hdemo : w.TmplVals.get "ProjectName".toList = some "demo".toList) (p s : Str)
    (hocc : occurrences "// +build exclude demo\n".toList
      (p ++ ("// +build exclude demo\n".toList ++ s)) = 1) :
    ResolveTemplateVars w buildExclusionTemplate = .ok "// +build exclude demo\n".toList ∧
      removeBuildExclusions w (p ++ ("// +build exclude demo\n".toList ++ s)) = .ok (p ++ s) := by
  have hm : resolvedMarker w.TmplVals = "// +build exclude demo\n".toList := by
    unfold resolvedMarker
    rw [fieldValue_present _ _ _ hdemo]
    decide
  have hne : "// +build exclude demo\n".toList ≠ [] := by decide
  obtain ⟨i1, i2⟩ := Index_of_occurrences_one _ p s hne hocc
  refine ⟨by rw [ResolveTemplateVars_marker, hm], ?_⟩
  rw [removeBuildExclusions_eq, hm]
  unfold ReplaceAll
  rw [if_neg hne]
  simp only [show ("// +build exclude demo\n".toList).isEmpty = false from rfl,
    Bool.false_eq_true, if_false]
  rw [replaceLoop_at _ [] _ p s i1, replaceLoop_absent _ _ _ s i2]
  rfl

/-- Witness for C11: the file `cmd/root.go` of the example archetype. -/
theorem C11_single_marker_removed_witness :
    ResolveTemplateVars (exampleWriter demoVals) buildExclusionTemplate
      = .ok "// +build exclude demo\n".toList ∧
    removeBuildExclusions (exampleWriter demoVals)
        ("// generated\n".toList ++ ("// +build exclude demo\n".toList ++ "package cmd\n".toList))
      = .ok ("// generated\n".toList ++ "package cmd\n".toList) :=
  C11_single_marker_removed (exampleWriter demoVals) (by decide) "// generated\n".toList
    "package cmd\n".toList (by decide)

/-- C12 (counterexample). The content is the marker with a second copy of the
marker inserted after its first ten characters.  `removeBuildExclusions`
removes the inserted copy in its single pass and returns the two remaining
halves joined, which is the marker itself: the returned content contains the
marker. -/
theorem C12_counterexample :
    ResolveTemplateVars (exampleWriter demoVals) buildExclusionTemplate
      = .ok "// +build exclude demo\n".toList ∧
    removeBuildExclusions (exampleWriter demoVals)
        ("// +build ".toList ++ ("// +build exclude demo\n".toList ++ "exclude demo\n".toList))
      = .ok "// +build exclude demo\n".toList ∧
    Contains "// +build exclude demo\n".toList "// +build exclude demo\n".toList = true := by
  decide

/-- C12 (amended). For every dictionary and every file content, the content
is a sequence of parts `p₁ … pₙ`, each followed by the first occurrence of the
resolved marker in what remains, and a last part without the marker;
`removeBuildExclusions` returns the parts and the last part joined, that is,
it removes each of these occurrences in one pass from left to right and does
not look again at what it has joined. -/
theorem C12_one_pass_removal {σ : Type} (w : TmplWriter σ) (buf : Str) :
    ResolveTemplateVars w buildExclusionTemplate = .ok (resolvedMarker w.TmplVals) ∧
    ∃ ps last, buf = joinMarked (resolvedMarker w.TmplVals) ps last ∧
      (∀ p ∈ ps, Index (resolvedMarker w.TmplVals) (p ++ resolvedMarker w.TmplVals)
        = some p.length) ∧
      Contains last (resolvedMarker w.TmplVals) = false ∧
      removeBuildExclusions w buf = .ok (ps.flatten ++ last) := by
  refine ⟨ResolveTemplateVars_marker w, ?_⟩
  obtain ⟨ps, last, e1, e2, e3⟩ :=
    joinMarked_exists _ (resolvedMarker_ne_nil w.TmplVals) (buf.length + 1) buf (Nat.lt_succ_self _)
  refine ⟨ps, last, e1, e2, by simp [Contains, e3], ?_⟩
  rw [removeBuildExclusions_eq, e1,
    ReplaceAll_joinMarked _ (resolvedMarker_ne_nil w.TmplVals) ps last e2 e3]

/-- C13. A content in which the resolved marker does not occur is returned
unchanged, with no error, for every dictionary. -/
theorem C13_no_marker_unchanged {σ : Type} (w : TmplWriter σ) (buf : Str)
    (h : Contains buf (resolvedMarker w.TmplVals) = false) :
    ResolveTemplateVars w buildExclusionTemplate = .ok (resolvedMarker w.TmplVals) ∧
      removeBuildExclusions w buf = .ok buf := by
  have hI : Index (resolvedMarker w.TmplVals) buf = none := by simpa [Contains] using h
  refine ⟨ResolveTemplateVars_marker w, ?_⟩
  rw [removeBuildExclusions_eq, ReplaceAll_absent buf _ hI]

/-- Witness for C13: a content with the marker of another project. -/
theorem C13_no_marker_unchanged_witness :
    ResolveTemplateVars (exampleWriter demoVals) buildExclusionTemplate
      = .ok (resolvedMarker (exampleWriter demoVals).TmplVals) ∧
    removeBuildExclusions (exampleWriter demoVals)
        "// +build exclude other\npackage cmd\n".toList
      = .ok "// +build exclude other\npackage cmd\n".toList :=
  C13_no_marker_unchanged (exampleWriter demoVals) "// +build exclude other\npackage cmd\n".toList
    (by decide)

/-! ## Lemmas: the state of the output filesystem -/

/-- The three ways `WriteFileTemplateData` ends: `Create` fails; the file is
created and closed without a write because its content does not resolve; the
file is created, written and closed. -/
theorem WriteFileTemplateData_cases {σ : Type} (w : TmplWriter σ) (fp : FilePath)
    (destDir : Str) (wd : World σ) :
    (∃ e, (w.OutFs.Create wd.fs (destDir ++ '/' :: fp.TemplPath)).2 = some e ∧
      (WriteFileTemplateData w fp destDir wd).1.fs
        = (w.OutFs.Create wd.fs (destDir ++ '/' :: fp.TemplPath)).1 ∧
      (WriteFileTemplateData w fp destDir wd).2 ≠ .nil) ∨
    ((w.OutFs.Create wd.fs (destDir ++ '/' :: fp.TemplPath)).2 = none ∧
      (∀ buf data, ResolveFileTemplateData w fp = .ok buf → removeBuildExclusions w buf ≠ .ok data) ∧
      (WriteFileTemplateData w fp destDir wd).1.fs
        = (w.OutFs.Close (w.OutFs.Create wd.fs (destDir ++ '/' :: fp.TemplPath)).1
            (destDir ++ '/' :: fp.TemplPath)).1 ∧
      (WriteFileTemplateData w fp destDir wd).2 ≠ .nil) ∨
    (∃ buf data, (w.OutFs.Create wd.fs (destDir ++ '/' :: fp.TemplPath)).2 = none ∧
      ResolveFileTemplateData w fp = .ok buf ∧ removeBuildExclusions w buf = .ok data ∧
      (WriteFileTemplateData w fp destDir wd).1.fs
        = (w.OutFs.Close
            (w.OutFs.Write (w.OutFs.Create wd.fs (destDir ++ '/' :: fp.TemplPath)).1
              (destDir ++ '/' :: fp.TemplPath) data).1
            (destDir ++ '/' :: fp.TemplPath)).1 ∧
      ((WriteFileTemplateData w fp destDir wd).2 = .nil →
        (w.OutFs.Write (w.OutFs.Create wd.fs (destDir ++ '/' :: fp.TemplPath)).1
          (destDir ++ '/' :: fp.TemplPath) data).2.2 = none ∧
        (w.OutFs.Write (w.OutFs.Create wd.fs (destDir ++ '/' :: fp.TemplPath)).1
          (destDir ++ '/' :: fp.TemplPath) data).2.1 = data.length)) := by
  unfold WriteFileTemplateData
  simp only [World.Create]
  rcases hc : w.OutFs.Create wd.fs (destDir ++ '/' :: fp.TemplPath) with ⟨s1, oe⟩
  cases oe with
  | some e => exact Or.inl ⟨e, rfl, rfl, by simp⟩
  | none =>
    right
    simp only [World.Close]
    unfold writeOpenedFile
    cases hr : ResolveFileTemplateData w fp with
    | error e =>
      left
      refine ⟨?_, ?_, ?_, ?_⟩
      · simp
      · intro buf data h; simp at h
      · rfl
      · simp
    | ok buf =>
      simp only []
      cases hx : removeBuildExclusions w buf with
      | error e =>
        left
        refine ⟨?_, ?_, ?_, ?_⟩
        · trivial
        · intro buf' data h
          simp only [Except.ok.injEq] at h
          subst h
          rw [hx]; simp
        · rfl
        · simp
      | ok data =>
        right
        simp only [World.Write]
        rcases hw : w.OutFs.Write s1 (destDir ++ '/' :: fp.TemplPath) data with ⟨s2, n, oe2⟩
        refine ⟨buf, data, ?_, ?_, hx, ?_, ?_⟩
        · trivial
        · trivial
        · cases oe2 with
          | some e => simp [hw]
          | none =>
            by_cases hn : n = data.length
            · simp [hw, hn]
            · simp [hw, hn]
        · cases oe2 with
          | some e => simp
          | none =>
            by_cases hn : n = data.length
            · simp [hw, hn]
            · simp [hw, hn]

/-- A property of the state that `Create`, `Write` and `Close` keep is kept by
`WriteFileTemplateData`. -/
theorem WriteFileTemplateData_keeps {σ : Type} (w : TmplWriter σ) (Q : σ → Prop)
    (fp : FilePath) (destDir : Str)
    (hC : ∀ s, Q s → Q (w.OutFs.Create s (destDir ++ '/' :: fp.TemplPath)).1)
    (hW : ∀ s data, Q s → Q (w.OutFs.Write s (destDir ++ '/' :: fp.TemplPath) data).1)
    (hCl : ∀ s, Q s → Q (w.OutFs.Close s (destDir ++ '/' :: fp.TemplPath)).1)
    (wd : World σ) (h : Q wd.fs) :
    Q (WriteFileTemplateData w fp destDir wd).1.fs := by
  rcases WriteFileTemplateData_cases w fp destDir wd with
    ⟨_, _, e, _⟩ | ⟨_, _, e, _⟩ | ⟨_, _, _, _, _, e, _⟩
  · rw [e]; exact hC _ h
  · rw [e]; exact hCl _ (hC _ h)
  · rw [e]; exact hCl _ (hW _ _ (hC _ h))

/-- Under the contract, after `WriteFileTemplateData` has returned `nil` the
destination is a regular file whose content is the resolved template without
the build-exclusion marker. -/
theorem WriteFileTemplateData_content {σ : Type} (w : TmplWriter σ) (C : FsContract w.OutFs)
    (fp : FilePath) (destDir : Str) (wd : World σ)
    (h : (WriteFileTemplateData w fp destDir wd).2 = .nil) :
    ∃ buf data, ResolveFileTemplateData w fp = .ok buf ∧ removeBuildExclusions w buf = .ok data ∧
      C.content (WriteFileTemplateData w fp destDir wd).1.fs (destDir ++ '/' :: fp.TemplPath)
        = some data := by
  rcases WriteFileTemplateData_cases w fp destDir wd with
    ⟨_, _, _, e⟩ | ⟨_, _, _, e⟩ | ⟨buf, data, c1, c2, c3, c4, c5⟩
  · exact absurd h e
  · exact absurd h e
  · obtain ⟨w1, w2⟩ := c5 h
    refine ⟨buf, data, c2, c3, ?_⟩
    rw [c4, C.close_keeps]
    have := C.write_fresh _ _ data (C.create_makes wd.fs _ c1) w1
    rw [this, w2, List.take_length]

theorem writeDestFile_keeps {σ : Type} (w : TmplWriter σ) (Q : σ → Prop)
    (hC : ∀ s p, Q s → Q (w.OutFs.Create s p).1)
    (hW : ∀ s p data, Q s → Q (w.OutFs.Write s p data).1)
    (hCl : ∀ s p, Q s → Q (w.OutFs.Close s p).1)
    (destDir : Str) (fp : FilePath) (wd : World σ) (h : Q wd.fs) :
    Q (writeDestFile w destDir fp wd).1.fs := by
  rw [writeDestFile_fst]
  split
  · exact h
  · exact WriteFileTemplateData_keeps w Q fp destDir (fun s => hC s _) (fun s => hW s _)
      (fun s => hCl s _) wd h

theorem writeDestFile_nil {σ : Type} (w : TmplWriter σ) (destDir : Str) (fp : FilePath)
    (wd : World σ) (hd : fp.IsDir = false) (h : (writeDestFile w destDir fp wd).2 = .nil) :
    (WriteFileTemplateData w fp destDir wd).2 = .nil := by
  unfold writeDestFile at h
  rw [hd] at h
  simp only [Bool.false_eq_true, if_false] at h
  rcases hr : WriteFileTemplateData w fp destDir wd with ⟨wd1, oc⟩
  rw [hr] at h
  cases oc with
  | nil => rfl
  | err e => simp at h
  | panic => simp at h

/-- A property that the body establishes for its element and keeps for the
others holds for every element when the loop returns `nil`. -/
theorem rangeWorld_inv {σ : Type} (body : FilePath → World σ → World σ × Outcome)
    (P : FilePath → World σ → Prop)
    (hkeep : ∀ fp0 fp wd, P fp0 wd → P fp0 (body fp wd).1)
    (hest : ∀ fp wd, (body fp wd).2 = .nil → P fp (body fp wd).1) :
    ∀ (l : List FilePath) (wd : World σ), (rangeWorld body l wd).2 = .nil →
      ∀ fp ∈ l, P fp (rangeWorld body l wd).1 := by
  have keepAll : ∀ (l : List FilePath) (fp0 : FilePath) (wd : World σ), P fp0 wd →
      P fp0 (rangeWorld body l wd).1 := by
    intro l
    induction l with
    | nil => intro fp0 wd h; exact h
    | cons a rest ih =>
      intro fp0 wd h
      rw [rangeWorld_cons]
      split
      · exact ih fp0 _ (hkeep fp0 a wd h)
      · exact hkeep fp0 a wd h
  intro l
  induction l with
  | nil => intro wd _ fp hfp; simp at hfp
  | cons a rest ih =>
    intro wd h fp hfp
    rw [rangeWorld_cons] at h ⊢
    by_cases hb : (body a wd).2 = .nil
    · rw [if_pos hb] at h ⊢
      rcases List.mem_cons.mp hfp with rfl | hfp
      · exact keepAll rest _ _ (hest _ wd hb)
      · exact ih _ h fp hfp
    · rw [if_neg hb] at h
      exact absurd h hb

/-- A property of the state kept by the body is kept by the loop. -/
theorem rangeWorld_keeps {σ : Type} (body : FilePath → World σ → World σ × Outcome)
    (Q : World σ → Prop) (hkeep : ∀ fp wd, Q wd → Q (body fp wd).1) :
    ∀ (l : List FilePath) (wd : World σ), Q wd → Q (rangeWorld body l wd).1 := by
  intro l
  induction l with
  | nil => intro wd h; exact h
  | cons a rest ih =>
    intro wd h
    rw [rangeWorld_cons]
    split
    · exact ih _ (hkeep a wd h)
    · exact hkeep a wd h

theorem createFilePathAtRoot_fs {σ : Type} (w : TmplWriter σ) (root : Str) (fp : FilePath)
    (wd : World σ) :
    ∃ p, (createFilePathAtRoot w root fp wd).1.fs = (w.OutFs.MkdirAll wd.fs p).1 ∧
      (fp.IsDir = true → p = root ++ '/' :: fp.TemplPath) ∧
      ((createFilePathAtRoot w root fp wd).2 = .nil → (w.OutFs.MkdirAll wd.fs p).2 = none) := by
  unfold createFilePathAtRoot CreatePath
  simp only [World.MkdirAll]
  cases fp.IsDir with
  | true =>
    simp only [if_true]
    refine ⟨root ++ '/' :: fp.TemplPath, ?_, fun _ => rfl, ?_⟩
    · rcases w.OutFs.MkdirAll wd.fs (root ++ '/' :: fp.TemplPath) with ⟨s1, oe⟩
      cases oe <;> rfl
    · rcases w.OutFs.MkdirAll wd.fs (root ++ '/' :: fp.TemplPath) with ⟨s1, oe⟩
      cases oe <;> simp
  | false =>
    simp only [Bool.false_eq_true, if_false]
    refine ⟨Dir (root ++ '/' :: fp.TemplPath), ?_, fun h => by simp at h, ?_⟩
    · rcases w.OutFs.MkdirAll wd.fs (Dir (root ++ '/' :: fp.TemplPath)) with ⟨s1, oe⟩
      cases oe <;> rfl
    · rcases w.OutFs.MkdirAll wd.fs (Dir (root ++ '/' :: fp.TemplPath)) with ⟨s1, oe⟩
      cases oe <;> simp

/-- C14. Under the contract of the output filesystem, when `BuildProject`
returns `nil`, every node that is not a directory is a regular file at the
destination directory, a slash and its `TemplPath`, and every node that is a
directory is a directory there. -/
theorem C14_nodes_materialized {σ : Type} (w : TmplWriter σ) (C : FsContract w.OutFs)
    (destDir : Str) (wd : World σ) (h : (BuildProject w destDir wd).2.2 = .nil) :
    ∀ fp ∈ (BuildProject w destDir wd).1,
      (fp.IsDir = false →
        (C.content (BuildProject w destDir wd).2.1.fs (destDir ++ '/' :: fp.TemplPath)).isSome
          = true) ∧
      (fp.IsDir = true →
        C.isDir (BuildProject w destDir wd).2.1.fs (destDir ++ '/' :: fp.TemplPath)) := by
  obtain ⟨fps1, fps2, wd1, b1, b2, b3, b4, b5⟩ := BuildProject_nil w destDir wd h
  rw [b5]
  simp only []
  -- directories after the first phase
  have hdirs : ∀ fp ∈ fps2, fp.IsDir = true → C.isDir wd1.fs (destDir ++ '/' :: fp.TemplPath) := by
    have hnil : (rangeWorld (createFilePathAtRoot { w with FilePaths := fps2 } destDir) fps2 wd).2
        = .nil := by
      have : CreateAllFilePathsAtRoot { w with FilePaths := fps2 } destDir wd = _ := b3
      unfold CreateAllFilePathsAtRoot at this
      rw [this]
    have := rangeWorld_inv (createFilePathAtRoot { w with FilePaths := fps2 } destDir)
      (fun fp wd0 => fp.IsDir = true → C.isDir wd0.fs (destDir ++ '/' :: fp.TemplPath))
      (by
        intro fp0 fp wd0 hp hd
        obtain ⟨p, e, _, _⟩ := createFilePathAtRoot_fs { w with FilePaths := fps2 } destDir fp wd0
        rw [e]
        exact C.dir_mkdirAll _ _ _ (hp hd))
      (by
        intro fp wd0 hn hd
        obtain ⟨p, e, e2, e3⟩ := createFilePathAtRoot_fs { w with FilePaths := fps2 } destDir fp wd0
        rw [e, ← e2 hd]
        exact C.mkdirAll_makes _ _ (e3 hn))
      fps2 wd hnil
    have e : (rangeWorld (createFilePathAtRoot { w with FilePaths := fps2 } destDir) fps2 wd).1
        = wd1 := by
      have : CreateAllFilePathsAtRoot { w with FilePaths := fps2 } destDir wd = _ := b3
      unfold CreateAllFilePathsAtRoot at this
      rw [this]
    rw [e] at this
    exact this
  intro fp hfp
  constructor
  · intro hd
    have := rangeWorld_inv (writeDestFile { w with FilePaths := fps2 } destDir)
      (fun fp wd0 => fp.IsDir = false →
        (C.content wd0.fs (destDir ++ '/' :: fp.TemplPath)).isSome = true)
      (by
        intro fp0 fp wd0 hp hd
        exact writeDestFile_keeps { w with FilePaths := fps2 }
          (fun s => (C.content s (destDir ++ '/' :: fp0.TemplPath)).isSome = true)
          (fun s p hs => C.file_create s p _ hs)
          (fun s p data hs => C.file_write s p data _ hs)
          (fun s p hs => by
            show (C.content (w.OutFs.Close s p).1 (destDir ++ '/' :: fp0.TemplPath)).isSome = true
            rw [C.close_keeps]; exact hs) destDir fp wd0 (hp hd))
      (by
        intro fp wd0 hn hd
        obtain ⟨buf, data, _, _, hc⟩ := WriteFileTemplateData_content
          { w with FilePaths := fps2 } C fp destDir wd0
          (writeDestFile_nil _ destDir fp wd0 hd hn)
        rw [writeDestFile_fst, hd]
        simp only [Bool.false_eq_true, if_false]
        have hc1 : C.content (WriteFileTemplateData { w with FilePaths := fps2 } fp destDir wd0).1.fs
            (destDir ++ '/' :: fp.TemplPath) = some data := hc
        rw [hc1]; rfl)
      fps2 wd1 b4 fp hfp hd
    exact this
  · intro hd
    exact rangeWorld_keeps (writeDestFile { w with FilePaths := fps2 } destDir)
      (fun wd0 => C.isDir wd0.fs (destDir ++ '/' :: fp.TemplPath))
      (fun fp' wd0 hq => writeDestFile_keeps { w with FilePaths := fps2 }
        (fun s => C.isDir s (destDir ++ '/' :: fp.TemplPath))
        (fun s p hs => C.dir_create s p _ hs)
        (fun s p data hs => C.dir_write s p data _ hs)
        (fun s p hs => C.dir_close s p _ hs) destDir fp' wd0 hq)
      fps2 wd1 (hdirs fp hfp hd)

/-- Witness for C14: the example archetype built on an empty disk. -/
theorem C14_nodes_materialized_witness :
    (∀ fp ∈ (BuildProject (diskWriter exampleFilePaths demoVals) "/tmp/out".toList emptyDisk).1,
      (fp.IsDir = false →
        (DiskFs.contract.content
          (BuildProject (diskWriter exampleFilePaths demoVals) "/tmp/out".toList emptyDisk).2.1.fs
          ("/tmp/out".toList ++ '/' :: fp.TemplPath)).isSome = true) ∧
      (fp.IsDir = true →
        DiskFs.contract.isDir
          (BuildProject (diskWriter exampleFilePaths demoVals) "/tmp/out".toList emptyDisk).2.1.fs
          ("/tmp/out".toList ++ '/' :: fp.TemplPath))) ∧
    (BuildProject (diskWriter exampleFilePaths demoVals) "/tmp/out".toList emptyDisk).2.1.fs
      "/tmp/out/demo/go.mod".toList = some (some "module example.com/demo".toList) ∧
    (BuildProject (diskWriter exampleFilePaths demoVals) "/tmp/out".toList emptyDisk).2.1.fs
      "/tmp/out/demo/cmd".toList = some none :=
  ⟨C14_nodes_materialized (diskWriter exampleFilePaths demoVals) DiskFs.contract.toFsContract
      "/tmp/out".toList emptyDisk (by decide),
    by decide, by decide⟩

theorem ResolveFileTemplateData_ok {σ : Type} (w : TmplWriter σ) (fp : FilePath) (buf : Str)
    (h : ResolveFileTemplateData w fp = .ok buf) :
    ∃ file bytes, w.TemplFs.Open fp.Path = .ok file ∧ ReadAll file = .ok bytes ∧
      ResolveTemplateVars w bytes = .ok buf := by
  unfold ResolveFileTemplateData at h
  cases h1 : w.TemplFs.Open fp.Path with
  | error e => rw [h1] at h; simp at h
  | ok file =>
    rw [h1] at h
    simp only [] at h
    cases h2 : ReadAll file with
    | error e => rw [h2] at h; simp at h
    | ok bytes =>
      rw [h2] at h
      simp only [] at h
      cases h3 : ResolveTemplateVars w bytes with
      | error e => rw [h3] at h; simp at h
      | ok r =>
        rw [h3] at h
        simp only [Except.ok.injEq] at h
        subst h
        exact ⟨file, bytes, rfl, h2, h3⟩

/-- C15. Under the contract of the output filesystem, whatever the state
before the call, when `WriteFileTemplateData` returns `nil` the destination
(`destDir`, a slash, `TemplPath`) is a regular file whose content is exactly
the bytes of the template at `Path`, resolved, with the build-exclusion marker
removed. -/
theorem C15_file_content_replaced {σ : Type} (w : TmplWriter σ) (C : FsContract w.OutFs)
    (fp : FilePath) (destDir : Str) (wd : World σ)
    (h : (WriteFileTemplateData w fp destDir wd).2 = .nil) :
    ∃ file bytes resolved data, w.TemplFs.Open fp.Path = .ok file ∧ ReadAll file = .ok bytes ∧
      ResolveTemplateVars w bytes = .ok resolved ∧ removeBuildExclusions w resolved = .ok data ∧
      C.content (WriteFileTemplateData w fp destDir wd).1.fs (destDir ++ '/' :: fp.TemplPath)
        = some data := by
  obtain ⟨buf, data, h1, h2, h3⟩ := WriteFileTemplateData_content w C fp destDir wd h
  obtain ⟨file, bytes, g1, g2, g3⟩ := ResolveFileTemplateData_ok w fp buf h1
  exact ⟨file, bytes, buf, data, g1, g2, g3, h2, h3⟩

/-- Witness for C15: `cmd/root.go` written over an existing file. -/
theorem C15_file_content_replaced_witness :
    (∃ file bytes resolved data,
      (diskWriter exampleFilePaths demoVals).TemplFs.Open
        (headlessRoot ++ '/' :: placeholder "ProjectName".toList ++ "/cmd/root.go".toList)
        = .ok file ∧
      ReadAll file = .ok bytes ∧
      ResolveTemplateVars (diskWriter exampleFilePaths demoVals) bytes = .ok resolved ∧
      removeBuildExclusions (diskWriter exampleFilePaths demoVals) resolved = .ok data ∧
      DiskFs.contract.content
        (WriteFileTemplateData (diskWriter exampleFilePaths demoVals)
          ⟨headlessRoot ++ '/' :: placeholder "ProjectName".toList ++ "/cmd/root.go".toList,
            "root.go".toList, "demo/cmd/root.go".toList, "root.go".toList, false⟩
          "/tmp/out".toList usedDisk).1.fs
        ("/tmp/out".toList ++ '/' :: "demo/cmd/root.go".toList) = some data) ∧
    DiskFs.content usedDisk.fs "/tmp/out/demo/cmd/root.go".toList
      = some "package old // a longer content than the new one".toList ∧
    DiskFs.content
        (WriteFileTemplateData (diskWriter exampleFilePaths demoVals)
          ⟨headlessRoot ++ '/' :: placeholder "ProjectName".toList ++ "/cmd/root.go".toList,
            "root.go".toList, "demo/cmd/root.go".toList, "root.go".toList, false⟩
          "/tmp/out".toList usedDisk).1.fs
        "/tmp/out/demo/cmd/root.go".toList = some "package cmd".toList :=
  ⟨C15_file_content_replaced (diskWriter exampleFilePaths demoVals) DiskFs.contract.toFsContract
      ⟨headlessRoot ++ '/' :: placeholder "ProjectName".toList ++ "/cmd/root.go".toList,
        "root.go".toList, "demo/cmd/root.go".toList, "root.go".toList, false⟩
      "/tmp/out".toList usedDisk (by decide),
    by decide, by decide⟩

/-- C16. `ResolveFileTemplateData` depends on the node only through `Path`:
two nodes with the same `Path`, whatever their other fields, give the same
result, bytes or error, for the same template filesystem and dictionary. -/
theorem C16_content_read_from_Path {σ : Type} (w : TmplWriter σ) (fp1 fp2 : FilePath)
    (h : fp1.Path = fp2.Path) :
    ResolveFileTemplateData w fp1 = ResolveFileTemplateData w fp2 := by
  unfold ResolveFileTemplateData
  rw [h]

/-- Witness for C16: the node `cmd/root.go` before and after path resolution,
and marked as a directory. -/
theorem C16_content_read_from_Path_witness :
    ResolveFileTemplateData (exampleWriter demoVals)
        ⟨headlessRoot ++ '/' :: placeholder "ProjectName".toList ++ "/cmd/root.go".toList,
          "root.go".toList, [], [], false⟩
      = ResolveFileTemplateData (exampleWriter demoVals)
        ⟨headlessRoot ++ '/' :: placeholder "ProjectName".toList ++ "/cmd/root.go".toList,
          "other".toList, "elsewhere/x.go".toList, "x.go".toList, true⟩ ∧
    ResolveFileTemplateData (exampleWriter demoVals)
        ⟨headlessRoot ++ '/' :: placeholder "ProjectName".toList ++ "/cmd/root.go".toList,
          "root.go".toList, [], [], false⟩
      = .ok ("// +build exclude demo\n".toList ++ "package cmd".toList) :=
  ⟨C16_content_read_from_Path (exampleWriter demoVals) _ _ rfl, by decide⟩

theorem IsValidProjectType_iff (t : Str) : IsValidProjectType t = true ↔ t ∈ ValidProjectTypes := by
  unfold IsValidProjectType ValidProjectTypes
  simp only [List.mem_cons, List.mem_singleton, List.not_mem_nil, or_false]
  split_ifs with h1 h2 h3 h4 <;> simp [*]

theorem GetProjectFs_error_iff (a : Assets) (t : Str) :
    (∃ e, GetProjectFs a t = .error e) ↔ IsValidProjectType t = false := by
  unfold GetProjectFs IsValidProjectType
  split_ifs with h1 h2 h3 h4 <;> simp

theorem GetProjectFs_invalid (a : Assets) (t : Str) (h : IsValidProjectType t = false) :
    GetProjectFs a t = .error (.new ("failed to detect embedded package: ".toList ++ t)) := by
  unfold IsValidProjectType at h
  unfold GetProjectFs
  split_ifs at h ⊢ with h1 h2 h3 h4
  rfl

/-- C17. For every string `t`, `GetProjectFs` returns an error exactly when
`IsValidProjectType t` is false, exactly when `t` is not one of
`ValidProjectTypes` (cobra, headless-service, spa, indirect-selection).  For
such a `t`, `NewTmplWriter` returns the error of `GetProjectFs` wrapped, for
every output filesystem and dictionary; it has no access to the state of the
output filesystem and so makes no call on it.  The name `invalid` is rejected
and `cobra` is accepted. -/
theorem C17_unknown_project_type (a : Assets) (t : Str) :
    ((∃ e, GetProjectFs a t = .error e) ↔ IsValidProjectType t = false) ∧
    (IsValidProjectType t = false ↔ t ∉ ValidProjectTypes) ∧
    ValidProjectTypes = ["cobra".toList, "headless-service".toList, "spa".toList,
      "indirect-selection".toList] ∧
    (t ∉ ValidProjectTypes → ∀ (σ : Type) (outFs : Fs σ) (vals : Dict),
      NewTmplWriter a outFs t vals
        = .error (.errorf "fs error: ".toList
            (.new ("failed to detect embedded package: ".toList ++ t)) [])) ∧
    (∃ e, GetProjectFs a "invalid".toList = .error e) ∧
    GetProjectFs a "cobra".toList = .ok (a.cobraProject, "project_templates/_cobraProject".toList) := by
  have hiff : IsValidProjectType t = false ↔ t ∉ ValidProjectTypes := by
    rw [← IsValidProjectType_iff]
    cases IsValidProjectType t <;> simp
  refine ⟨GetProjectFs_error_iff a t, hiff, rfl, ?_, ?_, ?_⟩
  · intro hn σ outFs vals
    unfold NewTmplWriter
    rw [GetProjectFs_invalid a t (hiff.mpr hn)]
  · exact (GetProjectFs_error_iff a "invalid".toList).mpr (by decide)
  · rfl

/-- Witness for C17: `bogus` with the example assets. -/
theorem C17_unknown_project_type_witness :
    NewTmplWriter exampleAssets MemFs.impl "bogus".toList demoVals
      = .error (.errorf "fs error: ".toList
          (.new ("failed to detect embedded package: ".toList ++ "bogus".toList)) []) :=
  (C17_unknown_project_type exampleAssets "bogus".toList).2.2.2.1 (by decide) MemFs MemFs.impl
    demoVals

/-! ## Lemmas: the sequence of calls -/

theorem createFilePathAtRoot_ops {σ : Type} (w : TmplWriter σ) (root : Str) (fp : FilePath)
    (wd : World σ) :
    (createFilePathAtRoot w root fp wd).1.ops = wd.ops ++ [mkdirOp root fp] := by
  rw [createFilePathAtRoot_fst]
  unfold CreatePath mkdirOp
  simp only [World.MkdirAll]
  cases fp.IsDir with
  | true =>
    simp only [if_true]
    rcases w.OutFs.MkdirAll wd.fs (root ++ '/' :: fp.TemplPath) with ⟨s1, oe⟩
    cases oe <;> rfl
  | false =>
    simp only [Bool.false_eq_true, if_false]
    rcases w.OutFs.MkdirAll wd.fs (Dir (root ++ '/' :: fp.TemplPath)) with ⟨s1, oe⟩
    cases oe <;> rfl

/-- A loop whose body makes exactly one call `f fp` per element has made the
calls of the elements it visited, in order; all of them when it returns
`nil`. -/
theorem rangeWorld_ops_map {σ : Type} (body : FilePath → World σ → World σ × Outcome)
    (f : FilePath → FsOp) (hbody : ∀ fp wd, (body fp wd).1.ops = wd.ops ++ [f fp]) :
    ∀ (l : List FilePath) (wd : World σ), ∃ l1 l2, l = l1 ++ l2 ∧
      (rangeWorld body l wd).1.ops = wd.ops ++ l1.map f ∧
      ((rangeWorld body l wd).2 = .nil → l2 = []) := by
  intro l
  induction l with
  | nil => intro wd; exact ⟨[], [], rfl, by simp [rangeWorld], fun _ => rfl⟩
  | cons a rest ih =>
    intro wd
    rw [rangeWorld_cons]
    by_cases hb : (body a wd).2 = .nil
    · rw [if_pos hb]
      obtain ⟨l1, l2, e1, e2, e3⟩ := ih (body a wd).1
      refine ⟨a :: l1, l2, by rw [e1]; rfl, ?_, e3⟩
      rw [e2, hbody]; simp
    · rw [if_neg hb]
      exact ⟨[a], rest, rfl, by rw [hbody]; rfl, fun h => absurd h hb⟩

/-- The calls a loop adds are calls its body adds for some element. -/
theorem rangeWorld_ops_of {σ : Type} (body : FilePath → World σ → World σ × Outcome)
    (R : FilePath → FsOp → Prop)
    (hbody : ∀ fp wd, ∃ ops, (body fp wd).1.ops = wd.ops ++ ops ∧ ∀ o ∈ ops, R fp o) :
    ∀ (l : List FilePath) (wd : World σ), ∃ ops,
      (rangeWorld body l wd).1.ops = wd.ops ++ ops ∧ ∀ o ∈ ops, ∃ fp ∈ l, R fp o := by
  intro l
  induction l with
  | nil => intro wd; exact ⟨[], by simp [rangeWorld], by simp⟩
  | cons a rest ih =>
    intro wd
    rw [rangeWorld_cons]
    obtain ⟨ops1, e1, r1⟩ := hbody a wd
    split
    · obtain ⟨ops2, e2, r2⟩ := ih (body a wd).1
      refine ⟨ops1 ++ ops2, by rw [e2, e1, List.append_assoc], ?_⟩
      intro o ho
      rcases List.mem_append.mp ho with ho | ho
      · exact ⟨a, List.mem_cons_self _ _, r1 o ho⟩
      · obtain ⟨fp, hfp, hr⟩ := r2 o ho
        exact ⟨fp, List.mem_cons_of_mem _ hfp, hr⟩
    · exact ⟨ops1, e1, fun o ho => ⟨a, List.mem_cons_self _ _, r1 o ho⟩⟩

theorem writeDestFile_ops_of {σ : Type} (w : TmplWriter σ) (destDir : Str) (fp : FilePath)
    (wd : World σ) :
    ∃ ops, (writeDestFile w destDir fp wd).1.ops = wd.ops ++ ops ∧
      ∀ o ∈ ops, fp.IsDir = false ∧ isFileOp (destDir ++ '/' :: fp.TemplPath) o := by
  rw [writeDestFile_fst]
  cases hd : fp.IsDir with
  | true => exact ⟨[], by simp, by simp⟩
  | false =>
    simp only [Bool.false_eq_true, if_false]
    obtain ⟨l, hl, hl2, _⟩ := WriteFileTemplateData_ops w fp destDir wd
    refine ⟨_, hl, ?_⟩
    intro o ho
    refine ⟨by simp, ?_⟩
    rcases List.mem_cons.mp ho with ho | ho
    · exact Or.inl ho
    · exact Or.inr (hl2 o ho)

/-- The calls `BuildProject` makes on the output filesystem: a block of
`MkdirAll` calls, one per node of a first part of the final node list, and
then a block of calls on files, each for a node that is not a directory. -/
theorem BuildProject_staged {σ : Type} (w : TmplWriter σ) (destDir : Str) (wd : World σ) :
    ∃ mk wr, (BuildProject w destDir wd).2.1.ops = wd.ops ++ (mk ++ wr) ∧
      (∀ o ∈ mk, ∃ p, o = FsOp.MkdirAll p) ∧
      (∀ o ∈ wr, ∃ fp ∈ (BuildProject w destDir wd).1,
        fp.IsDir = false ∧ isFileOp (destDir ++ '/' :: fp.TemplPath) o) ∧
      (mk ++ wr ≠ [] → ∃ fps1, ResolveAllPathTemplates w = (fps1, .nil) ∧
        fixGoModTemplPaths { w with FilePaths := fps1 } = ((BuildProject w destDir wd).1, .nil)) ∧
      (∃ l1 l2, (BuildProject w destDir wd).1 = l1 ++ l2 ∧ mk = l1.map (mkdirOp destDir) ∧
        (wr ≠ [] → l2 = [])) := by
  unfold BuildProject
  rcases hr : ResolveAllPathTemplates w with ⟨fps1, o1⟩
  have triv : ∀ (fps : List FilePath), ∃ mk wr : List FsOp, wd.ops = wd.ops ++ (mk ++ wr) ∧
      (∀ o ∈ mk, ∃ p, o = FsOp.MkdirAll p) ∧
      (∀ o ∈ wr, ∃ fp ∈ fps,
        fp.IsDir = false ∧ isFileOp (destDir ++ '/' :: fp.TemplPath) o) ∧
      (mk ++ wr ≠ [] → ∃ fps1', (fps1, o1) = (fps1', Outcome.nil) ∧
        fixGoModTemplPaths { w with FilePaths := fps1' } = (fps, .nil)) ∧
      (∃ l1 l2, fps = l1 ++ l2 ∧ mk = l1.map (mkdirOp destDir) ∧ (wr ≠ [] → l2 = [])) :=
    fun fps => ⟨[], [], by simp, by simp, by simp, by simp, [], fps, rfl, rfl, by simp⟩
  cases o1 with
  | err e => exact triv fps1
  | panic => exact triv fps1
  | nil =>
    simp only []
    rcases hf : fixGoModTemplPaths { w with FilePaths := fps1 } with ⟨fps2, o2⟩
    cases o2 with
    | err e => exact triv fps2
    | panic => exact triv fps2
    | nil =>
      simp only []
      obtain ⟨l1, l2, e1, e2, e3⟩ := rangeWorld_ops_map
        (createFilePathAtRoot { w with FilePaths := fps2 } destDir) (mkdirOp destDir)
        (createFilePathAtRoot_ops _ destDir) fps2 wd
      have hmk : ∀ o ∈ l1.map (mkdirOp destDir), ∃ p, o = FsOp.MkdirAll p := by
        intro o ho
        obtain ⟨fp, _, rfl⟩ := List.mem_map.mp ho
        unfold mkdirOp
        split <;> exact ⟨_, rfl⟩
      rcases hc : CreateAllFilePathsAtRoot { w with FilePaths := fps2 } destDir wd with ⟨wd1, o3⟩
      have hc1 : (rangeWorld (createFilePathAtRoot { w with FilePaths := fps2 } destDir) fps2 wd)
          = (wd1, o3) := hc
      rw [hc1] at e2 e3
      simp only [] at e2 e3
      have nowr :
          ∃ mk wr : List FsOp, wd1.ops = wd.ops ++ (mk ++ wr) ∧
          (∀ o ∈ mk, ∃ p, o = FsOp.MkdirAll p) ∧
          (∀ o ∈ wr, ∃ fp ∈ fps2,
            fp.IsDir = false ∧ isFileOp (destDir ++ '/' :: fp.TemplPath) o) ∧
          (mk ++ wr ≠ [] → ∃ fps1', (fps1, Outcome.nil) = (fps1', Outcome.nil) ∧
            fixGoModTemplPaths { w with FilePaths := fps1' } = (fps2, .nil)) ∧
          (∃ l1 l2, fps2 = l1 ++ l2 ∧ mk = l1.map (mkdirOp destDir) ∧ (wr ≠ [] → l2 = [])) :=
        ⟨l1.map (mkdirOp destDir), [], by simp [e2], hmk, by simp,
          fun _ => ⟨fps1, rfl, hf⟩, l1, l2, e1, rfl, by simp⟩
      cases o3 with
      | err e => exact nowr
      | panic => exact nowr
      | nil =>
        simp only []
        have hl2 := e3 rfl
        subst hl2
        simp only [List.append_nil] at e1
        subst e1
        obtain ⟨ops, f1, f2⟩ := rangeWorld_ops_of
          (writeDestFile { w with FilePaths := fps2 } destDir)
          (fun fp o => fp.IsDir = false ∧ isFileOp (destDir ++ '/' :: fp.TemplPath) o)
          (writeDestFile_ops_of _ destDir) fps2 wd1
        refine ⟨fps2.map (mkdirOp destDir), ops, ?_, hmk, f2, fun _ => ⟨fps1, rfl, hf⟩,
          fps2, [], by simp, rfl, fun _ => rfl⟩
        show (rangeWorld (writeDestFile { w with FilePaths := fps2 } destDir) fps2 wd1).1.ops = _
        rw [f1, e2, List.append_assoc]

/-- C18. The calls `BuildProject` makes on the output filesystem are a block
of `MkdirAll` calls followed by a block of `Create`, `Write` and `Close`
calls.  If any call is made, path resolution and un-masking have returned for
all nodes, and the `MkdirAll` calls are those of `CreatePath` for the first
nodes of the resulting list, in order; if any call of the second block is
made, there is one `MkdirAll` for every node.  Every call of the second block
is made for a node that is not a directory, at its destination path. -/
theorem C18_staged_operations {σ : Type} (w : TmplWriter σ) (destDir : Str) (wd : World σ) :
    ∃ mk wr, (BuildProject w destDir wd).2.1.ops = wd.ops ++ (mk ++ wr) ∧
      (∀ o ∈ mk, ∃ p, o = FsOp.MkdirAll p) ∧
      (∀ o ∈ wr, ∃ fp ∈ (BuildProject w destDir wd).1,
        fp.IsDir = false ∧ isFileOp (destDir ++ '/' :: fp.TemplPath) o) ∧
      (mk ++ wr ≠ [] → ∃ fps1, ResolveAllPathTemplates w = (fps1, .nil) ∧
        fixGoModTemplPaths { w with FilePaths := fps1 } = ((BuildProject w destDir wd).1, .nil)) ∧
      (∃ l1 l2, (BuildProject w destDir wd).1 = l1 ++ l2 ∧ mk = l1.map (mkdirOp destDir) ∧
        (wr ≠ [] → l2 = [])) :=
  BuildProject_staged w destDir wd

/-! ## Lemmas: the last element of a path -/

/-- What follows the last slash of a path is determined by the path. -/
theorem last_element_unique : ∀ (X Y n m : Str), '/' ∉ n → '/' ∉ m →
    X ++ '/' :: n = Y ++ '/' :: m → n = m := by
  intro X
  induction X with
  | nil =>
    intro Y n m hn hm h
    cases Y with
    | nil => simpa using h
    | cons c Y1 =>
      simp only [List.nil_append, List.cons_append, List.cons.injEq] at h
      exact absurd (by rw [h.2]; simp) hn
  | cons a X1 ih =>
    intro Y n m hn hm h
    cases Y with
    | nil =>
      simp only [List.nil_append, List.cons_append, List.cons.injEq] at h
      exact absurd (by rw [← h.2]; simp) hm
    | cons c Y1 =>
      simp only [List.cons_append, List.cons.injEq] at h
      exact ih Y1 n m hn hm h.2

/-- A path that ends with a slash and the name `n` does not end with a slash
and another name. -/
theorem not_hasSuffix_other_name (q X n m : Str) (hq : q = X ++ '/' :: n) (hn : '/' ∉ n)
    (hm : '/' ∉ m) (hne : n ≠ m) : HasSuffix q ('/' :: m) = false := by
  apply Bool.eq_false_iff.mpr
  intro h
  obtain ⟨Y, hY⟩ := (HasSuffix_iff _ _).mp h
  rw [hq] at hY
  exact hne (last_element_unique X Y n m hn hm hY)

/-- C9 (counterexample). With the project named `go.mod_` the node of the
file `go.mod_` resolves to `go.mod_/go.mod_`, which ends with its name, and is
un-masked to `go.mod_/go.mod`.  `BuildProject` returns `nil` and has created a
directory named `go.mod_`: it called `MkdirAll` for `/tmp/out/go.mod_`, the
parent directory of the file it created at `/tmp/out/go.mod_/go.mod`. -/
theorem C9_counterexample :
    (ResolveAllPathTemplates (exampleWriter maskedNameVals)).1[3]?
      = some ⟨headlessRoot ++ '/' :: placeholder "ProjectName".toList ++ "/go.mod_".toList,
          "go.mod_".toList, "go.mod_/go.mod_".toList, "go.mod_".toList, false⟩ ∧
    HasSuffix "go.mod_/go.mod_".toList "go.mod_".toList = true ∧
    (BuildProject (exampleWriter maskedNameVals) "/tmp/out".toList emptyWorld).2.2 = .nil ∧
    (BuildProject (exampleWriter maskedNameVals) "/tmp/out".toList emptyWorld).1.map (·.TemplPath)
      = ["go.mod".toList, "go.mod_/cmd".toList, "go.mod_/cmd/root.go".toList,
          "go.mod_/go.mod".toList] ∧
    FsOp.MkdirAll "/tmp/out/go.mod_".toList ∈
      (BuildProject (exampleWriter maskedNameVals) "/tmp/out".toList emptyWorld).2.1.ops ∧
    FsOp.Create "/tmp/out/go.mod_/go.mod".toList ∈
      (BuildProject (exampleWriter maskedNameVals) "/tmp/out".toList emptyWorld).2.1.ops ∧
    "/tmp/out/go.mod_".toList ∈
      (BuildProject (exampleWriter maskedNameVals) "/tmp/out".toList emptyWorld).2.1.fs.dirs := by
  decide

/-- C9 (amended). For a node named `go.mod_` or `go.sum_` whose `TemplPath`
ends with that name, when `fixGoModTemplPaths` returns: `TemplName` is
`go.mod` or `go.sum` and `TemplPath` is the former `TemplPath` without its
last character, still ending with the name.  In a run of `BuildProject` that
resolves the nodes to these values and returns `nil`, the node's file is
created at the destination directory, a slash and that un-masked path, and no
node is left named `go.mod_` or `go.sum_`.  Every call of the run is the
`MkdirAll` of a node, at its destination for a directory and at the parent
directory of its destination for a file, or a `Create`, `Write` or `Close` at
the destination of a file node; and the destination of a node whose
`TemplPath` ends with its slash-free `TemplName` as last element does not end
with the element `go.mod_` or `go.sum_`. -/
theorem C9_go_mod_unmasked {σ : Type} (w : TmplWriter σ) (i : Nat) (fp : FilePath)
    (hi : w.FilePaths[i]? = some fp) (hname : isGoModMask fp.TemplName)
    (hsuf : HasSuffix fp.TemplPath fp.TemplName = true)
    (hret : (fixGoModTemplPaths w).2 = .nil) :
    (∃ fp1, (fixGoModTemplPaths w).1[i]? = some fp1 ∧
      fp1 = { fp with TemplPath := fp.TemplPath.dropLast, TemplName := fp.TemplName.dropLast } ∧
      (fp1.TemplName = "go.mod".toList ∨ fp1.TemplName = "go.sum".toList) ∧
      HasSuffix fp1.TemplPath fp1.TemplName = true) ∧
    (∀ (w0 : TmplWriter σ) (destDir : Str) (wd : World σ),
      ResolveAllPathTemplates w0 = (w.FilePaths, .nil) →
      (BuildProject w0 destDir wd).2.2 = .nil →
      (fp.IsDir = false →
        FsOp.Create (destDir ++ '/' :: fp.TemplPath.dropLast) ∈ (BuildProject w0 destDir wd).2.1.ops) ∧
      (∀ fp2 ∈ (BuildProject w0 destDir wd).1, ¬ isGoModMask fp2.TemplName) ∧
      (∀ o ∈ (BuildProject w0 destDir wd).2.1.ops, o ∈ wd.ops ∨
        (∃ fp2 ∈ (BuildProject w0 destDir wd).1, o = mkdirOp destDir fp2) ∨
        (∃ fp2 ∈ (BuildProject w0 destDir wd).1, fp2.IsDir = false ∧
          isFileOp (destDir ++ '/' :: fp2.TemplPath) o)) ∧
      (∀ fp2 ∈ (BuildProject w0 destDir wd).1, '/' ∉ fp2.TemplName →
        (fp2.TemplPath = fp2.TemplName ∨
          HasSuffix fp2.TemplPath ('/' :: fp2.TemplName) = true) →
        HasSuffix (destDir ++ '/' :: fp2.TemplPath) "/go.mod_".toList = false ∧
        HasSuffix (destDir ++ '/' :: fp2.TemplPath) "/go.sum_".toList = false)) := by
  have hne : fp.TemplName ≠ [] := isGoModMask_ne_nil _ hname
  have hpne : fp.TemplPath ≠ [] := hasSuffix_ne_nil _ _ hsuf hne
  obtain ⟨g1, _⟩ := rangeFilePaths_nil_get fixGoModFilePath w.FilePaths hret i fp hi
  rw [fixGoModFilePath_mask fp hname hpne] at g1
  simp only [] at g1
  obtain ⟨m1, m2⟩ := rangeFilePaths_nil fixGoModFilePath w.FilePaths hret
  constructor
  · refine ⟨_, g1, rfl, ?_, ?_⟩
    · rcases hname with hm | hm <;> simp only [hm] <;> decide
    · obtain ⟨q, hq⟩ := (HasSuffix_iff _ _).mp hsuf
      simp only [HasSuffix_iff]
      refine ⟨q, ?_⟩
      conv_lhs => rw [hq]
      exact List.dropLast_append_of_ne_nil _ hne
  · intro w0 destDir wd hres hnil
    have hstaged := BuildProject_staged w0 destDir wd
    obtain ⟨fps1, fps2, wd1, b1, b2, b3, b4, b5⟩ := BuildProject_nil w0 destDir wd hnil
    rw [hres] at b1
    simp only [Prod.mk.injEq, and_true] at b1
    subst b1
    have hfix : fps2 = (fixGoModTemplPaths w).1 := by
      have : fixGoModTemplPaths { w0 with FilePaths := w.FilePaths } = fixGoModTemplPaths w := rfl
      rw [this] at b2
      rw [b2]
    have hmask : ∀ fp2 ∈ fps2, ¬ isGoModMask fp2.TemplName := by
      intro fp2 hfp2
      rw [hfix] at hfp2
      have hfp3 : fp2 ∈ w.FilePaths.map (fun fp => (fixGoModFilePath fp).1) := by
        rw [← m1]; exact hfp2
      obtain ⟨x, hx, rfl⟩ := List.mem_map.mp hfp3
      exact fixGoModFilePath_not_mask x (m2 x hx)
    rw [b5] at hstaged ⊢
    simp only [] at hstaged ⊢
    refine ⟨?_, hmask, ?_, ?_⟩
    · intro hd
      have hmem : (⟨fp.Path, fp.Name, fp.TemplPath.dropLast, fp.TemplName.dropLast, fp.IsDir⟩ :
          FilePath) ∈ fps2 := by
        rw [hfix]; exact List.mem_iff_getElem?.mpr ⟨i, g1⟩
      exact WriteAll_creates { w0 with FilePaths := fps2 } destDir wd1 b4 _ hmem hd
    · obtain ⟨mk, wr, e1, _, e3, _, l1, l2, e5, e6, _⟩ := hstaged
      intro o ho
      rw [e1] at ho
      rcases List.mem_append.mp ho with ho | ho
      · exact Or.inl ho
      · rcases List.mem_append.mp ho with ho | ho
        · rw [e6] at ho
          obtain ⟨fp2, hfp2, rfl⟩ := List.mem_map.mp ho
          exact Or.inr (Or.inl ⟨fp2, by rw [e5]; exact List.mem_append_left _ hfp2, rfl⟩)
        · exact Or.inr (Or.inr (e3 o ho))
    · intro fp2 hfp2 hns hend
      have hnm := hmask fp2 hfp2
      have hX : ∃ X, destDir ++ '/' :: fp2.TemplPath = X ++ '/' :: fp2.TemplName := by
        rcases hend with he | he
        · exact ⟨destDir, by rw [he]⟩
        · obtain ⟨Z, hZ⟩ := (HasSuffix_iff _ _).mp he
          exact ⟨destDir ++ '/' :: Z, by rw [hZ]; simp⟩
      obtain ⟨X, hX⟩ := hX
      exact ⟨not_hasSuffix_other_name _ X _ "go.mod_".toList hX hns (by decide)
          (fun e => hnm (Or.inl e)),
        not_hasSuffix_other_name _ X _ "go.sum_".toList hX hns (by decide)
          (fun e => hnm (Or.inr e))⟩

/-- Witness for C9: the node `go.mod_` of the example archetype, resolved to
`demo/go.mod_`, becomes `demo/go.mod` and is created at `/tmp/out/demo/go.mod`. -/
theorem C9_go_mod_unmasked_witness :
    (∃ fp1, (fixGoModTemplPaths resolvedWriter).1[3]? = some fp1 ∧
      fp1 = { resolvedGoMod with TemplPath := "demo/go.mod".toList, TemplName := "go.mod".toList } ∧
      (fp1.TemplName = "go.mod".toList ∨ fp1.TemplName = "go.sum".toList) ∧
      HasSuffix fp1.TemplPath fp1.TemplName = true) ∧
    FsOp.Create "/tmp/out/demo/go.mod".toList ∈
      (BuildProject (exampleWriter demoVals) "/tmp/out".toList emptyWorld).2.1.ops ∧
    FsOp.Create "/tmp/out/demo/go.mod_".toList ∉
      (BuildProject (exampleWriter demoVals) "/tmp/out".toList emptyWorld).2.1.ops ∧
    (∀ fp2 ∈ (BuildProject (exampleWriter demoVals) "/tmp/out".toList emptyWorld).1,
      ¬ isGoModMask fp2.TemplName) :=
  have h := C9_go_mod_unmasked resolvedWriter 3 resolvedGoMod (by decide) (by decide) (by decide)
    (by decide)
  ⟨h.1,
    (h.2 (exampleWriter demoVals) "/tmp/out".toList emptyWorld (by decide) (by decide)).1 (by decide),
    by decide,
    (h.2 (exampleWriter demoVals) "/tmp/out".toList emptyWorld (by decide) (by decide)).2.1⟩

/-! ## Lemmas: a failing write -/

/-- The loop stops at the first element on which the body does not end
normally. -/
theorem rangeWorld_stops {σ : Type} (body : FilePath → World σ → World σ × Outcome)
    (pre : List FilePath) (fp : FilePath) (post : List FilePath) (wd : World σ)
    (hpre : (rangeWorld body pre wd).2 = .nil)
    (hfail : (body fp (rangeWorld body pre wd).1).2 ≠ .nil) :
    rangeWorld body (pre ++ fp :: post) wd = body fp (rangeWorld body pre wd).1 := by
  induction pre generalizing wd with
  | nil =>
    have e : (rangeWorld body [] wd).1 = wd := rfl
    rw [e] at hfail ⊢
    rw [List.nil_append, rangeWorld_cons, if_neg hfail]
  | cons a rest ih =>
    have e : rangeWorld body (a :: rest) wd
        = if (body a wd).2 = .nil then rangeWorld body rest (body a wd).1 else body a wd :=
      rangeWorld_cons body a rest wd
    by_cases hb : (body a wd).2 = .nil
    · rw [if_pos hb] at e
      rw [e] at hpre hfail ⊢
      rw [List.cons_append, rangeWorld_cons, if_pos hb]
      exact ih _ hpre hfail
    · rw [if_neg hb] at e
      rw [e] at hpre
      exact absurd hpre hb

theorem writeDestFile_err {σ : Type} (w : TmplWriter σ) (destDir : Str) (fp : FilePath)
    (wd : World σ) (e : GoError) (hd : fp.IsDir = false)
    (h : (WriteFileTemplateData w fp destDir wd).2 = .err e) :
    writeDestFile w destDir fp wd =
      ((WriteFileTemplateData w fp destDir wd).1,
        .err (.errorf ("writing file(".toList ++ fp.TemplName ++ ") failed: ".toList) e [])) := by
  unfold writeDestFile
  rw [hd]
  simp only [Bool.false_eq_true, if_false]
  rcases hr : WriteFileTemplateData w fp destDir wd with ⟨wd1, oc⟩
  rw [hr] at h
  simp only [] at h
  subst h
  rfl

/-- When the first three phases return `nil`, `BuildProject` ends as the
write phase ends. -/
theorem BuildProject_write_phase {σ : Type} (w : TmplWriter σ) (destDir : Str) (wd wd1 : World σ)
    (fps1 fps2 : List FilePath) (h1 : ResolveAllPathTemplates w = (fps1, .nil))
    (h2 : fixGoModTemplPaths { w with FilePaths := fps1 } = (fps2, .nil))
    (h3 : CreateAllFilePathsAtRoot { w with FilePaths := fps2 } destDir wd = (wd1, .nil)) :
    (BuildProject w destDir wd).2
      = WriteAllDestFileTemplateData { w with FilePaths := fps2 } destDir wd1 := by
  unfold BuildProject
  rw [h1]
  simp only []
  rw [h2]
  simp only []
  rw [h3]

/-! ## Lemmas: `filepath.Clean` -/

theorem Clean_eq (path : Str) (h : path ≠ []) :
    Clean path = cleanEnd
      ((splitSlash path).foldl (cleanStep (decide (path.head? = some '/')))
        (cleanInit (decide (path.head? = some '/')))).1 := by
  unfold Clean cleanEnd cleanInit
  rw [if_neg h]
  simp only [decide_eq_true_eq]

theorem splitSlash_ne_nil (s : Str) : splitSlash s ≠ [] := by
  induction s with
  | nil => simp [splitSlash]
  | cons c t ih =>
    rw [splitSlash]
    cases h : splitSlash t with
    | nil => simp
    | cons e es => simp only []; split <;> simp

theorem splitSlash_cons (c : Char) (t : Str) :
    ∃ e es, splitSlash t = e :: es ∧
      splitSlash (c :: t) = if c = '/' then [] :: e :: es else (c :: e) :: es := by
  cases h : splitSlash t with
  | nil => exact absurd h (splitSlash_ne_nil t)
  | cons e es => exact ⟨e, es, rfl, by rw [splitSlash, h]⟩

theorem splitSlash_append (a b : Str) :
    splitSlash (a ++ '/' :: b) = splitSlash a ++ splitSlash b := by
  induction a with
  | nil =>
    obtain ⟨e, es, h1, h2⟩ := splitSlash_cons '/' b
    rw [List.nil_append, h2, h1]
    simp [splitSlash]
  | cons c t ih =>
    obtain ⟨e, es, h1, h2⟩ := splitSlash_cons c t
    obtain ⟨e', es', h1', h2'⟩ := splitSlash_cons c (t ++ '/' :: b)
    rw [List.cons_append, h2', h2]
    rw [ih, h1] at h1'
    simp only [List.cons_append, List.cons.injEq] at h1'
    obtain ⟨rfl, rfl⟩ := h1'
    split <;> simp

theorem splitSlash_no_slash (s : Str) : ∀ e ∈ splitSlash s, '/' ∉ e := by
  induction s with
  | nil => simp [splitSlash]
  | cons c t ih =>
    obtain ⟨e, es, h1, h2⟩ := splitSlash_cons c t
    rw [h1] at ih
    rw [h2]
    intro x hx
    by_cases hc : c = '/'
    · rw [if_pos hc] at hx
      rcases List.mem_cons.mp hx with rfl | hx
      · simp
      · exact ih x hx
    · rw [if_neg hc] at hx
      rcases List.mem_cons.mp hx with rfl | hx
      · intro hm
        rcases List.mem_cons.mp hm with h | h
        · exact hc h.symm
        · exact ih e (List.mem_cons_self _ _) h
      · exact ih x (List.mem_cons_of_mem _ hx)

theorem splitSlash_of_no_slash (s : Str) (h : '/' ∉ s) : splitSlash s = [s] := by
  induction s with
  | nil => rfl
  | cons c t ih =>
    obtain ⟨e, es, h1, h2⟩ := splitSlash_cons c t
    have hc : c ≠ '/' := fun hc => h (by rw [hc]; exact List.mem_cons_self _ _)
    have ht := ih (fun hm => h (List.mem_cons_of_mem _ hm))
    rw [h1] at ht
    simp only [List.cons.injEq] at ht
    rw [h2, if_neg hc, ht.1, ht.2]

theorem elements_append (a b : Str) : elements (a ++ '/' :: b) = elements a ++ elements b := by
  unfold elements
  rw [splitSlash_append, List.filter_append]

theorem elements_real (e : Str) (h1 : '/' ∉ e) (h2 : e ≠ []) (h3 : e ≠ ['.']) :
    elements e = [e] := by
  unfold elements
  rw [splitSlash_of_no_slash e h1]
  simp [h2, h3]

theorem elements_nil : elements [] = [] := by decide

theorem elements_slash : elements ['/'] = [] := by decide

theorem elements_cleanEnd (out : Str) : elements (cleanEnd out) = elements out := by
  unfold cleanEnd
  split
  · rename_i h; subst h; decide
  · rfl

theorem backtrack_ge (out : Str) (dotdot : Nat) : ∀ w, dotdot ≤ w → dotdot ≤ backtrack out dotdot w := by
  intro w
  induction w with
  | zero => intro h; simpa [backtrack] using h
  | succ w ih =>
    intro h
    rw [backtrack]
    split
    · rename_i hc
      exact ih (by omega)
    · exact h

theorem cleanInv_init (rooted : Bool) : cleanInv rooted (cleanInit rooted) := by
  cases rooted <;> simp [cleanInv, cleanInit]

theorem head?_append_of_ne_nil (a b : Str) (h : a ≠ []) : (a ++ b).head? = a.head? := by
  cases a with
  | nil => exact absurd rfl h
  | cons c t => rfl

theorem head?_take (a : Str) (k : Nat) (hk : 0 < k) : (a.take k).head? = a.head? := by
  cases a with
  | nil => simp
  | cons c t =>
    cases k with
    | zero => omega
    | succ k => rfl

theorem cleanStep_inv (rooted : Bool) (st : Str × Nat) (e : Str) (he : '/' ∉ e)
    (h : cleanInv rooted st) : cleanInv rooted (cleanStep rooted st e) := by
  obtain ⟨out, dd⟩ := st
  obtain ⟨h1, h2⟩ := h
  simp only [] at h1 h2
  unfold cleanStep
  simp only []
  by_cases e1 : e = []
  · rw [if_pos e1]; exact ⟨h1, h2⟩
  rw [if_neg e1]
  by_cases e2 : e = ['.']
  · rw [if_pos e2]; exact ⟨h1, h2⟩
  rw [if_neg e2]
  have hehead : e.head? ≠ some '/' := by
    cases e with
    | nil => simp
    | cons c t =>
      simp only [List.head?_cons, ne_eq, Option.some.injEq]
      intro hc; exact he (by rw [hc]; exact List.mem_cons_self _ _)
  by_cases e3 : e = ['.', '.']
  · rw [if_pos e3]
    by_cases hl : out.length > dd
    · rw [if_pos hl]
      refine ⟨?_, h2⟩
      simp only []
      cases rooted with
      | true =>
        have hdd : dd = 1 := h2 rfl
        have := backtrack_ge out dd (out.length - 1) (by omega)
        rw [head?_take out _ (by omega)]
        exact h1
      | false =>
        simp only [Bool.false_eq_true, iff_false] at h1 ⊢
        intro hc
        by_cases hk : 0 < backtrack out dd (out.length - 1)
        · rw [head?_take out _ hk] at hc; exact h1 hc
        · have : backtrack out dd (out.length - 1) = 0 := by omega
          rw [this] at hc; simp at hc
    · rw [if_neg hl]
      cases rooted with
      | true => simp only [Bool.not_true, Bool.false_eq_true, if_false]; exact ⟨h1, h2⟩
      | false =>
        simp only [Bool.not_false, if_true]
        refine ⟨?_, by simp⟩
        simp only [Bool.false_eq_true, iff_false] at h1 ⊢
        cases out with
        | nil => simp
        | cons c t =>
          simp only [List.length_cons, Nat.zero_lt_succ, if_true, List.cons_append,
            List.head?_cons] at h1 ⊢
          exact h1
  · rw [if_neg e3]
    refine ⟨?_, h2⟩
    simp only []
    cases out with
    | nil =>
      cases rooted with
      | true => simp at h1
      | false =>
        simp only [List.length_nil, Bool.false_and, Bool.not_false, bne_self_eq_false,
          Bool.and_false, Bool.or_self, Bool.false_eq_true, if_false, List.nil_append, iff_false]
        exact hehead
    | cons c t =>
      have : ((if (rooted && (c :: t).length != 1) || (!rooted && (c :: t).length != 0) then
          (c :: t) ++ ['/'] else c :: t) ++ e).head? = some c := by
        split <;> rfl
      rw [this]
      exact h1

theorem foldl_cleanStep_inv (rooted : Bool) :
    ∀ (es : List Str) (st : Str × Nat), cleanInv rooted st → (∀ e ∈ es, '/' ∉ e) →
      cleanInv rooted (es.foldl (cleanStep rooted) st) := by
  intro es
  induction es with
  | nil => intro st h _; exact h
  | cons e es ih =>
    intro st h hes
    rw [List.foldl_cons]
    exact ih _ (cleanStep_inv rooted st e (hes e (List.mem_cons_self _ _)) h)
      (fun x hx => hes x (List.mem_cons_of_mem _ hx))

/-- One step of the loop of `Clean` on an element other than `..` appends the
element to the elements of the buffer when it names something, and changes
nothing otherwise. -/
theorem cleanStep_elements (rooted : Bool) (st : Str × Nat) (e : Str) (he : '/' ∉ e)
    (hdd : e ≠ ['.', '.']) (h : cleanInv rooted st) :
    elements (cleanStep rooted st e).1
      = elements st.1 ++ [e].filter (fun e => e ≠ [] ∧ e ≠ ['.']) := by
  obtain ⟨out, dd⟩ := st
  obtain ⟨h1, h2⟩ := h
  simp only [] at h1 h2
  unfold cleanStep
  simp only []
  by_cases e1 : e = []
  · rw [if_pos e1]; simp [e1]
  rw [if_neg e1]
  by_cases e2 : e = ['.']
  · rw [if_pos e2]; simp [e2]
  rw [if_neg e2, if_neg hdd]
  have hf : [e].filter (fun e => e ≠ [] ∧ e ≠ ['.']) = [e] := by simp [e1, e2]
  rw [hf]
  simp only []
  by_cases hs : ((rooted && out.length != 1) || (!rooted && out.length != 0)) = true
  · rw [if_pos hs]
    have : out ++ ['/'] ++ e = out ++ '/' :: e := by simp
    rw [this, elements_append, elements_real e he e1 e2]
  · rw [if_neg hs]
    cases rooted with
    | true =>
      simp only [Bool.true_and, Bool.not_true, Bool.false_and, Bool.or_false, bne_iff_ne, ne_eq,
        Decidable.not_not] at hs
      have hh : out.head? = some '/' := h1.mpr rfl
      cases out with
      | nil => simp at hs
      | cons c t =>
        simp only [List.length_cons, Nat.add_eq_right, List.length_eq_zero] at hs
        subst hs
        simp only [List.head?_cons, Option.some.injEq] at hh
        subst hh
        have : ['/'] ++ e = [] ++ '/' :: e := rfl
        rw [this, elements_append, elements_real e he e1 e2, elements_slash, elements_nil]
    | false =>
      simp only [Bool.false_and, Bool.not_false, Bool.true_and, Bool.false_or, bne_iff_ne, ne_eq,
        Decidable.not_not, List.length_eq_zero] at hs
      subst hs
      rw [List.nil_append, elements_real e he e1 e2, elements_nil, List.nil_append]

theorem foldl_cleanStep_elements (rooted : Bool) :
    ∀ (es : List Str) (st : Str × Nat), cleanInv rooted st →
      (∀ e ∈ es, '/' ∉ e ∧ e ≠ ['.', '.']) →
      elements (es.foldl (cleanStep rooted) st).1
        = elements st.1 ++ es.filter (fun e => e ≠ [] ∧ e ≠ ['.']) := by
  intro es
  induction es with
  | nil => intro st _ _; simp
  | cons e es ih =>
    intro st h hes
    obtain ⟨he1, he2⟩ := hes e (List.mem_cons_self _ _)
    rw [List.foldl_cons, ih _ (cleanStep_inv rooted st e he1 h)
      (fun x hx => hes x (List.mem_cons_of_mem _ hx)), cleanStep_elements rooted st e he1 he2 h,
      List.append_assoc, ← List.filter_append]
    rfl

theorem head?_cleanEnd (rooted : Bool) (st : Str × Nat) (h : cleanInv rooted st) :
    (cleanEnd st.1).head? = some '/' ↔ rooted = true := by
  unfold cleanEnd
  split
  · rename_i hn
    have := h.1
    rw [hn] at this
    simp only [List.head?_nil, reduceCtorEq, false_iff] at this
    simp [this]
  · exact h.1

/-- A path whose elements are those of `d` followed by elements none of which
is `..` cleans to a path in `d` or below it. -/
theorem liesUnderClean_of_elements (d p : Str) (es : List Str) (hd : d ≠ []) (hp : p ≠ [])
    (hhead : p.head? = d.head?) (hsplit : splitSlash p = splitSlash d ++ es)
    (hes : ∀ e ∈ es, '/' ∉ e ∧ e ≠ ['.', '.']) : liesUnderClean d (Clean p) := by
  have invd := foldl_cleanStep_inv (decide (d.head? = some '/')) (splitSlash d) _
    (cleanInv_init _) (splitSlash_no_slash d)
  have invp := foldl_cleanStep_inv (decide (d.head? = some '/')) es _ invd (fun e he => (hes e he).1)
  rw [Clean_eq p hp, hhead, hsplit, List.foldl_append]
  unfold liesUnderClean
  rw [Clean_eq d hd]
  constructor
  · rw [head?_cleanEnd _ _ invp, head?_cleanEnd _ _ invd]
  · refine ⟨es.filter (fun e => e ≠ [] ∧ e ≠ ['.']), ?_, ?_⟩
    · rw [elements_cleanEnd, elements_cleanEnd, foldl_cleanStep_elements _ es _ invd hes]
    · intro hm
      exact (hes _ (List.mem_filter.mp hm).1).2 rfl

/-- A destination built from `d`, a slash and a relative path without `..`
element lies in `d` or below it. -/
theorem liesUnder_join (d t : Str) (hd : d ≠ []) (ht : ['.', '.'] ∉ splitSlash t) :
    liesUnder d (d ++ '/' :: t) := by
  unfold liesUnder
  apply liesUnderClean_of_elements d _ (splitSlash t) hd (by simp)
  · exact head?_append_of_ne_nil d _ hd
  · exact splitSlash_append d t
  · intro e he
    exact ⟨splitSlash_no_slash t e he, fun h => ht (h ▸ he)⟩

theorem dropWhile_slash (l : Str) :
    l.dropWhile (fun c => c ≠ '/') = [] ∨ ∃ r, l.dropWhile (fun c => c ≠ '/') = '/' :: r := by
  induction l with
  | nil => exact Or.inl rfl
  | cons c l ih =>
    by_cases h : c = '/'
    · subst h
      exact Or.inr ⟨l, by simp [List.dropWhile]⟩
    · have : (c :: l).dropWhile (fun c => c ≠ '/') = l.dropWhile (fun c => c ≠ '/') := by
        simp [List.dropWhile, h]
      rw [this]; exact ih

/-- The part of a path up to its last separator, as `Dir` cuts it: its
elements are elements of the path, or empty. -/
theorem splitSlash_cut (t : Str) :
    ∀ e ∈ splitSlash ((t.reverse.dropWhile (fun c => c ≠ '/')).reverse),
      e ∈ splitSlash t ∨ e = [] := by
  have hdec := List.takeWhile_append_dropWhile (fun c => decide (c ≠ '/')) t.reverse
  have hno : ∀ c ∈ (t.reverse.takeWhile (fun c => decide (c ≠ '/'))).reverse, c ≠ '/' := by
    intro c hc
    have := List.mem_takeWhile_imp (List.mem_reverse.mp hc)
    simpa using this
  have ht : t = (t.reverse.dropWhile (fun c => decide (c ≠ '/'))).reverse
      ++ (t.reverse.takeWhile (fun c => decide (c ≠ '/'))).reverse := by
    rw [← List.reverse_append, hdec, List.reverse_reverse]
  rcases dropWhile_slash t.reverse with h | ⟨r, h⟩
  · rw [h]
    intro e he
    right
    simpa [splitSlash] using he
  · rw [h] at ht ⊢
    intro e he
    have e1 : ('/' :: r).reverse = r.reverse ++ '/' :: [] := by simp
    rw [e1, splitSlash_append] at he
    rw [e1, List.append_assoc] at ht
    rcases List.mem_append.mp he with he | he
    · left
      rw [ht]
      have : r.reverse ++ ('/' :: [] ++ (t.reverse.takeWhile (fun c => decide (c ≠ '/'))).reverse)
          = r.reverse ++ '/' :: (t.reverse.takeWhile (fun c => decide (c ≠ '/'))).reverse := rfl
      rw [this, splitSlash_append]
      exact List.mem_append_left _ he
    · right
      simpa [splitSlash] using he

/-- Cutting a path `d/t` at its last separator leaves `d/t1` for some `t1`
whose elements are elements of `t`, or empty. -/
theorem cut_join (d t : Str) :
    ∃ t1, ((d ++ '/' :: t).reverse.dropWhile (fun c => c ≠ '/')).reverse = d ++ '/' :: t1 ∧
      ∀ e ∈ splitSlash t1, e ∈ splitSlash t ∨ e = [] := by
  have hr : (d ++ '/' :: t).reverse = t.reverse ++ '/' :: d.reverse := by simp
  rw [hr, List.dropWhile_append]
  split
  · refine ⟨[], ?_, ?_⟩
    · simp [List.dropWhile]
    · intro e he; right; simpa [splitSlash] using he
  · refine ⟨(t.reverse.dropWhile (fun c => c ≠ '/')).reverse, ?_, splitSlash_cut t⟩
    simp

/-- The parent directory of a destination built from `d`, a slash and a
relative path without `..` element is `d` or lies below it. -/
theorem liesUnderClean_Dir_join (d t : Str) (hd : d ≠ []) (ht : ['.', '.'] ∉ splitSlash t) :
    liesUnderClean d (Dir (d ++ '/' :: t)) := by
  unfold Dir
  obtain ⟨t1, e1, e2⟩ := cut_join d t
  rw [e1]
  apply liesUnderClean_of_elements d _ (splitSlash t1) hd (by simp)
  · exact head?_append_of_ne_nil d _ hd
  · exact splitSlash_append d t1
  · intro e he
    refine ⟨splitSlash_no_slash t1 e he, fun h => ?_⟩
    rcases e2 e he with h2 | h2
    · exact ht (h ▸ h2)
    · rw [h2] at h; exact absurd h (by simp)

/-- C20 (counterexample). With `ProjectName = ".."` and the destination
`/tmp/out`, `BuildProject` returns `nil` and has created the file
`/tmp/out/../cmd/root.go`, which is `/tmp/cmd/root.go`: outside `/tmp/out`. -/
theorem C20_counterexample :
    (BuildProject (exampleWriter [("ProjectName".toList, "..".toList)]) "/tmp/out".toList
        emptyWorld).2.2 = .nil ∧
      FsOp.Create "/tmp/out/../cmd/root.go".toList ∈
        (BuildProject (exampleWriter [("ProjectName".toList, "..".toList)]) "/tmp/out".toList
          emptyWorld).2.1.ops ∧
      Clean "/tmp/out/../cmd/root.go".toList = "/tmp/cmd/root.go".toList ∧
      ¬ liesUnder "/tmp/out".toList "/tmp/out/../cmd/root.go".toList := by
  refine ⟨by decide, by decide, by decide, ?_⟩
  rintro ⟨_, rest, h, _⟩
  have e1 : elements (Clean "/tmp/out/../cmd/root.go".toList)
      = ["tmp".toList, "cmd".toList, "root.go".toList] := by decide
  have e2 : elements (Clean "/tmp/out".toList) = ["tmp".toList, "out".toList] := by decide
  rw [e1, e2] at h
  simp at h

/-- C20 (amended). When the destination `d` is not the empty string and no
relative destination path of a node has a `..` element, every call
`BuildProject` makes on the output filesystem is made for a node either at its
destination `d/TemplPath`, which lies in `d` or below it, or at the parent
directory of that destination, which is `d` or lies below it. -/
theorem C20_output_under_destination {σ : Type} (w : TmplWriter σ) (destDir : Str)
    (wd : World σ) (hd : destDir ≠ [])
    (hsafe : ∀ fp ∈ (BuildProject w destDir wd).1, ['.', '.'] ∉ splitSlash fp.TemplPath) :
    ∃ ops, (BuildProject w destDir wd).2.1.ops = wd.ops ++ ops ∧
      ∀ o ∈ ops, ∃ fp ∈ (BuildProject w destDir wd).1,
        (o.path = destDir ++ '/' :: fp.TemplPath ∧ liesUnder destDir o.path) ∨
        (o.path = Dir (destDir ++ '/' :: fp.TemplPath) ∧ liesUnderClean destDir o.path) := by
  obtain ⟨mk, wr, h1, _, h3, _, l1, l2, h5, h6, _⟩ := BuildProject_staged w destDir wd
  refine ⟨mk ++ wr, h1, ?_⟩
  intro o ho
  rcases List.mem_append.mp ho with ho | ho
  · rw [h6] at ho
    obtain ⟨fp, hfp, rfl⟩ := List.mem_map.mp ho
    have hmem : fp ∈ (BuildProject w destDir wd).1 := by
      rw [h5]; exact List.mem_append_left _ hfp
    refine ⟨fp, hmem, ?_⟩
    unfold mkdirOp
    split
    · exact Or.inl ⟨rfl, liesUnder_join destDir _ hd (hsafe fp hmem)⟩
    · exact Or.inr ⟨rfl, liesUnderClean_Dir_join destDir _ hd (hsafe fp hmem)⟩
  · obtain ⟨fp, hmem, _, hop⟩ := h3 o ho
    refine ⟨fp, hmem, Or.inl ?_⟩
    have hp : o.path = destDir ++ '/' :: fp.TemplPath := by
      rcases hop with h | ⟨data, h⟩ | h <;> rw [h] <;> rfl
    rw [hp]
    exact ⟨rfl, liesUnder_join destDir _ hd (hsafe fp hmem)⟩

/-- Witness for C20: the run of the concrete scenario, `ProjectName = "demo"`
and destination `/tmp/out`. -/
theorem C20_output_under_destination_witness :
    ("/tmp/out".toList ≠ [] ∧
      ∀ fp ∈ (BuildProject (exampleWriter demoVals) "/tmp/out".toList emptyWorld).1,
        ['.', '.'] ∉ splitSlash fp.TemplPath) ∧
    ∃ ops, (BuildProject (exampleWriter demoVals) "/tmp/out".toList emptyWorld).2.1.ops
        = emptyWorld.ops ++ ops ∧
      ∀ o ∈ ops, ∃ fp ∈ (BuildProject (exampleWriter demoVals) "/tmp/out".toList emptyWorld).1,
        (o.path = "/tmp/out".toList ++ '/' :: fp.TemplPath ∧ liesUnder "/tmp/out".toList o.path) ∨
        (o.path = Dir ("/tmp/out".toList ++ '/' :: fp.TemplPath) ∧
          liesUnderClean "/tmp/out".toList o.path) :=
  ⟨⟨by decide, by decide⟩,
    C20_output_under_destination (exampleWriter demoVals) "/tmp/out".toList emptyWorld
      (by decide) (by decide)⟩

/-! ## Lemmas: `validateConfig` -/

theorem indexBool_cons (n : Str) (b : Bool) (m : List (Str × Bool)) (k : Str) :
    indexBool ((n, b) :: m) k = if n = k then b else indexBool m k := by
  unfold indexBool
  rw [List.find?_cons]
  by_cases h : n = k
  · simp [h]
  · simp [h]

/-- A map literal whose values are all `true` answers membership among its
keys. -/
theorem indexBool_allTrue (names : List Str) (k : Str) :
    indexBool (names.map (fun n => (n, true))) k = true ↔ k ∈ names := by
  induction names with
  | nil => simp [indexBool]
  | cons n rest ih =>
    rw [List.map_cons, indexBool_cons]
    by_cases h : n = k
    · simp [h]
    · rw [if_neg h, ih]
      simp [Ne.symm h]

theorem validateConfig_nil_iff (cfg : HeadlessService.Config) :
    HeadlessService.validateConfig cfg = none ↔
      (1 ≤ cfg.Server.Port ∧ cfg.Server.Port ≤ 65535 ∧ 0 < cfg.Server.ReadTimeout ∧
        0 < cfg.Server.WriteTimeout ∧
        cfg.Logging.Level ∈ ["debug".toList, "info".toList, "warn".toList, "error".toList,
          "dpanic".toList, "panic".toList, "fatal".toList] ∧
        cfg.Logging.Format ∈ ["json".toList, "console".toList] ∧ 0 < cfg.Worker.Interval) := by
  have hl := indexBool_allTrue ["debug".toList, "info".toList, "warn".toList, "error".toList,
          "dpanic".toList, "panic".toList, "fatal".toList] cfg.Logging.Level
  have hf := indexBool_allTrue ["json".toList, "console".toList] cfg.Logging.Format
  rw [← hl, ← hf]
  unfold HeadlessService.validateConfig
  have e1 : HeadlessService.validLevels = List.map (fun n => (n, true))
      ["debug".toList, "info".toList, "warn".toList, "error".toList,
          "dpanic".toList, "panic".toList, "fatal".toList] := rfl
  have e2 : HeadlessService.validFormats
      = List.map (fun n => (n, true)) ["json".toList, "console".toList] := rfl
  rw [← e1, ← e2]
  split_ifs with h1 h2 h3 h4 h5 h6
  · simp only [reduceCtorEq, false_iff]; omega
  · simp only [reduceCtorEq, false_iff]; omega
  · simp only [reduceCtorEq, false_iff]; omega
  · simp only [reduceCtorEq, false_iff]
    simp only [Bool.not_eq_true', ] at h4
    simp [h4]
  · simp only [reduceCtorEq, false_iff]
    simp only [Bool.not_eq_true'] at h5
    simp [h5]
  · simp only [reduceCtorEq, false_iff]; omega
  · simp only [Bool.not_eq_true', Bool.not_eq_false] at h4 h5
    simp only [true_iff]
    refine ⟨by omega, by omega, by omega, by omega, h4, h5, by omega⟩

/-- C24. `validateConfig` of the headless-service archetype returns `nil`
exactly when the port is between 1 and 65535, both timeouts are positive, the
level is one of debug, info, warn, error, dpanic, panic, fatal, the format is
json or console, and the worker interval is positive.  Otherwise the error is
that of the first failing check in this order: port, read timeout, write
timeout, level, format, interval. -/
theorem C24_validateConfig_headless (cfg : HeadlessService.Config) :
    (HeadlessService.validateConfig cfg = none ↔
      (1 ≤ cfg.Server.Port ∧ cfg.Server.Port ≤ 65535 ∧ 0 < cfg.Server.ReadTimeout ∧
        0 < cfg.Server.WriteTimeout ∧
        cfg.Logging.Level ∈ ["debug".toList, "info".toList, "warn".toList, "error".toList,
          "dpanic".toList, "panic".toList, "fatal".toList] ∧
        cfg.Logging.Format ∈ ["json".toList, "console".toList] ∧ 0 < cfg.Worker.Interval)) ∧
    (¬ (1 ≤ cfg.Server.Port ∧ cfg.Server.Port ≤ 65535) →
      HeadlessService.validateConfig cfg = some (.new
        ("server.port must be between 1 and 65535, got ".toList ++ formatInt cfg.Server.Port))) ∧
    (1 ≤ cfg.Server.Port ∧ cfg.Server.Port ≤ 65535 → ¬ 0 < cfg.Server.ReadTimeout →
      HeadlessService.validateConfig cfg
        = some (.new "server.read_timeout must be positive".toList)) ∧
    (1 ≤ cfg.Server.Port ∧ cfg.Server.Port ≤ 65535 → 0 < cfg.Server.ReadTimeout →
      ¬ 0 < cfg.Server.WriteTimeout →
      HeadlessService.validateConfig cfg
        = some (.new "server.write_timeout must be positive".toList)) ∧
    (1 ≤ cfg.Server.Port ∧ cfg.Server.Port ≤ 65535 → 0 < cfg.Server.ReadTimeout →
      0 < cfg.Server.WriteTimeout →
      cfg.Logging.Level ∉ ["debug".toList, "info".toList, "warn".toList, "error".toList,
          "dpanic".toList, "panic".toList, "fatal".toList] →
      HeadlessService.validateConfig cfg = some (.new
        "logging.level must be one of: debug, info, warn, error, dpanic, panic, fatal".toList)) ∧
    (1 ≤ cfg.Server.Port ∧ cfg.Server.Port ≤ 65535 → 0 < cfg.Server.ReadTimeout →
      0 < cfg.Server.WriteTimeout →
      cfg.Logging.Level ∈ ["debug".toList, "info".toList, "warn".toList, "error".toList,
          "dpanic".toList, "panic".toList, "fatal".toList] →
      cfg.Logging.Format ∉ ["json".toList, "console".toList] →
      HeadlessService.validateConfig cfg
        = some (.new "logging.format must be one of: json, console".toList)) ∧
    (1 ≤ cfg.Server.Port ∧ cfg.Server.Port ≤ 65535 → 0 < cfg.Server.ReadTimeout →
      0 < cfg.Server.WriteTimeout →
      cfg.Logging.Level ∈ ["debug".toList, "info".toList, "warn".toList, "error".toList,
          "dpanic".toList, "panic".toList, "fatal".toList] →
      cfg.Logging.Format ∈ ["json".toList, "console".toList] → ¬ 0 < cfg.Worker.Interval →
      HeadlessService.validateConfig cfg = some (.new "worker.interval must be positive".toList)) ∧
    HeadlessService.validateConfig ⟨⟨70000, 0, 0⟩, ⟨[], []⟩, ⟨false, []⟩, ⟨0⟩⟩
      = some (.new "server.port must be between 1 and 65535, got 70000".toList) := by
  have hl := indexBool_allTrue ["debug".toList, "info".toList, "warn".toList, "error".toList,
          "dpanic".toList, "panic".toList, "fatal".toList] cfg.Logging.Level
  have hf := indexBool_allTrue ["json".toList, "console".toList] cfg.Logging.Format
  have e1 : HeadlessService.validLevels = List.map (fun n => (n, true))
      ["debug".toList, "info".toList, "warn".toList, "error".toList,
          "dpanic".toList, "panic".toList, "fatal".toList] := rfl
  have e2 : HeadlessService.validFormats
      = List.map (fun n => (n, true)) ["json".toList, "console".toList] := rfl
  refine ⟨validateConfig_nil_iff cfg, ?_, ?_, ?_, ?_, ?_, ?_, ?_⟩
  · intro h
    unfold HeadlessService.validateConfig
    rw [if_pos (by omega)]
  · intro h1 h2
    unfold HeadlessService.validateConfig
    rw [if_neg (by omega), if_pos (by omega)]
  · intro h1 h2 h3
    unfold HeadlessService.validateConfig
    rw [if_neg (by omega), if_neg (by omega), if_pos (by omega)]
  · intro h1 h2 h3 h4
    rw [← hl, ← e1] at h4
    unfold HeadlessService.validateConfig
    rw [if_neg (by omega), if_neg (by omega), if_neg (by omega), if_pos (by simpa using h4)]
  · intro h1 h2 h3 h4 h5
    rw [← hl, ← e1] at h4
    rw [← hf, ← e2] at h5
    unfold HeadlessService.validateConfig
    rw [if_neg (by omega), if_neg (by omega), if_neg (by omega), if_neg (by simpa using h4),
      if_pos (by simpa using h5)]
  · intro h1 h2 h3 h4 h5 h6
    rw [← hl, ← e1] at h4
    rw [← hf, ← e2] at h5
    unfold HeadlessService.validateConfig
    rw [if_neg (by omega), if_neg (by omega), if_neg (by omega), if_neg (by simpa using h4),
      if_neg (by simpa using h5), if_pos (by omega)]
  · decide

theorem validLevelLoop_iff (t : CaseTables) (logLevel : Str) (levels : List Str) :
    SPA.validLevelLoop t logLevel levels = true ↔ ToLower t logLevel ∈ levels := by
  induction levels with
  | nil => simp [SPA.validLevelLoop]
  | cons level rest ih =>
    unfold SPA.validLevelLoop
    by_cases h : ToLower t logLevel = level
    · simp [h]
    · rw [if_neg h, ih]
      simp [h]

/-- On a string of ASCII characters `ToLower` is the ASCII mapping of every
character, whatever the tables. -/
theorem ToLower_ascii (t : CaseTables) (s : Str) (h : isASCII s = true) :
    ToLower t s = s.map asciiLower := by
  unfold ToLower
  rw [if_pos h]
  split
  · rename_i hno
    symm
    have : ∀ c ∈ s, asciiLower c = c := by
      intro c hc
      unfold asciiLower
      split
      · rename_i hup
        exfalso
        simp only [Bool.not_eq_true', List.any_eq_false, decide_eq_true_eq] at hno
        exact hno c hc hup
      · rfl
    calc s.map asciiLower = s.map id := List.map_congr_left this
      _ = s := List.map_id s
  · rfl

/-- C25. `validateConfig` of the spa archetype returns `nil` exactly when the
lower-cased `LogLevel` is one of debug, info, warn, error, fatal, panic, the
client id and the client secret are both empty or both non-empty, and the
server address and the metrics address are non-empty.  A configuration with
exactly one of client id and client secret set is rejected.  Lower-casing an
ASCII level maps each of its characters; `INFO` and `Warn` are accepted. -/
theorem C25_validateConfig_spa (t : CaseTables) (config : SPA.Config) :
    (SPA.validateConfig t config = none ↔
      (ToLower t config.LogLevel ∈ ["debug".toList, "info".toList, "warn".toList, "error".toList,
          "fatal".toList, "panic".toList] ∧
        (config.OIDCClientID = [] ↔ config.OIDCClientSecret = []) ∧
        config.ServerAddress ≠ [] ∧ config.MetricsAddress ≠ [])) ∧
    (¬ (config.OIDCClientID = [] ↔ config.OIDCClientSecret = []) →
      SPA.validateConfig t config ≠ none) ∧
    (isASCII config.LogLevel = true → ToLower t config.LogLevel = config.LogLevel.map asciiLower) ∧
    SPA.validateConfig t
      ⟨"0.0.0.0:9999".toList, "0.0.0.0:8080".toList, "INFO".toList, [], [], [], [], [], false, []⟩
      = none ∧
    SPA.validateConfig t
      ⟨"0.0.0.0:9999".toList, "0.0.0.0:8080".toList, "Warn".toList, "id".toList, "secret".toList,
        [], [], [], false, []⟩ = none := by
  have hiff : SPA.validateConfig t config = none ↔
      (ToLower t config.LogLevel ∈ ["debug".toList, "info".toList, "warn".toList, "error".toList,
          "fatal".toList, "panic".toList] ∧
        (config.OIDCClientID = [] ↔ config.OIDCClientSecret = []) ∧
        config.ServerAddress ≠ [] ∧ config.MetricsAddress ≠ []) := by
    have hv := validLevelLoop_iff t config.LogLevel SPA.validLogLevels
    have e : SPA.validLogLevels = ["debug".toList, "info".toList, "warn".toList, "error".toList,
          "fatal".toList, "panic".toList] := rfl
    rw [← e, ← hv]
    unfold SPA.validateConfig
    split_ifs with h1 h2 h3 h4 h5
    · simp only [reduceCtorEq, false_iff]
      simp only [Bool.not_eq_true'] at h1
      simp [h1]
    · simp only [reduceCtorEq, false_iff]
      intro h
      exact h2.1 (h.2.1.mpr h2.2)
    · simp only [reduceCtorEq, false_iff]
      intro h
      exact h3.1 (h.2.1.mp h3.2)
    · simp only [reduceCtorEq, false_iff]
      intro h
      exact h.2.2.1 h4
    · simp only [reduceCtorEq, false_iff]
      intro h
      exact h.2.2.2 h5
    · simp only [Bool.not_eq_true', Bool.not_eq_false] at h1
      simp only [true_iff]
      refine ⟨h1, ⟨fun h => ?_, fun h => ?_⟩, h4, h5⟩
      · by_contra hc; exact h3 ⟨hc, h⟩
      · by_contra hc; exact h2 ⟨hc, h⟩
  refine ⟨hiff, fun h hn => h (hiff.mp hn).2.1, ToLower_ascii t _, ?_, ?_⟩
  · rw [show SPA.validateConfig t
      ⟨"0.0.0.0:9999".toList, "0.0.0.0:8080".toList, "INFO".toList, [], [], [], [], [], false, []⟩
      = SPA.validateConfig idTables
      ⟨"0.0.0.0:9999".toList, "0.0.0.0:8080".toList, "INFO".toList, [], [], [], [], [], false, []⟩
      from rfl]
    decide
  · rw [show SPA.validateConfig t
      ⟨"0.0.0.0:9999".toList, "0.0.0.0:8080".toList, "Warn".toList, "id".toList, "secret".toList,
        [], [], [], false, []⟩
      = SPA.validateConfig idTables
      ⟨"0.0.0.0:9999".toList, "0.0.0.0:8080".toList, "Warn".toList, "id".toList, "secret".toList,
        [], [], [], false, []⟩ from rfl]
    decide

/-! ## Lemmas: replacing one character -/

theorem Index_single_cons (a c : Char) (t : Str) :
    Index [a] (c :: t) = if a = c then some 0 else (Index [a] t).map (· + 1) := by
  rw [Index_cons]
  by_cases h : a = c
  · subst h; simp [List.isPrefixOf]
  · simp [List.isPrefixOf, h]

theorem replaceLoop_single_ne (a c : Char) (new t : Str) (n : Nat) (h : a ≠ c) :
    replaceLoop [a] new (n + 1) (c :: t) = c :: replaceLoop [a] new (n + 1) t := by
  unfold replaceLoop
  rw [Index_single_cons, if_neg h]
  cases hI : Index [a] t with
  | none => rfl
  | some j => simp

theorem replaceLoop_single_eq (a : Char) (new t : Str) (n : Nat) :
    replaceLoop [a] new (n + 1) (a :: t) = new ++ replaceLoop [a] new n t := by
  conv => lhs; unfold replaceLoop
  rw [Index_single_cons, if_pos rfl]
  simp

/-- Replacing every occurrence of one character: each character is replaced
on its own. -/
theorem replaceLoop_single (a : Char) (new : Str) :
    ∀ (s : Str) (n : Nat), s.length ≤ n →
      replaceLoop [a] new n s = (s.map (fun c => if c = a then new else [c])).flatten := by
  intro s
  induction s with
  | nil =>
    intro n _
    cases n with
    | zero => rfl
    | succ n => rfl
  | cons c t ih =>
    intro n hn
    cases n with
    | zero => simp at hn
    | succ n =>
      by_cases h : a = c
      · subst h
        rw [replaceLoop_single_eq, ih n (by simpa using hn)]
        simp
      · rw [replaceLoop_single_ne a c new t n h, ih (n + 1) (by simp at hn; omega)]
        simp [Ne.symm h]

theorem ReplaceAll_single (a : Char) (new s : Str) (h : [a] ≠ new) :
    ReplaceAll s [a] new = (s.map (fun c => if c = a then new else [c])).flatten := by
  unfold ReplaceAll
  rw [if_neg h]
  simp only [List.isEmpty_cons, Bool.false_eq_true, if_false]
  exact replaceLoop_single a new s (s.length + 1) (Nat.le_succ _)

/-- Removing a character with `ReplaceAll` is filtering it out. -/
theorem ReplaceAll_remove (a : Char) (s : Str) : ReplaceAll s [a] [] = s.filter (· ≠ a) := by
  rw [ReplaceAll_single a [] s (by simp)]
  induction s with
  | nil => rfl
  | cons c t ih =>
    by_cases h : c = a
    · simp [h, ih]
    · simp [h, ih]

/-- Replacing a character by another with `ReplaceAll` maps every
character. -/
theorem ReplaceAll_char (a b : Char) (s : Str) :
    ReplaceAll s [a] [b] = s.map (fun c => if c = a then b else c) := by
  by_cases hab : a = b
  · subst hab
    unfold ReplaceAll
    rw [if_pos rfl]
    symm
    calc s.map (fun c => if c = a then a else c) = s.map id :=
          List.map_congr_left (fun c _ => by by_cases h : c = a <;> simp [h])
      _ = s := List.map_id s
  rw [ReplaceAll_single a [b] s (by simpa using hab)]
  induction s with
  | nil => rfl
  | cons c t ih =>
    by_cases h : c = a
    · simp [h, ih]
    · simp [h, ih]

/-! ## Lemmas: maps -/

theorem Dict.get_cons (e : Str × Str) (d : Dict) (k : Str) :
    Dict.get (e :: d) k = if e.1 = k then some e.2 else Dict.get d k := by
  unfold Dict.get
  rw [List.find?_cons]
  by_cases h : e.1 = k
  · simp [h]
  · simp [h]

theorem Dict.get_append_of_none (d1 d2 : Dict) (k : Str) (h : Dict.get d1 k = none) :
    Dict.get (d1 ++ d2) k = Dict.get d2 k := by
  induction d1 with
  | nil => rfl
  | cons e d ih =>
    rw [Dict.get_cons] at h
    rw [List.cons_append, Dict.get_cons]
    by_cases he : e.1 = k
    · rw [if_pos he] at h; simp at h
    · rw [if_neg he] at h ⊢; exact ih h

theorem Dict.get_append_of_some (d1 d2 : Dict) (k v : Str) (h : Dict.get d1 k = some v) :
    Dict.get (d1 ++ d2) k = some v := by
  induction d1 with
  | nil => simp [Dict.get] at h
  | cons e d ih =>
    rw [Dict.get_cons] at h
    rw [List.cons_append, Dict.get_cons]
    by_cases he : e.1 = k
    · rw [if_pos he] at h ⊢; exact h
    · rw [if_neg he] at h ⊢; exact ih h

theorem Dict.any_false_get (d : Dict) (k : Str) (h : d.any (fun e => e.1 = k) = false) :
    Dict.get d k = none := by
  induction d with
  | nil => rfl
  | cons e d ih =>
    simp only [List.any_cons, Bool.or_eq_false_iff, decide_eq_false_iff_not] at h
    rw [Dict.get_cons, if_neg h.1]
    exact ih h.2

theorem Dict.get_map_self (d : Dict) (k v : Str) (h : d.any (fun e => e.1 = k) = true) :
    Dict.get (d.map (fun e => if e.1 = k then (k, v) else e)) k = some v := by
  induction d with
  | nil => simp at h
  | cons e d ih =>
    rw [List.map_cons, Dict.get_cons]
    by_cases he : e.1 = k
    · simp [he]
    · simp only [List.any_cons, he, decide_False, Bool.false_or] at h
      simp only [he, if_false]
      exact ih h

theorem Dict.get_map_other (d : Dict) (k v k1 : Str) (hk : k1 ≠ k) :
    Dict.get (d.map (fun e => if e.1 = k then (k, v) else e)) k1 = Dict.get d k1 := by
  induction d with
  | nil => rfl
  | cons e d ih =>
    rw [List.map_cons, Dict.get_cons, Dict.get_cons, ih]
    by_cases he : e.1 = k
    · have : e.1 ≠ k1 := fun h => hk (h ▸ he)
      simp [he, this, Ne.symm hk]
    · simp [he]

/-- After `m[k] = v` the entry for `k` is `v`. -/
theorem Dict.get_set_self (d : Dict) (k v : Str) : Dict.get (d.set k v) k = some v := by
  unfold Dict.set
  split
  · rename_i h; exact Dict.get_map_self d k v h
  · rename_i h
    rw [Dict.get_append_of_none d _ k (Dict.any_false_get d k (Bool.eq_false_iff.mpr h)), Dict.get_cons]
    simp

/-- The assignment `m[k] = v` leaves the entries for the other keys as they
are. -/
theorem Dict.get_set_other (d : Dict) (k v k1 : Str) (hk : k1 ≠ k) :
    Dict.get (d.set k v) k1 = Dict.get d k1 := by
  unfold Dict.set
  split
  · exact Dict.get_map_other d k v k1 hk
  · cases h : Dict.get d k1 with
    | none =>
      rw [Dict.get_append_of_none d _ k1 h, Dict.get_cons, if_neg (Ne.symm hk)]
      rfl
    | some x => exact Dict.get_append_of_some d _ k1 x h

/-! ## Lemmas: `AsMap` -/

theorem filter_dash_facts (s : Str) :
    '-' ∉ s.filter (· ≠ '-') ∧ ('-' ∉ s → s.filter (· ≠ '-') = s) := by
  constructor
  · intro h
    have := (List.mem_filter.mp h).2
    simp at this
  · intro h
    apply List.filter_eq_self.mpr
    intro c hc
    simp only [ne_eq, decide_not, Bool.not_eq_true', decide_eq_false_iff_not]
    exact fun e => h (e ▸ hc)

/-- When `SPAParams.AsMap` returns, the nine pointers it dereferences are not
nil, the error is `nil`, and the map is the literal followed by the two
assignments. -/
theorem SPAParams_AsMap_some (t : CaseTables) (p : SPAParams) (d : Dict) (e : Option GoError)
    (h : SPAParams.AsMap t p = some (d, e)) :
    ∃ name, p.ProjectName = some name ∧ e = none ∧
      d.get "ProjectPackageName".toList = some (ReplaceAll name ['-'] []) ∧
      d.get "ProjectEnvPrefix".toList = some (ToUpper t (ReplaceAll name ['-'] ['_'])) := by
  unfold SPAParams.AsMap at h
  split at h
  · rename_i name _ _ _ _ _ _ _ _ h1 _ _ _ _ _ _ _ _
    simp only [Option.some.injEq, Prod.mk.injEq] at h
    refine ⟨name, h1, h.2.symm, ?_, ?_⟩
    · rw [← h.1, Dict.get_set_other _ _ _ _ (by decide), Dict.get_set_self]
    · rw [← h.1, Dict.get_set_self]
  · simp at h

/-- `SPAParams.AsMap` returns exactly when the nine pointers it dereferences
are not nil. -/
theorem SPAParams_AsMap_returns (t : CaseTables) (p : SPAParams) :
    (SPAParams.AsMap t p).isSome = true ↔
      (p.ProjectName ≠ none ∧ p.ProjectPackage ≠ none ∧ p.ProjectShortDesc ≠ none ∧
        p.ProjectLongDesc ≠ none ∧ p.ProjectVersion ≠ none ∧ p.GolangVersion ≠ none ∧
        p.ProjectMaintainerName ≠ none ∧ p.ProjectMaintainerEmail ≠ none ∧ p.DbtRepo ≠ none) := by
  obtain ⟨a1, a2, a3, a4, a5, a6, a7, a8, a9, a10⟩ := p
  unfold SPAParams.AsMap
  cases a1 <;> cases a2 <;> cases a4 <;> cases a5 <;> cases a6 <;> cases a7 <;> cases a8 <;>
    cases a9 <;> cases a10 <;> simp

/-- C22 (counterexample). For the zero value of `SPAParams`, whose pointers
are nil, `AsMap` does not return a map: it panics. -/
theorem C22_counterexample :
    SPAParams.AsMap idTables ⟨none, none, none, none, none, none, none, none, none, none⟩ = none ∧
    SPAParams.AsMap idTables
      ⟨none, some [], some [], some [], some [], some [], some [], some [], some [], some []⟩
      = none := by
  decide

/-- C22 (amended). For every `HeadlessServiceParams` and
`IndirectSelectionParams` value `AsMap` returns no error and the entry
`ProjectPackageName` is `ProjectName` with every dash removed.  For an
`SPAParams` value `AsMap` returns exactly when the nine pointers it
dereferences are not nil, and then with no error and the same entry.
Removing the dashes is filtering them out: the result has no dash, keeps the
other characters in order, and is the name itself when the name has no dash.
`my-cool-svc` gives `mycoolsvc`. -/
theorem C22_package_name (t : CaseTables) (hsp : HeadlessServiceParams)
    (isp : IndirectSelectionParams) (p : SPAParams) :
    (hsp.AsMap.2 = none ∧
      hsp.AsMap.1.get "ProjectPackageName".toList = some (ReplaceAll hsp.ProjectName ['-'] [])) ∧
    (isp.AsMap.2 = none ∧
      isp.AsMap.1.get "ProjectPackageName".toList = some (ReplaceAll isp.ProjectName ['-'] [])) ∧
    ((SPAParams.AsMap t p).isSome = true ↔
      (p.ProjectName ≠ none ∧ p.ProjectPackage ≠ none ∧ p.ProjectShortDesc ≠ none ∧
        p.ProjectLongDesc ≠ none ∧ p.ProjectVersion ≠ none ∧ p.GolangVersion ≠ none ∧
        p.ProjectMaintainerName ≠ none ∧ p.ProjectMaintainerEmail ≠ none ∧ p.DbtRepo ≠ none)) ∧
    (∀ d e, SPAParams.AsMap t p = some (d, e) → ∃ name, p.ProjectName = some name ∧ e = none ∧
      d.get "ProjectPackageName".toList = some (ReplaceAll name ['-'] [])) ∧
    (∀ s : Str, ReplaceAll s ['-'] [] = s.filter (· ≠ '-') ∧ '-' ∉ ReplaceAll s ['-'] [] ∧
      ('-' ∉ s → ReplaceAll s ['-'] [] = s)) ∧
    (SPAParams.AsMap t NewSPAParams).isSome = true ∧
    ReplaceAll "my-cool-svc".toList ['-'] [] = "mycoolsvc".toList := by
  refine ⟨⟨rfl, ?_⟩, ⟨rfl, ?_⟩, SPAParams_AsMap_returns t p, ?_, ?_, ?_, by decide⟩
  · unfold HeadlessServiceParams.AsMap
    simp only []
    rw [Dict.get_set_self]
  · unfold IndirectSelectionParams.AsMap
    simp only []
    rw [Dict.get_set_self]
  · intro d e h
    obtain ⟨name, h1, h2, h3, _⟩ := SPAParams_AsMap_some t p d e h
    exact ⟨name, h1, h2, h3⟩
  · intro s
    rw [ReplaceAll_remove]
    exact ⟨rfl, (filter_dash_facts s).1, (filter_dash_facts s).2⟩
  · exact (SPAParams_AsMap_returns t NewSPAParams).mpr (by decide)

/-! ## Lemmas: upper-casing -/

theorem char_le_iff (a b : Char) : a ≤ b ↔ a.toNat ≤ b.toNat := by
  rw [Char.le_def]
  exact Iff.rfl

theorem lower_cases (c : Char) (h : 'a' ≤ c ∧ c ≤ 'z') :
    ∃ n, 97 ≤ n ∧ n ≤ 122 ∧ c = Char.ofNat n := by
  refine ⟨c.toNat, ?_, ?_, (Char.ofNat_toNat c).symm⟩
  · exact (char_le_iff _ _).mp h.1
  · exact (char_le_iff _ _).mp h.2

theorem asciiUpper_not_lower (c : Char) : ¬ ('a' ≤ asciiUpper c ∧ asciiUpper c ≤ 'z') := by
  unfold asciiUpper
  split
  · rename_i h
    obtain ⟨n, h1, h2, rfl⟩ := lower_cases c h
    interval_cases n <;> decide
  · rename_i h; exact h

theorem asciiUpper_ne_dash (c : Char) (h : c ≠ '-') : asciiUpper c ≠ '-' := by
  unfold asciiUpper
  split
  · rename_i hl
    obtain ⟨n, h1, h2, rfl⟩ := lower_cases c hl
    interval_cases n <;> decide
  · exact h

theorem asciiUpper_ascii (c : Char) (h : c.toNat ≤ 127) : (asciiUpper c).toNat ≤ 127 := by
  unfold asciiUpper
  split
  · rename_i hl
    obtain ⟨n, h1, h2, rfl⟩ := lower_cases c hl
    interval_cases n <;> decide
  · exact h

theorem asciiUpper_of_not_lower (c : Char) (h : ¬ ('a' ≤ c ∧ c ≤ 'z')) : asciiUpper c = c := by
  unfold asciiUpper
  rw [if_neg h]

/-- `strings.ToUpper` maps every character with `unicode.ToUpper`; the
treatment of ASCII strings gives the same result. -/
theorem ToUpper_eq_map (t : CaseTables) (s : Str) : ToUpper t s = s.map (unicodeToUpper t) := by
  unfold ToUpper
  split
  · rename_i ha
    have hm : s.map asciiUpper = s.map (unicodeToUpper t) := by
      apply List.map_congr_left
      intro c hc
      unfold unicodeToUpper
      have : c.toNat < 128 := by
        simp only [isASCII, List.all_eq_true, decide_eq_true_eq] at ha
        exact ha c hc
      rw [if_pos (by omega)]
    split
    · rename_i hno
      rw [← hm]
      symm
      calc s.map asciiUpper = s.map id := by
            apply List.map_congr_left
            intro c hc
            apply asciiUpper_of_not_lower
            simp only [Bool.not_eq_true', List.any_eq_false, decide_eq_true_eq] at hno
            exact hno c hc
        _ = s := List.map_id s
    · exact hm
  · rfl

/-- The facts about `unicode.ToUpper` at one character other than a dash:
given `upperStable` when the character is not ASCII. -/
theorem unicodeToUpper_facts (t : CaseTables) (c : Char) (hc : c ≠ '-')
    (h : 127 < c.toNat → upperStable t c) :
    unicodeToUpper t c ≠ '-' ∧
      ¬ ('a' ≤ unicodeToUpper t c ∧ unicodeToUpper t c ≤ 'z') ∧
      unicodeToUpper t (unicodeToUpper t c) = unicodeToUpper t c := by
  by_cases ha : c.toNat ≤ 127
  · have e : unicodeToUpper t c = asciiUpper c := by unfold unicodeToUpper; rw [if_pos ha]
    rw [e]
    refine ⟨asciiUpper_ne_dash c hc, asciiUpper_not_lower c, ?_⟩
    unfold unicodeToUpper
    rw [if_pos (asciiUpper_ascii c ha)]
    exact asciiUpper_of_not_lower _ (asciiUpper_not_lower c)
  · have e : unicodeToUpper t c = t.upper c := by unfold unicodeToUpper; rw [if_neg ha]
    obtain ⟨g1, g2, g3⟩ := h (by omega)
    rw [e]
    refine ⟨g1, g2, ?_⟩
    unfold unicodeToUpper
    by_cases hb : (t.upper c).toNat ≤ 127
    · rw [if_pos hb]; exact asciiUpper_of_not_lower _ g2
    · rw [if_neg hb]; exact g3 (by omega)

/-- The environment prefix of a name whose characters above ASCII satisfy
`upperStable`: no dash, no lower-case ASCII letter, unchanged by the same
transformation. -/
theorem envPrefix_facts (t : CaseTables) (name : Str)
    (h : ∀ c ∈ name, 127 < c.toNat → upperStable t c) :
    '-' ∉ ToUpper t (ReplaceAll name ['-'] ['_']) ∧
    (∀ c ∈ ToUpper t (ReplaceAll name ['-'] ['_']), ¬ ('a' ≤ c ∧ c ≤ 'z')) ∧
    ToUpper t (ReplaceAll (ToUpper t (ReplaceAll name ['-'] ['_'])) ['-'] ['_'])
      = ToUpper t (ReplaceAll name ['-'] ['_']) := by
  have hfacts : ∀ c ∈ name.map (fun c => if c = '-' then '_' else c),
      unicodeToUpper t c ≠ '-' ∧
      ¬ ('a' ≤ unicodeToUpper t c ∧ unicodeToUpper t c ≤ 'z') ∧
      unicodeToUpper t (unicodeToUpper t c) = unicodeToUpper t c := by
    intro c hc
    obtain ⟨c0, hc0, rfl⟩ := List.mem_map.mp hc
    by_cases hd : c0 = '-'
    · simp only [hd, if_true]
      exact unicodeToUpper_facts t '_' (by decide) (fun hh => absurd hh (by decide))
    · simp only [hd, if_false]
      exact unicodeToUpper_facts t c0 hd (h c0 hc0)
  rw [ToUpper_eq_map, ReplaceAll_char]
  have hnd : '-' ∉ (name.map (fun c => if c = '-' then '_' else c)).map (unicodeToUpper t) := by
    intro hm
    obtain ⟨c, hc, e⟩ := List.mem_map.mp hm
    exact (hfacts c hc).1 e
  refine ⟨hnd, ?_, ?_⟩
  · intro c hm
    obtain ⟨c1, hc1, rfl⟩ := List.mem_map.mp hm
    exact (hfacts c1 hc1).2.1
  · rw [ToUpper_eq_map, ReplaceAll_char]
    have e1 : ((name.map (fun c => if c = '-' then '_' else c)).map (unicodeToUpper t)).map
        (fun c => if c = '-' then '_' else c)
        = (name.map (fun c => if c = '-' then '_' else c)).map (unicodeToUpper t) := by
      conv => rhs; rw [← List.map_id ((name.map (fun c => if c = '-' then '_' else c)).map
        (unicodeToUpper t))]
      apply List.map_congr_left
      intro c hc
      have : c ≠ '-' := fun e => hnd (e ▸ hc)
      simp [this]
    rw [e1, List.map_map]
    apply List.map_congr_left
    intro c hc
    exact (hfacts c hc).2.2

/-- C23 (counterexample). With `ProjectName` set and the pointer `DbtRepo`
nil, `AsMap` panics: it returns no map, so there is no entry
`ProjectEnvPrefix`. -/
theorem C23_counterexample :
    SPAParams.AsMap idTables
      ⟨some "example-spa".toList, some [], some [], some [], some [], some [], some [], some [],
        some [], none⟩ = none := by
  decide

/-- C23 (amended). When `SPAParams.AsMap` returns, the entry `ProjectEnvPrefix` is
`ProjectName` with every dash replaced by an underscore and then upper-cased.
It has as many characters as the name.  For a name of ASCII characters, and
for every name when the case tables satisfy `upperStable` above ASCII, it
contains no dash and no lower-case ASCII letter and the same transformation
leaves it unchanged.  On ASCII names the transformation maps every character
by itself. -/
theorem C23_environment_entry (t : CaseTables) (p : SPAParams)
    (h : (SPAParams.AsMap t p).isSome = true) :
    ∃ name d, p.ProjectName = some name ∧ SPAParams.AsMap t p = some (d, none) ∧
      d.get "ProjectEnvPrefix".toList = some (ToUpper t (ReplaceAll name ['-'] ['_'])) ∧
      (ToUpper t (ReplaceAll name ['-'] ['_'])).length = name.length ∧
      (isASCII name = true →
        ToUpper t (ReplaceAll name ['-'] ['_'])
          = name.map (fun c => asciiUpper (if c = '-' then '_' else c))) ∧
      (isASCII name = true ∨ (∀ c, 127 < c.toNat → upperStable t c) →
        '-' ∉ ToUpper t (ReplaceAll name ['-'] ['_']) ∧
        (∀ c ∈ ToUpper t (ReplaceAll name ['-'] ['_']), ¬ ('a' ≤ c ∧ c ≤ 'z')) ∧
        ToUpper t (ReplaceAll (ToUpper t (ReplaceAll name ['-'] ['_'])) ['-'] ['_'])
          = ToUpper t (ReplaceAll name ['-'] ['_'])) := by
  cases hr : SPAParams.AsMap t p with
  | none => rw [hr] at h; simp at h
  | some r =>
    obtain ⟨d, e⟩ := r
    obtain ⟨name, h1, h2, _, h4⟩ := SPAParams_AsMap_some t p d e hr
    subst h2
    refine ⟨name, d, h1, rfl, h4, ?_, ?_, ?_⟩
    · rw [ToUpper_eq_map, ReplaceAll_char]; simp
    · intro ha
      rw [ToUpper_eq_map, ReplaceAll_char, List.map_map]
      apply List.map_congr_left
      intro c hc
      have hc1 : c.toNat < 128 := by
        simp only [isASCII, List.all_eq_true, decide_eq_true_eq] at ha
        exact ha c hc
      simp only [Function.comp]
      unfold unicodeToUpper
      by_cases hd : c = '-'
      · simp only [hd, if_true]
        rw [if_pos (by decide)]
      · simp only [hd, if_false]
        rw [if_pos (by omega)]
    · intro hor
      apply envPrefix_facts
      intro c hc hbig
      rcases hor with ha | ht
      · exfalso
        simp only [isASCII, List.all_eq_true, decide_eq_true_eq] at ha
        have := ha c hc
        omega
      · exact ht c hbig

/-- Witness for C23: `example-spa` gives `EXAMPLE_SPA`. -/
theorem C23_environment_entry_witness :
    (SPAParams.AsMap idTables (spaParamsNamed "example-spa".toList)).isSome = true ∧
    (∃ name d, (spaParamsNamed "example-spa".toList).ProjectName = some name ∧
      SPAParams.AsMap idTables (spaParamsNamed "example-spa".toList) = some (d, none) ∧
      d.get "ProjectEnvPrefix".toList = some (ToUpper idTables (ReplaceAll name ['-'] ['_']))) ∧
    ToUpper idTables (ReplaceAll "example-spa".toList ['-'] ['_']) = "EXAMPLE_SPA".toList :=
  ⟨by decide,
    (C23_environment_entry idTables (spaParamsNamed "example-spa".toList) (by decide)).imp
      (fun _ hn => hn.imp (fun _ hd => ⟨hd.1, hd.2.1, hd.2.2.1⟩)),
    by decide⟩

/-! ## Lemmas: a file whose content does not resolve -/

theorem WriteFileTemplateData_unresolved {σ : Type} (w : TmplWriter σ) (fp : FilePath)
    (destDir : Str) (wd : World σ) (e : GoError)
    (hres : ResolveFileTemplateData w fp = .error e)
    (hcreate : (w.OutFs.Create wd.fs (destDir ++ '/' :: fp.TemplPath)).2 = none) :
    WriteFileTemplateData w fp destDir wd =
      (⟨(w.OutFs.Close (w.OutFs.Create wd.fs (destDir ++ '/' :: fp.TemplPath)).1
          (destDir ++ '/' :: fp.TemplPath)).1,
        wd.ops ++ [.Create (destDir ++ '/' :: fp.TemplPath),
          .Close (destDir ++ '/' :: fp.TemplPath)]⟩,
        .err (.errorf "failed to exec template: ".toList e [])) := by
  unfold WriteFileTemplateData writeOpenedFile
  simp only [World.Create, World.Close, hres]
  rcases hc : w.OutFs.Create wd.fs (destDir ++ '/' :: fp.TemplPath) with ⟨s1, oe⟩
  rw [hc] at hcreate
  simp only [] at hcreate
  subst hcreate
  simp

theorem WriteFileTemplateData_unresolved_err {σ : Type} (w : TmplWriter σ) (fp : FilePath)
    (destDir : Str) (wd : World σ) (e : GoError)
    (hres : ResolveFileTemplateData w fp = .error e) :
    ∃ e1, (WriteFileTemplateData w fp destDir wd).2 = .err e1 := by
  cases hc : (w.OutFs.Create wd.fs (destDir ++ '/' :: fp.TemplPath)).2 with
  | none =>
    rw [WriteFileTemplateData_unresolved w fp destDir wd e hres hc]
    exact ⟨_, rfl⟩
  | some e0 =>
    unfold WriteFileTemplateData
    simp only [World.Create]
    rcases hc1 : w.OutFs.Create wd.fs (destDir ++ '/' :: fp.TemplPath) with ⟨s1, oe⟩
    rw [hc1] at hc
    simp only [] at hc
    subst hc
    exact ⟨_, rfl⟩

/-- C28 (counterexample). The content of `bad.go` does not resolve and its
destination is a directory of the disk: `Create` fails, the call returns that
error, and there is no empty file at the destination. -/
theorem C28_counterexample :
    ResolveFileTemplateData (brokenWriter []) badNode
      = .error (.errorf "cannot execute template with file(t/bad.go): ".toList
          (.errorf "path parsing error: ".toList (.template .unclosedAction) []) []) ∧
    (WriteFileTemplateData (brokenWriter []) badNode "/out".toList dirDisk).2
      = .err (.errorf "failed to create file(/out/bad.go): ".toList
          (.lib "is a directory".toList) []) ∧
    DiskFs.content (WriteFileTemplateData (brokenWriter []) badNode "/out".toList dirDisk).1.fs
      "/out/bad.go".toList ≠ some [] := by
  decide

/-- C28 (amended). When the content of a file node does not resolve,
`WriteFileTemplateData` returns an error.  When moreover `Create` succeeded at
the destination, the error is the resolution error wrapped, the calls made
are that `Create` and the deferred `Close` and no `Write`, and under the
contract of the output filesystem the destination is then an empty file,
whatever it held before. -/
theorem C28_truncated_before_resolution {σ : Type} (w : TmplWriter σ) (C : FsContract w.OutFs)
    (fp : FilePath) (destDir : Str) (wd : World σ) (e : GoError)
    (hres : ResolveFileTemplateData w fp = .error e) :
    (∃ e1, (WriteFileTemplateData w fp destDir wd).2 = .err e1) ∧
    ((w.OutFs.Create wd.fs (destDir ++ '/' :: fp.TemplPath)).2 = none →
      (WriteFileTemplateData w fp destDir wd).2
        = .err (.errorf "failed to exec template: ".toList e []) ∧
      (WriteFileTemplateData w fp destDir wd).1.ops
        = wd.ops ++ [.Create (destDir ++ '/' :: fp.TemplPath),
            .Close (destDir ++ '/' :: fp.TemplPath)] ∧
      C.content (WriteFileTemplateData w fp destDir wd).1.fs (destDir ++ '/' :: fp.TemplPath)
        = some []) := by
  refine ⟨WriteFileTemplateData_unresolved_err w fp destDir wd e hres, ?_⟩
  intro hcreate
  rw [WriteFileTemplateData_unresolved w fp destDir wd e hres hcreate]
  refine ⟨rfl, rfl, ?_⟩
  show C.content (w.OutFs.Close _ _).1 _ = _
  rw [C.close_keeps]
  exact C.create_makes _ _ hcreate

/-- Witness for C28: `bad.go` written over an existing file of the disk. -/
theorem C28_truncated_before_resolution_witness :
    ResolveFileTemplateData (brokenWriter []) badNode
      = .error (.errorf "cannot execute template with file(t/bad.go): ".toList
          (.errorf "path parsing error: ".toList (.template .unclosedAction) []) []) ∧
    DiskFs.content oldDisk.fs "/out/bad.go".toList = some "package old".toList ∧
    (WriteFileTemplateData (brokenWriter []) badNode "/out".toList oldDisk).2
      = .err badContentError ∧
    DiskFs.content (WriteFileTemplateData (brokenWriter []) badNode "/out".toList oldDisk).1.fs
      "/out/bad.go".toList = some [] :=
  have h := C28_truncated_before_resolution (brokenWriter []) DiskFs.contract.toFsContract badNode
    "/out".toList oldDisk _ (by decide : ResolveFileTemplateData (brokenWriter []) badNode
      = .error (.errorf "cannot execute template with file(t/bad.go): ".toList
          (.errorf "path parsing error: ".toList (.template .unclosedAction) []) []))
  ⟨by decide, by decide, (h.2 (by decide)).1, (h.2 (by decide)).2.2⟩

/-! ## A failing write stops the run -/

/-- C19 (counterexample). Two file nodes resolve to the same destination; the
first is written, the second fails after `Create` because its content does
not resolve.  `WriteAllDestFileTemplateData` returns an error, and the file of
the earlier node no longer has its final content: it is empty. -/
theorem C19_counterexample :
    (WriteFileTemplateData
        (brokenWriter [⟨"t/good.go".toList, "good.go".toList, "x.go".toList, "x.go".toList, false⟩,
          ⟨"t/bad.go".toList, "bad.go".toList, "x.go".toList, "x.go".toList, false⟩])
        ⟨"t/good.go".toList, "good.go".toList, "x.go".toList, "x.go".toList, false⟩
        "/out".toList emptyDisk).2 = .nil ∧
    DiskFs.content
      (WriteFileTemplateData
        (brokenWriter [⟨"t/good.go".toList, "good.go".toList, "x.go".toList, "x.go".toList, false⟩,
          ⟨"t/bad.go".toList, "bad.go".toList, "x.go".toList, "x.go".toList, false⟩])
        ⟨"t/good.go".toList, "good.go".toList, "x.go".toList, "x.go".toList, false⟩
        "/out".toList emptyDisk).1.fs "/out/x.go".toList = some "package good".toList ∧
    (WriteAllDestFileTemplateData
        (brokenWriter [⟨"t/good.go".toList, "good.go".toList, "x.go".toList, "x.go".toList, false⟩,
          ⟨"t/bad.go".toList, "bad.go".toList, "x.go".toList, "x.go".toList, false⟩])
        "/out".toList emptyDisk).2 ≠ .nil ∧
    DiskFs.content
      (WriteAllDestFileTemplateData
        (brokenWriter [⟨"t/good.go".toList, "good.go".toList, "x.go".toList, "x.go".toList, false⟩,
          ⟨"t/bad.go".toList, "bad.go".toList, "x.go".toList, "x.go".toList, false⟩])
        "/out".toList emptyDisk).1.fs "/out/x.go".toList = some [] := by
  decide

/-- C19 (amended). If `WriteFileTemplateData` fails for a file node reached
after the nodes `pre`, `WriteAllDestFileTemplateData` returns that error
wrapped, and so does `BuildProject`, without visiting the later nodes: the
only calls made after those for `pre` are the failing node's own `Create`,
`Write` and `Close` at its destination.  This holds on every output
filesystem.  On a filesystem with the frame property, every path that names
another file than that destination has the content it had when the nodes
`pre` were done.  The destination itself is truncated: when the failing
node's `Create` succeeded and its content does not resolve, the file there is
left empty. -/
theorem C19_write_failure_stops {σ : Type} (w : TmplWriter σ)
    (destDir : Str) (wd : World σ) (pre : List FilePath) (fp : FilePath) (post : List FilePath)
    (e : GoError) (hfps : w.FilePaths = pre ++ fp :: post)
    (hpre : (rangeWorld (writeDestFile w destDir) pre wd).2 = .nil) (hdir : fp.IsDir = false)
    (hfail : (WriteFileTemplateData w fp destDir (rangeWorld (writeDestFile w destDir) pre wd).1).2
      = .err e) :
    WriteAllDestFileTemplateData w destDir wd =
        ((WriteFileTemplateData w fp destDir (rangeWorld (writeDestFile w destDir) pre wd).1).1,
          .err (.errorf ("writing file(".toList ++ fp.TemplName ++ ") failed: ".toList) e [])) ∧
      (∃ ops, (WriteAllDestFileTemplateData w destDir wd).1.ops
          = (rangeWorld (writeDestFile w destDir) pre wd).1.ops ++ ops ∧
        ∀ o ∈ ops, isFileOp (destDir ++ '/' :: fp.TemplPath) o) ∧
      (∀ (w0 : TmplWriter σ) (wd0 : World σ) (fps1 : List FilePath),
        { w0 with FilePaths := w.FilePaths } = w →
        ResolveAllPathTemplates w0 = (fps1, .nil) →
        fixGoModTemplPaths { w0 with FilePaths := fps1 } = (w.FilePaths, .nil) →
        CreateAllFilePathsAtRoot w destDir wd0 = (wd, .nil) →
        (BuildProject w0 destDir wd0).2 = WriteAllDestFileTemplateData w destDir wd) ∧
      (∀ (C : FsFrameContract w.OutFs) (q : Str), ¬ C.same q (destDir ++ '/' :: fp.TemplPath) →
        C.content (WriteAllDestFileTemplateData w destDir wd).1.fs q
          = C.content (rangeWorld (writeDestFile w destDir) pre wd).1.fs q) ∧
      (∀ (C : FsContract w.OutFs) (e0 : GoError), ResolveFileTemplateData w fp = .error e0 →
        (w.OutFs.Create (rangeWorld (writeDestFile w destDir) pre wd).1.fs
          (destDir ++ '/' :: fp.TemplPath)).2 = none →
        C.content (WriteAllDestFileTemplateData w destDir wd).1.fs (destDir ++ '/' :: fp.TemplPath)
          = some []) := by
  have hmain : WriteAllDestFileTemplateData w destDir wd =
      ((WriteFileTemplateData w fp destDir (rangeWorld (writeDestFile w destDir) pre wd).1).1,
        .err (.errorf ("writing file(".toList ++ fp.TemplName ++ ") failed: ".toList) e [])) := by
    unfold WriteAllDestFileTemplateData
    rw [hfps, rangeWorld_stops (writeDestFile w destDir) pre fp post wd hpre
      (by rw [writeDestFile_err w destDir fp _ e hdir hfail]; simp)]
    exact writeDestFile_err w destDir fp _ e hdir hfail
  refine ⟨hmain, ?_, ?_, ?_, ?_⟩
  · rw [hmain]
    obtain ⟨l, hl, hl2, _⟩ := WriteFileTemplateData_ops w fp destDir
      (rangeWorld (writeDestFile w destDir) pre wd).1
    refine ⟨_, hl, ?_⟩
    intro o ho
    rcases List.mem_cons.mp ho with ho | ho
    · exact Or.inl ho
    · exact Or.inr (hl2 o ho)
  · intro w0 wd0 fps1 hw h1 h2 h3
    rw [← hw] at h3 ⊢
    exact BuildProject_write_phase w0 destDir wd0 wd fps1 w.FilePaths h1 h2 h3
  · intro C q hq
    rw [hmain]
    exact WriteFileTemplateData_keeps w
      (fun s => C.content s q = C.content (rangeWorld (writeDestFile w destDir) pre wd).1.fs q)
      fp destDir
      (fun s hs => (C.create_other s _ q hq).trans hs)
      (fun s data hs => (C.write_other s _ data q hq).trans hs)
      (fun s hs => (C.close_keeps s _ q).trans hs) _ rfl
  · intro C e0 hres hcreate
    rw [hmain, WriteFileTemplateData_unresolved w fp destDir _ e0 hres hcreate]
    show C.content (w.OutFs.Close _ _).1 _ = _
    rw [C.close_keeps]
    exact C.create_makes _ _ hcreate

/-- Witness for C19: `bad.go` fails between `good.go` and `late.go`. -/
theorem C19_write_failure_stops_witness :
    ((brokenWriter [goodNode, badNode, lateNode]).FilePaths = [goodNode] ++ badNode :: [lateNode] ∧
      (rangeWorld (writeDestFile (brokenWriter [goodNode, badNode, lateNode]) "/out".toList)
        [goodNode] emptyDisk).2 = .nil ∧
      badNode.IsDir = false ∧
      (WriteFileTemplateData (brokenWriter [goodNode, badNode, lateNode]) badNode "/out".toList
        (rangeWorld (writeDestFile (brokenWriter [goodNode, badNode, lateNode]) "/out".toList)
          [goodNode] emptyDisk).1).2 = .err badContentError) ∧
    (WriteAllDestFileTemplateData (brokenWriter [goodNode, badNode, lateNode]) "/out".toList
        emptyDisk).2
      = .err (.errorf "writing file(bad.go) failed: ".toList badContentError []) ∧
    DiskFs.content (WriteAllDestFileTemplateData (brokenWriter [goodNode, badNode, lateNode])
        "/out".toList emptyDisk).1.fs "/out/good.go".toList = some "package good".toList ∧
    DiskFs.content (WriteAllDestFileTemplateData (brokenWriter [goodNode, badNode, lateNode])
        "/out".toList emptyDisk).1.fs "/out/late.go".toList = none ∧
    DiskFs.content (WriteAllDestFileTemplateData (brokenWriter [goodNode, badNode, lateNode])
        "/out".toList emptyDisk).1.fs "/out/bad.go".toList = some [] :=
  have h := C19_write_failure_stops (brokenWriter [goodNode, badNode, lateNode])
    "/out".toList emptyDisk [goodNode] badNode [lateNode] badContentError rfl (by decide) rfl
    (by decide)
  ⟨⟨rfl, by decide, rfl, by decide⟩, (congrArg Prod.snd h.1).trans rfl,
    (h.2.2.2.1 DiskFs.contract "/out/good.go".toList
      (by decide : ¬ "/out/good.go".toList = "/out".toList ++ '/' :: badNode.TemplPath)).trans
      (by decide),
    (h.2.2.2.1 DiskFs.contract "/out/late.go".toList
      (by decide : ¬ "/out/late.go".toList = "/out".toList ++ '/' :: badNode.TemplPath)).trans
      (by decide),
    h.2.2.2.2 DiskFs.contract.toFsContract
      (.errorf "cannot execute template with file(t/bad.go): ".toList
        (.errorf "path parsing error: ".toList (.template .unclosedAction) []) [])
      (by decide) (by decide)⟩

/-! ## Lemmas: the last write to a path -/

theorem rangeWorld_append_nil {σ : Type} (body : FilePath → World σ → World σ × Outcome) :
    ∀ (l1 l2 : List FilePath) (wd : World σ), (rangeWorld body (l1 ++ l2) wd).2 = .nil →
      (rangeWorld body l1 wd).2 = .nil ∧
        rangeWorld body (l1 ++ l2) wd = rangeWorld body l2 (rangeWorld body l1 wd).1 := by
  intro l1
  induction l1 with
  | nil => intro l2 wd _; exact ⟨rfl, rfl⟩
  | cons a rest ih =>
    intro l2 wd h
    rw [List.cons_append, rangeWorld_cons] at h
    rw [List.cons_append, rangeWorld_cons, rangeWorld_cons]
    by_cases hb : (body a wd).2 = .nil
    · rw [if_pos hb] at h ⊢
      rw [if_pos hb]
      exact ih l2 _ h
    · rw [if_neg hb] at h
      exact absurd h hb

theorem rangeWorld_keeps_mem {σ : Type} (body : FilePath → World σ → World σ × Outcome)
    (Q : World σ → Prop) :
    ∀ (l : List FilePath), (∀ fp ∈ l, ∀ wd, Q wd → Q (body fp wd).1) →
      ∀ (wd : World σ), Q wd → Q (rangeWorld body l wd).1 := by
  intro l
  induction l with
  | nil => intro _ wd h; exact h
  | cons a rest ih =>
    intro hk wd h
    rw [rangeWorld_cons]
    split
    · exact ih (fun fp hfp => hk fp (List.mem_cons_of_mem _ hfp)) _
        (hk a (List.mem_cons_self _ _) wd h)
    · exact hk a (List.mem_cons_self _ _) wd h

/-- In a write loop that returns `nil`, the file of a node holds the node's
shaped content at the end when no later file node has a destination that names
the same file. -/
theorem rangeWorld_last_write {σ : Type} (w : TmplWriter σ) (C : FsFrameContract w.OutFs)
    (destDir : Str) (pre : List FilePath) (fp : FilePath) (post : List FilePath) (wd : World σ)
    (hnil : (rangeWorld (writeDestFile w destDir) (pre ++ fp :: post) wd).2 = .nil)
    (hfile : fp.IsDir = false)
    (hlast : ∀ g ∈ post, g.IsDir = false →
      ¬ C.same (destDir ++ '/' :: fp.TemplPath) (destDir ++ '/' :: g.TemplPath)) :
    ∃ buf data, ResolveFileTemplateData w fp = .ok buf ∧ removeBuildExclusions w buf = .ok data ∧
      C.content (rangeWorld (writeDestFile w destDir) (pre ++ fp :: post) wd).1.fs
        (destDir ++ '/' :: fp.TemplPath) = some data := by
  obtain ⟨_, h2⟩ := rangeWorld_append_nil (writeDestFile w destDir) pre (fp :: post) wd hnil
  rw [h2] at hnil ⊢
  rw [rangeWorld_cons] at hnil ⊢
  by_cases hb : (writeDestFile w destDir fp (rangeWorld (writeDestFile w destDir) pre wd).1).2 = .nil
  · rw [if_pos hb] at hnil ⊢
    obtain ⟨buf, data, g1, g2, g3⟩ := WriteFileTemplateData_content w C.toFsContract fp destDir _
      (writeDestFile_nil w destDir fp _ hfile hb)
    refine ⟨buf, data, g1, g2, ?_⟩
    apply rangeWorld_keeps_mem (writeDestFile w destDir)
      (fun wd0 => C.content wd0.fs (destDir ++ '/' :: fp.TemplPath) = some data) post
    · intro g hg wd0 hq
      rw [writeDestFile_fst]
      by_cases hd : g.IsDir = true
      · rw [if_pos hd]; exact hq
      · rw [if_neg hd]
        have hne : ¬ C.same (destDir ++ '/' :: fp.TemplPath) (destDir ++ '/' :: g.TemplPath) :=
          hlast g hg (by simpa using hd)
        exact WriteFileTemplateData_keeps w
          (fun s => C.content s (destDir ++ '/' :: fp.TemplPath) = some data) g destDir
          (fun s hs => (C.create_other s _ _ hne).trans hs)
          (fun s dat hs => (C.write_other s _ dat _ hne).trans hs)
          (fun s hs => (C.close_keeps s _ _).trans hs) wd0 hq
    · rw [writeDestFile_fst, hfile]
      simp only [Bool.false_eq_true, if_false]
      exact g3
  · rw [if_neg hb] at hnil
    exact absurd hnil hb

/-- C29 (counterexample). On a disk that resolves paths the nodes of
`aliasFS` resolve to `x.go`, `x.go` and `./x.go`.  `BuildProject` returns
`nil`; of the two nodes with the same `TemplPath` the later one has the shaped
content `package second`, and the file at `/out/x.go` holds `package third`,
the content of the node written after them. -/
theorem C29_counterexample :
    GetFilePaths aliasFS "t".toList = .ok aliasNodes ∧
    (BuildProject aliasWriter "/out".toList emptyDisk).2.2 = .nil ∧
    (BuildProject aliasWriter "/out".toList emptyDisk).1 = aliasResolved ∧
    aliasResolved.map (·.TemplPath) = ["x.go".toList, "x.go".toList, "./x.go".toList] ∧
    ResolveFileTemplateData aliasWriter
        ⟨"t/".toList ++ placeholder "B".toList, placeholder "B".toList, "x.go".toList,
          "x.go".toList, false⟩ = .ok "package second".toList ∧
    removeBuildExclusions aliasWriter "package second".toList = .ok "package second".toList ∧
    CleanFs.content (BuildProject aliasWriter "/out".toList emptyDisk).2.1.fs "/out/x.go".toList
      = some "package third".toList := by
  decide

/-- C29 (amended). Under the contract of the output filesystem with the
frame property, when `BuildProject` returns `nil` the destination of a file
node holds the shaped content of that node whenever no later file node has a
destination that names the same file.  So does every path that names the same
file, in particular the destination of an earlier node with the same
`TemplPath`: among the nodes whose destinations name one file the last one in
`FilePaths` order determines the content, and the run does not fail because of
the collision. -/
theorem C29_last_write_wins {σ : Type} (w : TmplWriter σ) (C : FsFrameContract w.OutFs)
    (destDir : Str) (wd : World σ) (pre : List FilePath) (fp : FilePath) (post : List FilePath)
    (h : (BuildProject w destDir wd).2.2 = .nil)
    (hsplit : (BuildProject w destDir wd).1 = pre ++ fp :: post)
    (hfile : fp.IsDir = false)
    (hlast : ∀ g ∈ post, g.IsDir = false →
      ¬ C.same (destDir ++ '/' :: fp.TemplPath) (destDir ++ '/' :: g.TemplPath)) :
    ∃ file bytes resolved data, w.TemplFs.Open fp.Path = .ok file ∧ ReadAll file = .ok bytes ∧
      ResolveTemplateVars w bytes = .ok resolved ∧ removeBuildExclusions w resolved = .ok data ∧
      C.content (BuildProject w destDir wd).2.1.fs (destDir ++ '/' :: fp.TemplPath) = some data ∧
      (∀ q, C.same q (destDir ++ '/' :: fp.TemplPath) →
        C.content (BuildProject w destDir wd).2.1.fs q = some data) ∧
      (∀ g ∈ pre, g.TemplPath = fp.TemplPath →
        C.content (BuildProject w destDir wd).2.1.fs (destDir ++ '/' :: g.TemplPath) = some data) := by
  obtain ⟨fps1, fps2, wd1, _, _, _, b4, b5⟩ := BuildProject_nil w destDir wd h
  rw [b5] at hsplit ⊢
  simp only [] at hsplit ⊢
  subst hsplit
  obtain ⟨buf, data, g1, g2, g3⟩ := rangeWorld_last_write
    { w with FilePaths := pre ++ fp :: post } C destDir pre fp post wd1 b4 hfile hlast
  obtain ⟨file, bytes, f1, f2, f3⟩ := ResolveFileTemplateData_ok _ fp buf g1
  refine ⟨file, bytes, buf, data, f1, f2, f3, g2, g3, ?_, ?_⟩
  · intro q hq
    rw [C.content_same _ _ q hq]
    exact g3
  · intro g _ hg
    rw [hg]
    exact g3

/-- Witness for C29: on the path-resolving disk the node that resolves to
`./x.go` is the last whose destination names `/out/x.go`; the file holds its
content, `package third`. -/
theorem C29_last_write_wins_witness :
    ((BuildProject aliasWriter "/out".toList emptyDisk).2.2 = .nil ∧
      (BuildProject aliasWriter "/out".toList emptyDisk).1
        = aliasResolved.take 2 ++ aliasThird :: []) ∧
    (∃ file bytes resolved data, aliasWriter.TemplFs.Open aliasThird.Path = .ok file ∧
      ReadAll file = .ok bytes ∧ ResolveTemplateVars aliasWriter bytes = .ok resolved ∧
      removeBuildExclusions aliasWriter resolved = .ok data ∧
      CleanFs.contract.content (BuildProject aliasWriter "/out".toList emptyDisk).2.1.fs
        ("/out".toList ++ '/' :: aliasThird.TemplPath) = some data ∧
      (∀ q, CleanFs.contract.same q ("/out".toList ++ '/' :: aliasThird.TemplPath) →
        CleanFs.contract.content (BuildProject aliasWriter "/out".toList emptyDisk).2.1.fs q
          = some data) ∧
      (∀ g ∈ aliasResolved.take 2, g.TemplPath = aliasThird.TemplPath →
        CleanFs.contract.content (BuildProject aliasWriter "/out".toList emptyDisk).2.1.fs
          ("/out".toList ++ '/' :: g.TemplPath) = some data)) ∧
    CleanFs.contract.same "/out/x.go".toList ("/out".toList ++ '/' :: aliasThird.TemplPath) ∧
    CleanFs.content (BuildProject aliasWriter "/out".toList emptyDisk).2.1.fs "/out/x.go".toList
      = some "package third".toList :=
  ⟨⟨by decide, by decide⟩,
    C29_last_write_wins aliasWriter CleanFs.contract "/out".toList emptyDisk
      (aliasResolved.take 2) aliasThird [] (by decide) (by decide) rfl (by simp),
    (by decide : Clean "/out/x.go".toList = Clean ("/out".toList ++ '/' :: aliasThird.TemplPath)),
    by decide⟩

/-! ## Lemmas: the texts of the errors -/

theorem Contains_middle (sub : Str) : ∀ (a b : Str), Contains (a ++ (sub ++ b)) sub = true := by
  intro a
  induction a with
  | nil =>
    intro b
    unfold Contains
    cases sub with
    | nil => cases b <;> simp [Index]
    | cons c t => rw [List.nil_append, Index_self_append (c :: t) b (by simp)]; rfl
  | cons c a ih =>
    intro b
    have := ih b
    unfold Contains at this ⊢
    rw [List.cons_append, Index_cons]
    split
    · rfl
    · cases h : Index sub (a ++ (sub ++ b)) with
      | none => rw [h] at this; simp at this
      | some i => rfl

theorem Contains_errorf_pre (text : TemplateError → Str) (a sub b : Str) (inner : GoError)
    (post : Str) :
    Contains (GoError.Error text (.errorf (a ++ sub ++ b) inner post)) sub = true := by
  have : GoError.Error text (.errorf (a ++ sub ++ b) inner post)
      = a ++ (sub ++ (b ++ GoError.Error text inner ++ post)) := by
    simp [GoError.Error]
  rw [this]
  exact Contains_middle sub a _

theorem Contains_errorf_inner (text : TemplateError → Str) (pre : Str) (inner : GoError)
    (post sub : Str) (h : Contains (GoError.Error text inner) sub = true) :
    Contains (GoError.Error text (.errorf pre inner post)) sub = true := by
  unfold Contains at h
  cases hi : Index sub (GoError.Error text inner) with
  | none => rw [hi] at h; simp at h
  | some i =>
    have e := Index_spec sub _ i hi
    have : GoError.Error text (.errorf pre inner post)
        = (pre ++ (GoError.Error text inner).take i) ++
          (sub ++ ((GoError.Error text inner).drop (i + sub.length) ++ post)) := by
      conv => lhs; rw [GoError.Error, e]
      simp
    rw [this]
    exact Contains_middle sub _ _

/-! ## Lemmas: where an error of a loop comes from -/

theorem rangeFilePaths_err (body : FilePath → FilePath × Outcome) (e : GoError) :
    ∀ (l : List FilePath), (rangeFilePaths body l).2 = .err e → ∃ fp ∈ l, (body fp).2 = .err e := by
  intro l
  induction l with
  | nil => intro h; simp [rangeFilePaths] at h
  | cons a rest ih =>
    intro h
    rw [rangeFilePaths_cons] at h
    by_cases hb : (body a).2 = .nil
    · rw [if_pos hb] at h
      obtain ⟨fp, hfp, hf⟩ := ih h
      exact ⟨fp, List.mem_cons_of_mem _ hfp, hf⟩
    · rw [if_neg hb] at h
      exact ⟨a, List.mem_cons_self _ _, h⟩

theorem rangeWorld_err {σ : Type} (body : FilePath → World σ → World σ × Outcome) (e : GoError) :
    ∀ (l : List FilePath) (wd : World σ), (rangeWorld body l wd).2 = .err e →
      ∃ fp ∈ l, ∃ wd0, (body fp wd0).2 = .err e := by
  intro l
  induction l with
  | nil => intro wd h; simp [rangeWorld] at h
  | cons a rest ih =>
    intro wd h
    rw [rangeWorld_cons] at h
    by_cases hb : (body a wd).2 = .nil
    · rw [if_pos hb] at h
      obtain ⟨fp, hfp, hf⟩ := ih _ h
      exact ⟨fp, List.mem_cons_of_mem _ hfp, hf⟩
    · rw [if_neg hb] at h
      exact ⟨a, List.mem_cons_self _ _, wd, h⟩

theorem resolveFilePath_err {σ : Type} (w : TmplWriter σ) (fp : FilePath) (e : GoError)
    (h : (resolveFilePath w fp).2 = .err e) :
    (∃ inner, e = .errorf ("path resolution failure: path=".toList ++ fp.Path ++ ", err=".toList)
        inner []) ∨
    (∃ inner, e = .errorf ("name resolution failure: path=".toList ++ fp.Name ++ ", err=".toList)
        inner []) := by
  unfold resolveFilePath at h
  cases h1 : ResolveTemplateVars w fp.Path with
  | error x =>
    rw [h1] at h
    simp only [Outcome.err.injEq] at h
    exact Or.inl ⟨x, h.symm⟩
  | ok buf =>
    rw [h1] at h
    simp only [] at h
    cases h2 : stripLeadingSlash (Replace buf w.ProjDir [] 1) with
    | none => rw [h2] at h; simp at h
    | some path =>
      rw [h2] at h
      simp only [] at h
      cases h3 : ResolveTemplateVars w fp.Name with
      | error x =>
        rw [h3] at h
        simp only [Outcome.err.injEq] at h
        exact Or.inr ⟨x, h.symm⟩
      | ok buf2 =>
        rw [h3] at h
        simp only [] at h
        cases h4 : stripLeadingSlash (Replace buf2 w.ProjDir [] 1) with
        | none => rw [h4] at h; simp at h
        | some name => rw [h4] at h; simp at h

theorem fixGoModFilePath_no_err (fp : FilePath) (e : GoError) :
    (fixGoModFilePath fp).2 ≠ .err e := by
  unfold fixGoModFilePath
  split
  · cases sliceDropLast fp.TemplPath with
    | none => simp
    | some path =>
      cases sliceDropLast fp.TemplName with
      | none => simp
      | some name => simp
  · simp

theorem createFilePathAtRoot_err {σ : Type} (w : TmplWriter σ) (root : Str) (fp : FilePath)
    (wd : World σ) (e : GoError) (h : (createFilePathAtRoot w root fp wd).2 = .err e) :
    ∃ inner, e = .errorf ("failed to create file(".toList ++ fp.TemplPath ++ "): err(".toList)
      inner [')'] := by
  unfold createFilePathAtRoot at h
  rcases hc : CreatePath w root fp.TemplPath fp.IsDir wd with ⟨wd1, o⟩
  rw [hc] at h
  cases o with
  | nil => simp at h
  | panic => simp at h
  | err x =>
    simp only [Outcome.err.injEq] at h
    exact ⟨x, h.symm⟩

theorem ResolveFileTemplateData_err {σ : Type} (w : TmplWriter σ) (fp : FilePath) (x : GoError)
    (h : ResolveFileTemplateData w fp = .error x) :
    ∃ a b inner post, x = .errorf (a ++ fp.Path ++ b) inner post := by
  unfold ResolveFileTemplateData at h
  cases h1 : w.TemplFs.Open fp.Path with
  | error y =>
    rw [h1] at h
    simp only [Except.error.injEq] at h
    exact ⟨_, _, y, _, h.symm⟩
  | ok file =>
    rw [h1] at h
    simp only [] at h
    cases h2 : ReadAll file with
    | error y =>
      rw [h2] at h
      simp only [Except.error.injEq] at h
      exact ⟨_, _, y, _, h.symm⟩
    | ok data =>
      rw [h2] at h
      simp only [] at h
      cases h3 : ResolveTemplateVars w data with
      | error y =>
        rw [h3] at h
        simp only [Except.error.injEq] at h
        exact ⟨_, _, y, _, h.symm⟩
      | ok buf => rw [h3] at h; simp at h

/-- The errors of `WriteFileTemplateData`. -/
theorem WriteFileTemplateData_err {σ : Type} (w : TmplWriter σ) (fp : FilePath) (destDir : Str)
    (wd : World σ) (e : GoError) (h : (WriteFileTemplateData w fp destDir wd).2 = .err e) :
    (∃ x, e = .errorf ("failed to create file(".toList ++ (destDir ++ '/' :: fp.TemplPath) ++
        "): ".toList) x []) ∨
    (∃ x, ResolveFileTemplateData w fp = .error x ∧
      e = .errorf "failed to exec template: ".toList x []) ∨
    (∃ x, e = .errorf ("cannot write file(".toList ++ (destDir ++ '/' :: fp.TemplPath) ++
        ") bytes: ".toList) x []) ∨
    (∃ len n : Nat, n ≠ len ∧ e = .new ("wrong number of bytes written: exp(".toList ++
        (toString len).toList ++ ") act(".toList ++ (toString n).toList ++ [')'])) := by
  unfold WriteFileTemplateData at h
  simp only [] at h
  rcases hc : World.Create w.OutFs wd (destDir ++ '/' :: fp.TemplPath) with ⟨wd1, oe⟩
  rw [hc] at h
  cases oe with
  | some x =>
    simp only [Outcome.err.injEq] at h
    exact Or.inl ⟨x, h.symm⟩
  | none =>
    simp only [] at h
    unfold writeOpenedFile at h
    cases h1 : ResolveFileTemplateData w fp with
    | error x =>
      rw [h1] at h
      simp only [Outcome.err.injEq] at h
      exact Or.inr (Or.inl ⟨x, rfl, h.symm⟩)
    | ok buf =>
      rw [h1] at h
      simp only [] at h
      rw [removeBuildExclusions_eq] at h
      simp only [] at h
      rcases hw : World.Write w.OutFs wd1 (destDir ++ '/' :: fp.TemplPath)
        (ReplaceAll buf (resolvedMarker w.TmplVals) []) with ⟨wd2, n, oe2⟩
      rw [hw] at h
      cases oe2 with
      | some x =>
        simp only [Outcome.err.injEq] at h
        exact Or.inr (Or.inr (Or.inl ⟨x, h.symm⟩))
      | none =>
        simp only [] at h
        by_cases hn : n ≠ (ReplaceAll buf (resolvedMarker w.TmplVals) []).length
        · rw [if_pos hn] at h
          simp only [Outcome.err.injEq] at h
          exact Or.inr (Or.inr (Or.inr ⟨_, n, hn, h.symm⟩))
        · rw [if_neg hn] at h
          simp at h

theorem writeDestFile_err_shape {σ : Type} (w : TmplWriter σ) (destDir : Str) (fp : FilePath)
    (wd : World σ) (e : GoError) (h : (writeDestFile w destDir fp wd).2 = .err e) :
    fp.IsDir = false ∧ ∃ inner, (WriteFileTemplateData w fp destDir wd).2 = .err inner ∧
      e = .errorf ("writing file(".toList ++ fp.TemplName ++ ") failed: ".toList) inner [] := by
  unfold writeDestFile at h
  by_cases hd : fp.IsDir = true
  · rw [if_pos hd] at h; simp at h
  · rw [if_neg hd] at h
    refine ⟨by simpa using hd, ?_⟩
    rcases hc : WriteFileTemplateData w fp destDir wd with ⟨wd1, o⟩
    rw [hc] at h
    cases o with
    | nil => simp at h
    | panic => simp at h
    | err x =>
      simp only [Outcome.err.injEq] at h
      exact ⟨x, rfl, h.symm⟩

/-- An error returned by `BuildProject` is an error of path resolution for
one of the nodes, or an error of creating directories or of writing files for
one of the nodes as they are after resolution and un-masking. -/
theorem BuildProject_err {σ : Type} (w : TmplWriter σ) (destDir : Str) (wd : World σ)
    (e : GoError) (h : (BuildProject w destDir wd).2.2 = .err e) :
    (∃ fp ∈ w.FilePaths, (resolveFilePath w fp).2 = .err e) ∨
    (∃ fp ∈ (BuildProject w destDir wd).1, ∃ wd0,
      (createFilePathAtRoot { w with FilePaths := (BuildProject w destDir wd).1 } destDir fp wd0).2
        = .err e) ∨
    (∃ fp ∈ (BuildProject w destDir wd).1, ∃ wd0,
      (writeDestFile { w with FilePaths := (BuildProject w destDir wd).1 } destDir fp wd0).2
        = .err e) := by
  unfold BuildProject at h ⊢
  rcases hr : ResolveAllPathTemplates w with ⟨fps1, o1⟩
  rw [hr] at h
  cases o1 with
  | err x =>
    simp only [Outcome.err.injEq] at h
    subst h
    left
    apply rangeFilePaths_err (resolveFilePath w) x w.FilePaths
    unfold ResolveAllPathTemplates at hr
    rw [hr]
  | panic => simp at h
  | nil =>
    simp only [] at h ⊢
    rcases hf : fixGoModTemplPaths { w with FilePaths := fps1 } with ⟨fps2, o2⟩
    rw [hf] at h
    cases o2 with
    | err x =>
      exfalso
      unfold fixGoModTemplPaths at hf
      obtain ⟨fp, _, hfp⟩ := rangeFilePaths_err fixGoModFilePath x fps1 (by rw [hf])
      exact fixGoModFilePath_no_err fp x hfp
    | panic => simp at h
    | nil =>
      simp only [] at h ⊢
      rcases hc : CreateAllFilePathsAtRoot { w with FilePaths := fps2 } destDir wd with ⟨wd1, o3⟩
      rw [hc] at h
      cases o3 with
      | err x =>
        simp only [Outcome.err.injEq] at h
        subst h
        right; left
        unfold CreateAllFilePathsAtRoot at hc
        exact rangeWorld_err _ x fps2 wd (by rw [hc])
      | panic => simp at h
      | nil =>
        simp only [] at h ⊢
        right; right
        unfold WriteAllDestFileTemplateData at h
        exact rangeWorld_err _ e fps2 wd1 h

set_option maxRecDepth 4000 in
/-- C21 (counterexample). On a filesystem whose `Write` reports fewer bytes
than it was given and no error, `BuildProject` fails at `cmd/root.go` with a
message that names the file by `TemplName` only: the message contains neither
the `Path` nor the `TemplPath` of any node.  When the `Name` of a node does
not resolve, the message contains the `Name` and again neither `Path` nor
`TemplPath`. -/
theorem C21_counterexample :
    (BuildProject shortWriter "/tmp/out".toList ⟨(), []⟩).2.2
      = .err (.errorf "writing file(root.go) failed: ".toList
          (.new "wrong number of bytes written: exp(11) act(0)".toList) []) ∧
    GoError.Error unclosedText (.errorf "writing file(root.go) failed: ".toList
        (.new "wrong number of bytes written: exp(11) act(0)".toList) [])
      = "writing file(root.go) failed: wrong number of bytes written: exp(11) act(0)".toList ∧
    (∀ fp ∈ (BuildProject shortWriter "/tmp/out".toList ⟨(), []⟩).1,
      Contains "writing file(root.go) failed: wrong number of bytes written: exp(11) act(0)".toList
        fp.Path = false ∧
      Contains "writing file(root.go) failed: wrong number of bytes written: exp(11) act(0)".toList
        fp.TemplPath = false) ∧
    (BuildProject (writerOf [⟨"t/a.go".toList, leftDelim ++ ".Oops".toList, [], [], false⟩] demoVals)
        "/tmp/out".toList emptyWorld).2.2
      = .err (.errorf ("name resolution failure: path=".toList ++ (leftDelim ++ ".Oops".toList) ++
          ", err=".toList)
          (.errorf "path parsing error: ".toList (.template .unclosedAction) []) []) ∧
    (∀ fp ∈ (BuildProject
        (writerOf [⟨"t/a.go".toList, leftDelim ++ ".Oops".toList, [], [], false⟩] demoVals)
        "/tmp/out".toList emptyWorld).1,
      fp.Path = "t/a.go".toList ∧ fp.TemplPath = "t/a.go".toList ∧
      Contains (GoError.Error unclosedText
        (.errorf ("name resolution failure: path=".toList ++ (leftDelim ++ ".Oops".toList) ++
          ", err=".toList)
          (.errorf "path parsing error: ".toList (.template .unclosedAction) []) []))
        fp.Path = false) := by
  refine ⟨by decide, by decide, ?_, by decide, ?_⟩
  swap
  · rw [show (BuildProject
        (writerOf [⟨"t/a.go".toList, leftDelim ++ ".Oops".toList, [], [], false⟩] demoVals)
        "/tmp/out".toList emptyWorld).1
      = [⟨"t/a.go".toList, leftDelim ++ ".Oops".toList, "t/a.go".toList, [], false⟩] from by decide]
    intro fp hfp
    simp only [List.mem_singleton] at hfp
    subst hfp
    exact ⟨rfl, rfl, by decide⟩
  rw [show (BuildProject shortWriter "/tmp/out".toList ⟨(), []⟩).1
    = [⟨headlessRoot ++ '/' :: placeholder "ProjectName".toList,
          placeholder "ProjectName".toList, "demo".toList, "demo".toList, true⟩,
        ⟨headlessRoot ++ '/' :: placeholder "ProjectName".toList ++ "/cmd".toList,
          "cmd".toList, "demo/cmd".toList, "cmd".toList, true⟩,
        ⟨headlessRoot ++ '/' :: placeholder "ProjectName".toList ++ "/cmd/root.go".toList,
          "root.go".toList, "demo/cmd/root.go".toList, "root.go".toList, false⟩,
        ⟨headlessRoot ++ '/' :: placeholder "ProjectName".toList ++ "/go.mod_".toList,
          "go.mod_".toList, "demo/go.mod".toList, "go.mod".toList, false⟩] from by decide]
  intro fp hfp
  simp only [List.mem_cons, List.mem_singleton, List.not_mem_nil, or_false] at hfp
  rcases hfp with rfl | rfl | rfl | rfl <;> exact ⟨by decide, by decide⟩

/-- C21 (amended). An error returned by `BuildProject` comes from one node
and its message names that node: a path resolution error contains the node's
`Path`; a name resolution error contains its `Name`; a directory creation
error contains its `TemplPath`; an error of writing the file is wrapped with
the `TemplName` and inside contains the destination path (file creation, a
`Write` that returns an error) or the `Path` (content resolution), or, when
`Write` reports a wrong number of bytes and no error, nothing but the
`TemplName`. -/
theorem C21_error_names_node {σ : Type} (text : TemplateError → Str) (w : TmplWriter σ)
    (destDir : Str) (wd : World σ) (e : GoError)
    (h : (BuildProject w destDir wd).2.2 = .err e) :
    (∃ fp ∈ w.FilePaths,
      (∃ inner, e = .errorf ("path resolution failure: path=".toList ++ fp.Path ++ ", err=".toList)
          inner [] ∧ Contains (GoError.Error text e) fp.Path = true) ∨
      (∃ inner, e = .errorf ("name resolution failure: path=".toList ++ fp.Name ++ ", err=".toList)
          inner [] ∧ Contains (GoError.Error text e) fp.Name = true)) ∨
    (∃ fp ∈ (BuildProject w destDir wd).1,
      (∃ inner, e = .errorf ("failed to create file(".toList ++ fp.TemplPath ++ "): err(".toList)
          inner [')'] ∧ Contains (GoError.Error text e) fp.TemplPath = true) ∨
      (fp.IsDir = false ∧ ∃ inner,
        e = .errorf ("writing file(".toList ++ fp.TemplName ++ ") failed: ".toList) inner [] ∧
        ((∃ x, inner = .errorf ("failed to create file(".toList ++ (destDir ++ '/' :: fp.TemplPath) ++
              "): ".toList) x [] ∧
            Contains (GoError.Error text e) (destDir ++ '/' :: fp.TemplPath) = true) ∨
          (∃ x, ResolveFileTemplateData w fp = .error x ∧
            inner = .errorf "failed to exec template: ".toList x [] ∧
            Contains (GoError.Error text e) fp.Path = true) ∨
          (∃ x, inner = .errorf ("cannot write file(".toList ++ (destDir ++ '/' :: fp.TemplPath) ++
              ") bytes: ".toList) x [] ∧
            Contains (GoError.Error text e) (destDir ++ '/' :: fp.TemplPath) = true) ∨
          (∃ len n : Nat, n ≠ len ∧
            inner = .new ("wrong number of bytes written: exp(".toList ++ (toString len).toList ++
              ") act(".toList ++ (toString n).toList ++ [')']) ∧
            Contains (GoError.Error text e) fp.TemplName = true)))) := by
  rcases BuildProject_err w destDir wd e h with ⟨fp, hfp, hr⟩ | ⟨fp, hfp, wd0, hc⟩ | ⟨fp, hfp, wd0, hw⟩
  · left
    refine ⟨fp, hfp, ?_⟩
    rcases resolveFilePath_err w fp e hr with ⟨inner, rfl⟩ | ⟨inner, rfl⟩
    · exact Or.inl ⟨inner, rfl, Contains_errorf_pre text _ _ _ _ _⟩
    · exact Or.inr ⟨inner, rfl, Contains_errorf_pre text _ _ _ _ _⟩
  · right
    refine ⟨fp, hfp, Or.inl ?_⟩
    obtain ⟨inner, rfl⟩ := createFilePathAtRoot_err _ destDir fp wd0 e hc
    exact ⟨inner, rfl, Contains_errorf_pre text _ _ _ _ _⟩
  · right
    refine ⟨fp, hfp, Or.inr ?_⟩
    obtain ⟨hd, inner, hi, rfl⟩ := writeDestFile_err_shape _ destDir fp wd0 e hw
    refine ⟨hd, inner, rfl, ?_⟩
    rcases WriteFileTemplateData_err _ fp destDir wd0 inner hi with
      ⟨x, rfl⟩ | ⟨x, hx, rfl⟩ | ⟨x, rfl⟩ | ⟨len, n, hn, rfl⟩
    · exact Or.inl ⟨x, rfl, Contains_errorf_inner text _ _ _ _ (Contains_errorf_pre text _ _ _ _ _)⟩
    · refine Or.inr (Or.inl ⟨x, hx, rfl, ?_⟩)
      obtain ⟨a, b, y, post, rfl⟩ := ResolveFileTemplateData_err _ fp x hx
      exact Contains_errorf_inner text _ _ _ _
        (Contains_errorf_inner text _ _ _ _ (Contains_errorf_pre text _ _ _ _ _))
    · exact Or.inr (Or.inr (Or.inl
        ⟨x, rfl, Contains_errorf_inner text _ _ _ _ (Contains_errorf_pre text _ _ _ _ _)⟩))
    · exact Or.inr (Or.inr (Or.inr ⟨len, n, hn, rfl, Contains_errorf_pre text _ _ _ _ _⟩))

/-- Witness for C21: the content of `bad.go` does not resolve; the message
contains `t/bad.go`. -/
theorem C21_error_names_node_witness :
    (BuildProject badGoWriter "/out".toList emptyDisk).2.2 = .err badGoError ∧
    ((∃ fp ∈ badGoWriter.FilePaths,
      (∃ inner,
        badGoError = .errorf ("path resolution failure: path=".toList ++ fp.Path ++ ", err=".toList)
          inner [] ∧ Contains (GoError.Error unclosedText badGoError) fp.Path = true) ∨
      (∃ inner,
        badGoError = .errorf ("name resolution failure: path=".toList ++ fp.Name ++ ", err=".toList)
          inner [] ∧ Contains (GoError.Error unclosedText badGoError) fp.Name = true)) ∨
    (∃ fp ∈ (BuildProject badGoWriter "/out".toList emptyDisk).1,
      (∃ inner,
        badGoError = .errorf ("failed to create file(".toList ++ fp.TemplPath ++ "): err(".toList)
          inner [')'] ∧ Contains (GoError.Error unclosedText badGoError) fp.TemplPath = true) ∨
      (fp.IsDir = false ∧ ∃ inner,
        badGoError
          = .errorf ("writing file(".toList ++ fp.TemplName ++ ") failed: ".toList) inner [] ∧
        ((∃ x, inner = .errorf ("failed to create file(".toList ++
              ("/out".toList ++ '/' :: fp.TemplPath) ++ "): ".toList) x [] ∧
            Contains (GoError.Error unclosedText badGoError)
              ("/out".toList ++ '/' :: fp.TemplPath) = true) ∨
          (∃ x, ResolveFileTemplateData badGoWriter fp = .error x ∧
            inner = .errorf "failed to exec template: ".toList x [] ∧
            Contains (GoError.Error unclosedText badGoError) fp.Path = true) ∨
          (∃ x, inner = .errorf ("cannot write file(".toList ++
              ("/out".toList ++ '/' :: fp.TemplPath) ++ ") bytes: ".toList) x [] ∧
            Contains (GoError.Error unclosedText badGoError)
              ("/out".toList ++ '/' :: fp.TemplPath) = true) ∨
          (∃ len n : Nat, n ≠ len ∧
            inner = .new ("wrong number of bytes written: exp(".toList ++ (toString len).toList ++
              ") act(".toList ++ (toString n).toList ++ [')']) ∧
            Contains (GoError.Error unclosedText badGoError) fp.TemplName = true))))) ∧
    Contains (GoError.Error unclosedText badGoError) "t/bad.go".toList = true :=
  ⟨by decide,
    C21_error_names_node unclosedText badGoWriter "/out".toList emptyDisk badGoError (by decide),
    by decide⟩

/-! ## Lemmas: `GetFilePaths` on a template tree -/

theorem getFilePathsLoop_presents (fs : EmbedFS) :
    ∀ (f : Forest) (d : Nat) (parent : Str) (l : List EmbedFile) (acc : List FilePath),
      presentsList fs parent l f = true → f.height ≤ d →
      getFilePathsLoop (GetFilePathsFuel fs d) parent l acc = .ok (acc ++ f.preorder parent) := by
  intro f
  induction f with
  | nil =>
    intro d parent l acc hp _
    cases l with
    | nil => simp [getFilePathsLoop, Forest.preorder]
    | cons e es => simp [presentsList] at hp
  | file name rest ih =>
    intro d parent l acc hp hh
    cases l with
    | nil => simp [presentsList] at hp
    | cons e es =>
      simp only [presentsList, Bool.and_eq_true, decide_eq_true_eq, Bool.not_eq_true'] at hp
      obtain ⟨⟨hn, hd⟩, hrest⟩ := hp
      rw [getFilePathsLoop]
      simp only [hd, Bool.false_eq_true, if_false]
      rw [ih d parent es _ hrest (by simpa [Forest.height] using hh)]
      simp [Forest.preorder, hn]
  | dir name children rest ihc ihr =>
    intro d parent l acc hp hh
    cases l with
    | nil => simp [presentsList] at hp
    | cons e es =>
      simp only [presentsList, Bool.and_eq_true, decide_eq_true_eq] at hp
      obtain ⟨⟨⟨hn, hd⟩, hch⟩, hrest⟩ := hp
      simp only [Forest.height] at hh
      cases d with
      | zero => omega
      | succ d =>
        have hrec : GetFilePathsFuel fs (d + 1) (parent ++ '/' :: name)
            = .ok (children.preorder (parent ++ '/' :: name)) := by
          rw [GetFilePathsFuel]
          cases hr : fs.ReadDir (parent ++ '/' :: name) with
          | error x => rw [hr] at hch; simp at hch
          | ok l1 =>
            rw [hr] at hch
            simp only [] at hch ⊢
            rw [ihc d _ l1 [] hch (by omega)]
            simp
        rw [getFilePathsLoop]
        simp only [hd, if_true, hn, hrec]
        rw [ihr (d + 1) parent es _ hrest (by omega)]
        simp [Forest.preorder]

theorem ReadDir_ok (fs : EmbedFS) (name : Str) (l : List EmbedFile)
    (h : fs.ReadDir name = .ok l) : l = fs.filter (fun g => g.dir = name) := by
  unfold EmbedFS.ReadDir at h
  cases hl : fs.lookup name with
  | none => rw [hl] at h; simp at h
  | some f =>
    rw [hl] at h
    simp only [] at h
    split at h
    · simp only [Except.ok.injEq] at h; exact h.symm
    · simp at h

theorem countP_succ_le (p q : EmbedFile → Bool) (e : EmbedFile) :
    ∀ (l : List EmbedFile), e ∈ l → q e = true → p e = false → (∀ x, p x = true → q x = true) →
      l.countP p + 1 ≤ l.countP q := by
  intro l
  induction l with
  | nil => intro h; simp at h
  | cons a t ih =>
    intro hm hq hp himp
    rw [List.countP_cons, List.countP_cons]
    have hmono : t.countP p ≤ t.countP q := List.countP_mono_left (fun x _ => himp x)
    rcases List.mem_cons.mp hm with rfl | hm
    · simp only [hq, hp, if_true, Bool.false_eq_true, if_false]
      omega
    · have := ih hm hq hp himp
      by_cases ha : p a = true
      · simp only [ha, himp a ha, if_true]; omega
      · simp only [ha, Bool.false_eq_true, if_false]
        split <;> omega

/-- The height of a tree the filesystem holds is bounded by the number of
entries whose directory part is at least as long as the parent: each level
has an entry with a longer directory part. -/
theorem height_le_countP (fs : EmbedFS) :
    ∀ (f : Forest) (parent : Str) (l : List EmbedFile),
      presentsList fs parent l f = true → (∀ e ∈ l, e ∈ fs ∧ e.dir = parent) →
      f.height ≤ fs.countP (fun g => decide (parent.length ≤ g.dir.length)) := by
  intro f
  induction f with
  | nil => intro parent l _ _; simp [Forest.height]
  | file name rest ih =>
    intro parent l hp hl
    cases l with
    | nil => simp [presentsList] at hp
    | cons e es =>
      simp only [presentsList, Bool.and_eq_true, decide_eq_true_eq, Bool.not_eq_true'] at hp
      simp only [Forest.height]
      exact ih parent es hp.2 (fun x hx => hl x (List.mem_cons_of_mem _ hx))
  | dir name children rest ihc ihr =>
    intro parent l hp hl
    cases l with
    | nil => simp [presentsList] at hp
    | cons e es =>
      simp only [presentsList, Bool.and_eq_true, decide_eq_true_eq] at hp
      obtain ⟨⟨⟨hn, hd⟩, hch⟩, hrest⟩ := hp
      simp only [Forest.height]
      have h2 := ihr parent es hrest (fun x hx => hl x (List.mem_cons_of_mem _ hx))
      have h1 : children.height + 1
          ≤ fs.countP (fun g => decide (parent.length ≤ g.dir.length)) := by
        cases hr : fs.ReadDir (parent ++ '/' :: name) with
        | error x => rw [hr] at hch; simp at hch
        | ok l1 =>
          rw [hr] at hch
          simp only [] at hch
          have hl1 := ReadDir_ok fs _ l1 hr
          have hc := ihc (parent ++ '/' :: name) l1 hch (by
            intro x hx
            rw [hl1] at hx
            have := List.mem_filter.mp hx
            exact ⟨this.1, by simpa using this.2⟩)
          obtain ⟨he1, he2⟩ := hl e (List.mem_cons_self _ _)
          have := countP_succ_le
            (fun g => decide ((parent ++ '/' :: name).length ≤ g.dir.length))
            (fun g => decide (parent.length ≤ g.dir.length)) e fs he1
            (by simp [he2]) (by simp [he2])
            (by
              intro x hx
              simp only [List.length_append, List.length_cons, decide_eq_true_eq] at hx ⊢
              omega)
          omega
      omega

/-- `GetFilePaths` on a filesystem that holds a template tree below `root`
returns the depth-first pre-order listing of the tree: the recursion budget of
the embedding is not exhausted. -/
theorem GetFilePaths_presents (fs : EmbedFS) (root : Str) (f : Forest)
    (h : presents fs root f = true) : GetFilePaths fs root = .ok (f.preorder root) := by
  unfold presents at h
  unfold GetFilePaths
  rw [GetFilePathsFuel]
  cases hr : fs.ReadDir root with
  | error x => rw [hr] at h; simp at h
  | ok l =>
    rw [hr] at h
    simp only [] at h ⊢
    have hl := ReadDir_ok fs root l hr
    have hb := height_le_countP fs f root l h (by
      intro x hx
      rw [hl] at hx
      have := List.mem_filter.mp hx
      exact ⟨this.1, by simpa using this.2⟩)
    have := getFilePathsLoop_presents fs f fs.length root l [] h
      (le_trans hb (List.countP_le_length _))
    rw [this]
    simp

/-! ## Lemmas: the pre-order listing -/

theorem preorder_length (f : Forest) : ∀ (parent : Str), (f.preorder parent).length = f.size := by
  induction f with
  | nil => intro parent; rfl
  | file name rest ih => intro parent; simp [Forest.preorder, Forest.size, ih]
  | dir name children rest ihc ihr =>
    intro parent
    simp [Forest.preorder, Forest.size, ihc, ihr]

/-- Every listed node below `parent` lies in the subtree of one of the
siblings: its `Path` is `parent`, a slash, the sibling's name, and nothing or
a slash and more. -/
theorem preorder_form (f : Forest) :
    ∀ (parent : Str) (fp : FilePath), fp ∈ f.preorder parent →
      ∃ m tail, m ∈ f.names ∧ fp.Path = parent ++ '/' :: (m ++ tail) ∧
        (tail = [] ∨ ∃ t, tail = '/' :: t) := by
  induction f with
  | nil => intro parent fp h; simp [Forest.preorder] at h
  | file name rest ih =>
    intro parent fp h
    simp only [Forest.preorder, List.mem_cons] at h
    rcases h with rfl | h
    · exact ⟨name, [], by simp [Forest.names], by simp, Or.inl rfl⟩
    · obtain ⟨m, tail, h1, h2, h3⟩ := ih parent fp h
      exact ⟨m, tail, by simp [Forest.names, h1], h2, h3⟩
  | dir name children rest ihc ihr =>
    intro parent fp h
    simp only [Forest.preorder, List.mem_cons, List.mem_append] at h
    rcases h with rfl | h | h
    · exact ⟨name, [], by simp [Forest.names], by simp, Or.inl rfl⟩
    · obtain ⟨m, tail, _, h2, _⟩ := ihc _ fp h
      exact ⟨name, '/' :: (m ++ tail), by simp [Forest.names], by rw [h2]; simp, Or.inr ⟨_, rfl⟩⟩
    · obtain ⟨m, tail, h1, h2, h3⟩ := ihr parent fp h
      exact ⟨m, tail, by simp [Forest.names, h1], h2, h3⟩

/-- A name without slash is determined by a path that starts with it and
goes on with nothing or a slash. -/
theorem name_unique : ∀ (m m1 tail tail1 : Str), '/' ∉ m → '/' ∉ m1 →
    (tail = [] ∨ ∃ t, tail = '/' :: t) → (tail1 = [] ∨ ∃ t, tail1 = '/' :: t) →
    m ++ tail = m1 ++ tail1 → m = m1 := by
  intro m
  induction m with
  | nil =>
    intro m1 tail tail1 _ h1 ht _ e
    cases m1 with
    | nil => rfl
    | cons c r =>
      exfalso
      simp only [List.nil_append, List.cons_append] at e
      rcases ht with rfl | ⟨t, rfl⟩
      · simp at e
      · simp only [List.cons.injEq] at e
        exact h1 (by rw [← e.1]; exact List.mem_cons_self _ _)
  | cons c r ih =>
    intro m1 tail tail1 h h1 ht ht1 e
    cases m1 with
    | nil =>
      exfalso
      simp only [List.nil_append, List.cons_append] at e
      rcases ht1 with rfl | ⟨t, rfl⟩
      · simp at e
      · simp only [List.cons.injEq] at e
        exact h (by rw [e.1]; exact List.mem_cons_self _ _)
    | cons c1 r1 =>
      simp only [List.cons_append, List.cons.injEq] at e
      rw [e.1, ih r1 tail tail1 (fun hm => h (List.mem_cons_of_mem _ hm))
        (fun hm => h1 (List.mem_cons_of_mem _ hm)) ht ht1 e.2]

theorem WellFormed_names (f : Forest) (h : f.WellFormed) : ∀ m ∈ f.names, '/' ∉ m := by
  induction f with
  | nil => intro m hm; simp [Forest.names] at hm
  | file name rest ih =>
    intro m hm
    simp only [Forest.names, List.mem_cons] at hm
    rcases hm with rfl | hm
    · exact h.1
    · exact ih h.2.2 m hm
  | dir name children rest _ ihr =>
    intro m hm
    simp only [Forest.names, List.mem_cons] at hm
    rcases hm with rfl | hm
    · exact h.1
    · exact ihr h.2.2.2 m hm

/-- A node listed among the later siblings does not have the path of an
earlier sibling, nor a path below it. -/
theorem preorder_not_sibling (rest : Forest) (parent name tail : Str) (fp : FilePath)
    (hwf : rest.WellFormed) (hname : '/' ∉ name) (hnot : name ∉ rest.names)
    (htail : tail = [] ∨ ∃ t, tail = '/' :: t) (hfp : fp ∈ rest.preorder parent) :
    fp.Path ≠ parent ++ '/' :: (name ++ tail) := by
  intro e
  obtain ⟨m, tl, h1, h2, h3⟩ := preorder_form rest parent fp hfp
  rw [h2] at e
  have e1 := List.append_cancel_left e
  simp only [List.cons.injEq, true_and] at e1
  have := name_unique m name tl tail (WellFormed_names rest hwf m h1) hname h3 htail e1
  exact hnot (this ▸ h1)

/-- In a tree whose sibling names are distinct and without slash, the listed
paths are pairwise distinct. -/
theorem preorder_nodup (f : Forest) :
    ∀ (parent : Str), f.WellFormed → ((f.preorder parent).map (·.Path)).Nodup := by
  induction f with
  | nil => intro parent _; simp [Forest.preorder]
  | file name rest ih =>
    intro parent hwf
    obtain ⟨h1, h2, h3⟩ := hwf
    simp only [Forest.preorder, List.map_cons, List.nodup_cons]
    refine ⟨?_, ih parent h3⟩
    intro hm
    obtain ⟨fp, hfp, e⟩ := List.mem_map.mp hm
    exact preorder_not_sibling rest parent name [] fp h3 h1 h2 (Or.inl rfl) hfp (by simpa using e)
  | dir name children rest ihc ihr =>
    intro parent hwf
    obtain ⟨h1, h2, h3, h4⟩ := hwf
    simp only [Forest.preorder, List.map_cons, List.map_append, List.nodup_cons, List.mem_append]
    refine ⟨?_, ?_⟩
    · rintro (hm | hm)
      · obtain ⟨fp, hfp, e⟩ := List.mem_map.mp hm
        obtain ⟨m, tl, _, e2, _⟩ := preorder_form children _ fp hfp
        rw [e2] at e
        have := congrArg List.length e
        simp at this
      · obtain ⟨fp, hfp, e⟩ := List.mem_map.mp hm
        exact preorder_not_sibling rest parent name [] fp h4 h1 h2 (Or.inl rfl) hfp
          (by simpa using e)
    · rw [List.nodup_append]
      refine ⟨ihc _ h3, ihr parent h4, ?_⟩
      intro p hp1 hp2
      obtain ⟨fp1, hfp1, e1⟩ := List.mem_map.mp hp1
      obtain ⟨fp2, hfp2, e2⟩ := List.mem_map.mp hp2
      obtain ⟨m, tl, _, e3, _⟩ := preorder_form children _ fp1 hfp1
      refine preorder_not_sibling rest parent name ('/' :: (m ++ tl)) fp2 h4 h1 h2
        (Or.inr ⟨_, rfl⟩) hfp2 ?_
      rw [e2, ← e1, e3]
      simp

/-- Every listed node has as `Path` the path of its parent, a slash and its
`Name`; the parent is the root or a directory listed as well. -/
theorem preorder_parent (f : Forest) :
    ∀ (root : Str) (fp : FilePath), fp ∈ f.preorder root →
      ∃ parent, fp.Path = parent ++ '/' :: fp.Name ∧
        (parent = root ∨ ∃ g ∈ f.preorder root, g.IsDir = true ∧ g.Path = parent) := by
  induction f with
  | nil => intro root fp h; simp [Forest.preorder] at h
  | file name rest ih =>
    intro root fp h
    simp only [Forest.preorder, List.mem_cons] at h
    rcases h with rfl | h
    · exact ⟨root, rfl, Or.inl rfl⟩
    · obtain ⟨parent, e, hp⟩ := ih root fp h
      refine ⟨parent, e, ?_⟩
      rcases hp with hp | ⟨g, hg, hg2⟩
      · exact Or.inl hp
      · exact Or.inr ⟨g, by simp [Forest.preorder, hg], hg2⟩
  | dir name children rest ihc ihr =>
    intro root fp h
    simp only [Forest.preorder, List.mem_cons, List.mem_append] at h
    rcases h with rfl | h | h
    · exact ⟨root, rfl, Or.inl rfl⟩
    · obtain ⟨parent, e, hp⟩ := ihc _ fp h
      refine ⟨parent, e, Or.inr ?_⟩
      rcases hp with hp | ⟨g, hg, hg2⟩
      · exact ⟨⟨root ++ '/' :: name, name, [], [], true⟩, by simp [Forest.preorder], rfl, hp.symm⟩
      · exact ⟨g, by simp [Forest.preorder, hg], hg2⟩
    · obtain ⟨parent, e, hp⟩ := ihr root fp h
      refine ⟨parent, e, ?_⟩
      rcases hp with hp | ⟨g, hg, hg2⟩
      · exact Or.inl hp
      · exact Or.inr ⟨g, by simp [Forest.preorder, hg], hg2⟩

/-- A path in the subtree of a sibling is not below a node listed among the
later siblings. -/
theorem preorder_not_below (rest : Forest) (parent name tail : Str) (d : FilePath)
    (hwf : rest.WellFormed) (hname : '/' ∉ name) (hnot : name ∉ rest.names)
    (htail : tail = [] ∨ ∃ t, tail = '/' :: t) (hd : d ∈ rest.preorder parent) :
    ¬ ∃ t, parent ++ '/' :: (name ++ tail) = d.Path ++ '/' :: t := by
  rintro ⟨t, e⟩
  obtain ⟨m, tl, h1, h2, h3⟩ := preorder_form rest parent d hd
  rw [h2] at e
  have e1 : name ++ tail = m ++ (tl ++ '/' :: t) := by
    have e0 : parent ++ '/' :: (name ++ tail) = parent ++ '/' :: (m ++ (tl ++ '/' :: t)) := by
      rw [e]; simp
    have := List.append_cancel_left e0
    simpa using this
  have ht : tl ++ '/' :: t = [] ∨ ∃ t1, tl ++ '/' :: t = '/' :: t1 := by
    rcases h3 with rfl | ⟨t2, rfl⟩
    · exact Or.inr ⟨t, rfl⟩
    · exact Or.inr ⟨t2 ++ '/' :: t, rfl⟩
  have := name_unique name m tail _ hname (WellFormed_names rest hwf m h1) htail ht e1
  exact hnot (this ▸ h1)

/-- In the pre-order listing of a well-formed tree, the nodes below a
directory are exactly the nodes of a block that follows the directory at
once. -/
theorem preorder_block (f : Forest) :
    ∀ (parent : Str), f.WellFormed → ∀ (pre : List FilePath) (d : FilePath) (post : List FilePath),
      f.preorder parent = pre ++ d :: post → d.IsDir = true →
      ∃ sub rest, post = sub ++ rest ∧ (∀ x ∈ sub, ∃ t, x.Path = d.Path ++ '/' :: t) ∧
        (∀ x ∈ pre, ¬ ∃ t, x.Path = d.Path ++ '/' :: t) ∧
        (∀ x ∈ rest, ¬ ∃ t, x.Path = d.Path ++ '/' :: t) := by
  induction f with
  | nil => intro parent _ pre d post h; simp [Forest.preorder] at h
  | file name rest ih =>
    intro parent hwf pre d post h hd
    obtain ⟨h1, h2, h3⟩ := hwf
    rw [Forest.preorder] at h
    cases pre with
    | nil =>
      simp only [List.nil_append, List.cons.injEq] at h
      rw [← h.1] at hd
      simp at hd
    | cons e pre1 =>
      simp only [List.cons_append, List.cons.injEq] at h
      obtain ⟨sub, rst, g1, g2, g3, g4⟩ := ih parent h3 pre1 d post h.2 hd
      refine ⟨sub, rst, g1, g2, ?_, g4⟩
      intro x hx
      rcases List.mem_cons.mp hx with rfl | hx
      · rw [← h.1]
        have hdm : d ∈ rest.preorder parent := by rw [h.2]; simp
        have := preorder_not_below rest parent name [] d h3 h1 h2 (Or.inl rfl) hdm
        simpa using this
      · exact g3 x hx
  | dir name children rest ihc ihr =>
    intro parent hwf pre d post h hd
    obtain ⟨h1, h2, h3, h4⟩ := hwf
    rw [Forest.preorder] at h
    cases pre with
    | nil =>
      simp only [List.nil_append, List.cons.injEq] at h
      refine ⟨children.preorder (parent ++ '/' :: name), rest.preorder parent, h.2.symm, ?_, by simp,
        ?_⟩
      · intro x hx
        obtain ⟨m, tl, _, e, _⟩ := preorder_form children _ x hx
        exact ⟨m ++ tl, by rw [e, ← h.1]⟩
      · intro x hx
        rintro ⟨t, e⟩
        rw [← h.1] at e
        exact preorder_not_sibling rest parent name ('/' :: t) x h4 h1 h2 (Or.inr ⟨_, rfl⟩) hx
          (by rw [e]; simp)
    | cons e pre1 =>
      simp only [List.cons_append, List.cons.injEq] at h
      obtain ⟨he, h⟩ := h
      rcases List.append_eq_append_iff.mp h with ⟨a, ha1, ha2⟩ | ⟨c, hc1, hc2⟩
      · -- the directory is listed among the later siblings
        cases a with
        | nil =>
          simp only [List.nil_append, List.append_nil] at ha1 ha2
          obtain ⟨sub, rst, g1, g2, g3, g4⟩ := ihr parent h4 [] d post (by simpa using ha2) hd
          have hdm : d ∈ rest.preorder parent := by rw [ha2]; simp
          refine ⟨sub, rst, g1, g2, ?_, g4⟩
          intro x hx
          rcases List.mem_cons.mp hx with rfl | hx
          · rw [← he]
            have := preorder_not_below rest parent name [] d h4 h1 h2 (Or.inl rfl) hdm
            simpa using this
          · rw [ha1] at hx
            obtain ⟨m, tl, _, e1, _⟩ := preorder_form children _ x hx
            rw [e1]
            have := preorder_not_below rest parent name ('/' :: (m ++ tl)) d h4 h1 h2
              (Or.inr ⟨_, rfl⟩) hdm
            simpa using this
        | cons a0 a1 =>
          simp only [List.cons_append, List.cons.injEq] at ha2
          obtain ⟨sub, rst, g1, g2, g3, g4⟩ := ihr parent h4 (a0 :: a1) d post
            (by rw [ha2]; simp) hd
          have hdm : d ∈ rest.preorder parent := by rw [ha2]; simp
          refine ⟨sub, rst, g1, g2, ?_, g4⟩
          intro x hx
          rcases List.mem_cons.mp hx with rfl | hx
          · rw [← he]
            have := preorder_not_below rest parent name [] d h4 h1 h2 (Or.inl rfl) hdm
            simpa using this
          · rw [ha1] at hx
            rcases List.mem_append.mp hx with hx | hx
            · obtain ⟨m, tl, _, e1, _⟩ := preorder_form children _ x hx
              rw [e1]
              have := preorder_not_below rest parent name ('/' :: (m ++ tl)) d h4 h1 h2
                (Or.inr ⟨_, rfl⟩) hdm
              simpa using this
            · exact g3 x hx
      · -- the directory is listed among the children
        cases c with
        | nil =>
          simp only [List.append_nil, List.nil_append] at hc1 hc2
          obtain ⟨sub, rst, g1, g2, g3, g4⟩ := ihr parent h4 [] d post (by simpa using hc2.symm) hd
          have hdm : d ∈ rest.preorder parent := by rw [← hc2]; simp
          refine ⟨sub, rst, g1, g2, ?_, g4⟩
          intro x hx
          rcases List.mem_cons.mp hx with rfl | hx
          · rw [← he]
            have := preorder_not_below rest parent name [] d h4 h1 h2 (Or.inl rfl) hdm
            simpa using this
          · rw [← hc1] at hx
            obtain ⟨m, tl, _, e1, _⟩ := preorder_form children _ x hx
            rw [e1]
            have := preorder_not_below rest parent name ('/' :: (m ++ tl)) d h4 h1 h2
              (Or.inr ⟨_, rfl⟩) hdm
            simpa using this
        | cons c0 c1 =>
          simp only [List.cons_append, List.cons.injEq] at hc2
          obtain ⟨hc0, hc2⟩ := hc2
          subst hc0
          obtain ⟨sub, rst, g1, g2, g3, g4⟩ := ihc _ h3 pre1 d c1 hc1 hd
          have hdm : d ∈ children.preorder (parent ++ '/' :: name) := by rw [hc1]; simp
          obtain ⟨m, tl, _, e1, _⟩ := preorder_form children _ d hdm
          refine ⟨sub, rst ++ rest.preorder parent, by rw [hc2, g1]; simp, g2, ?_, ?_⟩
          · intro x hx
            rcases List.mem_cons.mp hx with rfl | hx
            · rw [← he]
              rintro ⟨t, e⟩
              rw [e1] at e
              have := congrArg List.length e
              simp at this
            · exact g3 x hx
          · intro x hx
            rcases List.mem_append.mp hx with hx | hx
            · exact g4 x hx
            · rintro ⟨t, e⟩
              rw [e1] at e
              exact preorder_not_sibling rest parent name ('/' :: (m ++ tl ++ '/' :: t)) x h4 h1 h2
                (Or.inr ⟨_, rfl⟩) hx (by rw [e]; simp)

/-! ## Lemmas: the recursion of `GetFilePaths` ends -/

theorem getFilePathsLoop_congr (recur1 recur2 : Str → Except GoError (List FilePath))
    (root : Str) :
    ∀ (entries : List EmbedFile) (acc : List FilePath),
      (∀ e ∈ entries, e.IsDir = true →
        recur1 (root ++ '/' :: e.Name) = recur2 (root ++ '/' :: e.Name)) →
      getFilePathsLoop recur1 root entries acc = getFilePathsLoop recur2 root entries acc := by
  intro entries
  induction entries with
  | nil => intro acc _; rfl
  | cons e es ih =>
    intro acc h
    rw [getFilePathsLoop, getFilePathsLoop]
    simp only []
    by_cases hd : e.IsDir = true
    · rw [if_pos hd, if_pos hd, h e (List.mem_cons_self _ _) hd]
      cases recur2 (root ++ '/' :: e.Name) with
      | error x => rfl
      | ok children =>
        exact ih _ (fun e1 he1 => h e1 (List.mem_cons_of_mem _ he1))
    · rw [if_neg hd, if_neg hd]
      exact ih _ (fun e1 he1 => h e1 (List.mem_cons_of_mem _ he1))

/-- The result of the enumeration does not depend on the recursion budget
once the budget exceeds the number of entries whose directory part is at least
as long as the root: every level of the recursion reads a directory entry with
a longer directory part. -/
theorem GetFilePathsFuel_congr (fs : EmbedFS) :
    ∀ (d1 d2 : Nat) (root : Str),
      fs.countP (fun g => decide (root.length ≤ g.dir.length)) ≤ d1 →
      fs.countP (fun g => decide (root.length ≤ g.dir.length)) ≤ d2 →
      GetFilePathsFuel fs (d1 + 1) root = GetFilePathsFuel fs (d2 + 1) root := by
  intro d1
  induction d1 with
  | zero =>
    intro d2 root h1 _
    rw [GetFilePathsFuel, GetFilePathsFuel]
    cases hr : fs.ReadDir root with
    | error x => rfl
    | ok l =>
      simp only []
      apply getFilePathsLoop_congr
      intro e he hd
      exfalso
      rw [ReadDir_ok fs root l hr] at he
      have hm := List.mem_filter.mp he
      have hdir : e.dir = root := by simpa using hm.2
      have := (List.countP_pos_iff (p := fun g => decide (root.length ≤ g.dir.length))).mpr
        ⟨e, hm.1, by rw [hdir]; exact decide_eq_true (Nat.le_refl _)⟩
      omega
  | succ d1 ih =>
    intro d2 root h1 h2
    rw [GetFilePathsFuel, GetFilePathsFuel]
    cases hr : fs.ReadDir root with
    | error x => rfl
    | ok l =>
      simp only []
      apply getFilePathsLoop_congr
      intro e he hd
      rw [ReadDir_ok fs root l hr] at he
      have hm := List.mem_filter.mp he
      have hdir : e.dir = root := by simpa using hm.2
      have hc := countP_succ_le
        (fun g => decide ((root ++ '/' :: e.Name).length ≤ g.dir.length))
        (fun g => decide (root.length ≤ g.dir.length)) e fs hm.1
        (by simp [hdir]) (by simp [hdir])
        (by
          intro x hx
          simp only [List.length_append, List.length_cons, decide_eq_true_eq] at hx ⊢
          omega)
      cases d2 with
      | zero => omega
      | succ d2 => exact ih d2 _ (by omega) (by omega)

/-- What the loop over the entries of a directory has appended, when it
returns, is the pre-order listing of a tree that the filesystem holds. -/
theorem getFilePathsLoop_forest (fs : EmbedFS) (d : Nat) (root : Str)
    (hrec : ∀ cpath res, GetFilePathsFuel fs d cpath = .ok res →
      ∃ f, presents fs cpath f = true ∧ res = f.preorder cpath) :
    ∀ (entries : List EmbedFile) (acc res : List FilePath),
      getFilePathsLoop (GetFilePathsFuel fs d) root entries acc = .ok res →
      ∃ f, presentsList fs root entries f = true ∧ res = acc ++ f.preorder root := by
  intro entries
  induction entries with
  | nil =>
    intro acc res h
    simp only [getFilePathsLoop, Except.ok.injEq] at h
    exact ⟨.nil, rfl, by simp [Forest.preorder, h]⟩
  | cons e es ih =>
    intro acc res h
    rw [getFilePathsLoop] at h
    simp only [] at h
    by_cases hd : e.IsDir = true
    · rw [if_pos hd] at h
      cases hr : GetFilePathsFuel fs d (root ++ '/' :: e.Name) with
      | error x => rw [hr] at h; simp at h
      | ok children =>
        rw [hr] at h
        simp only [] at h
        obtain ⟨fc, hc1, hc2⟩ := hrec _ _ hr
        obtain ⟨fr, hr1, hr2⟩ := ih _ res h
        refine ⟨.dir e.Name fc fr, ?_, ?_⟩
        · unfold presents at hc1
          simp only [presentsList, decide_True, hd, Bool.and_self, Bool.true_and,
            Bool.and_eq_true]
          exact ⟨hc1, hr1⟩
        · rw [hr2, hc2]
          simp [Forest.preorder]
    · rw [if_neg hd] at h
      obtain ⟨fr, hr1, hr2⟩ := ih _ res h
      refine ⟨.file e.Name fr, ?_, ?_⟩
      · simp only [presentsList, decide_True, Bool.true_and, Bool.and_eq_true,
          Bool.not_eq_true']
        exact ⟨by simpa using hd, hr1⟩
      · rw [hr2]
        simp [Forest.preorder]

/-- Whenever the enumeration returns a list, the filesystem holds a template
tree below the root and the list is its pre-order listing. -/
theorem GetFilePathsFuel_forest (fs : EmbedFS) :
    ∀ (d : Nat) (root : Str) (res : List FilePath), GetFilePathsFuel fs d root = .ok res →
      ∃ f, presents fs root f = true ∧ res = f.preorder root := by
  intro d
  induction d with
  | zero => intro root res h; simp [GetFilePathsFuel] at h
  | succ d ih =>
    intro root res h
    rw [GetFilePathsFuel] at h
    cases hr : fs.ReadDir root with
    | error x => rw [hr] at h; simp at h
    | ok l =>
      rw [hr] at h
      simp only [] at h
      obtain ⟨f, h1, h2⟩ := getFilePathsLoop_forest fs d root ih l [] res h
      refine ⟨f, ?_, by simpa using h2⟩
      unfold presents
      rw [hr]
      exact h1

/-- C26. On an embedded filesystem that holds the template tree `f` below
`root`, `GetFilePaths` returns the depth-first pre-order listing of the tree:
one entry per node, a directory followed at once by its descendants.  The
recursion ends on every filesystem: a recursion budget above the number of
entries does not change the result; and every list the enumeration returns is
the pre-order listing of a tree the filesystem holds.  Every entry has as `Path` the path of its parent (the root or a
listed directory), a slash and its `Name`, and starts with `root` and a
slash.  When sibling names are distinct and without slash, the paths are
pairwise distinct and the entries below a listed directory are exactly those
of a block that follows it at once. -/
theorem C26_GetFilePaths_preorder (fs : EmbedFS) (root : Str) (f : Forest)
    (h : presents fs root f = true) :
    GetFilePaths fs root = .ok (f.preorder root) ∧
    (∀ d, fs.length ≤ d → GetFilePathsFuel fs (d + 1) root = GetFilePaths fs root) ∧
    (∀ (root1 : Str) (res : List FilePath), GetFilePaths fs root1 = .ok res →
      ∃ f1, presents fs root1 f1 = true ∧ res = f1.preorder root1) ∧
    (f.preorder root).length = f.size ∧
    (∀ fp ∈ f.preorder root, ∃ parent, fp.Path = parent ++ '/' :: fp.Name ∧
      (parent = root ∨ ∃ g ∈ f.preorder root, g.IsDir = true ∧ g.Path = parent)) ∧
    (∀ fp ∈ f.preorder root, ∃ rel, fp.Path = root ++ '/' :: rel) ∧
    (f.WellFormed →
      ((f.preorder root).map (·.Path)).Nodup ∧
      ∀ (pre : List FilePath) (d : FilePath) (post : List FilePath),
        f.preorder root = pre ++ d :: post → d.IsDir = true →
        ∃ sub rest, post = sub ++ rest ∧ (∀ x ∈ sub, ∃ t, x.Path = d.Path ++ '/' :: t) ∧
          (∀ x ∈ pre, ¬ ∃ t, x.Path = d.Path ++ '/' :: t) ∧
          (∀ x ∈ rest, ¬ ∃ t, x.Path = d.Path ++ '/' :: t)) := by
  refine ⟨GetFilePaths_presents fs root f h, ?_, ?_, preorder_length f root,
    preorder_parent f root, ?_, ?_⟩
  · intro d hd
    unfold GetFilePaths
    exact GetFilePathsFuel_congr fs d fs.length root
      (le_trans (List.countP_le_length _) hd) (List.countP_le_length _)
  · intro root1 res hres
    exact GetFilePathsFuel_forest fs _ root1 res hres
  · intro fp hfp
    obtain ⟨m, tl, _, e, _⟩ := preorder_form f root fp hfp
    exact ⟨m ++ tl, e⟩
  · intro hwf
    exact ⟨preorder_nodup f root hwf, preorder_block f root hwf⟩

/-- Witness for C26: the example archetype. -/
theorem C26_GetFilePaths_preorder_witness :
    presents exampleFS headlessRoot exampleForest = true ∧
    GetFilePaths exampleFS headlessRoot = .ok (exampleForest.preorder headlessRoot) ∧
    exampleForest.preorder headlessRoot = exampleFilePaths ∧
    exampleForest.size = 4 :=
  ⟨by decide, (C26_GetFilePaths_preorder exampleFS headlessRoot exampleForest (by decide)).1,
    by decide, by decide⟩

/-! ## Lemmas: the keys of the dictionaries -/

theorem Dict.get_set_isSome (d : Dict) (k v k1 : Str) (h : (Dict.get d k1).isSome = true) :
    (Dict.get (d.set k v) k1).isSome = true := by
  by_cases hk : k1 = k
  · subst hk; rw [Dict.get_set_self]; rfl
  · rw [Dict.get_set_other d k v k1 hk]; exact h

theorem HeadlessServiceParams_keys (hsp : HeadlessServiceParams) :
    ∀ k ∈ serviceKeys, (hsp.AsMap.1.get k).isSome = true := by
  intro k hk
  unfold HeadlessServiceParams.AsMap
  simp only []
  by_cases hp : k = "ProjectPackageName".toList
  · subst hp; rw [Dict.get_set_self]; rfl
  · apply Dict.get_set_isSome
    simp only [serviceKeys, List.mem_cons, List.mem_singleton, List.not_mem_nil, or_false] at hk
    rcases hk with rfl | rfl | rfl | rfl | rfl | rfl | rfl | rfl | rfl | rfl | rfl | rfl | rfl |
      rfl | rfl | rfl
    all_goals first | rfl | exact absurd rfl hp

theorem IndirectSelectionParams_keys (isp : IndirectSelectionParams) :
    ∀ k ∈ serviceKeys, (isp.AsMap.1.get k).isSome = true := by
  intro k hk
  unfold IndirectSelectionParams.AsMap
  simp only []
  by_cases hp : k = "ProjectPackageName".toList
  · subst hp; rw [Dict.get_set_self]; rfl
  · apply Dict.get_set_isSome
    simp only [serviceKeys, List.mem_cons, List.mem_singleton, List.not_mem_nil, or_false] at hk
    rcases hk with rfl | rfl | rfl | rfl | rfl | rfl | rfl | rfl | rfl | rfl | rfl | rfl | rfl |
      rfl | rfl | rfl
    all_goals first | rfl | exact absurd rfl hp

theorem SPAParams_keys (t : CaseTables) (p : SPAParams) (d : Dict) (e : Option GoError)
    (h : SPAParams.AsMap t p = some (d, e)) : ∀ k ∈ spaKeys, (d.get k).isSome = true := by
  intro k hk
  unfold SPAParams.AsMap at h
  split at h
  · simp only [Option.some.injEq, Prod.mk.injEq] at h
    rw [← h.1]
    by_cases hp : k = "ProjectEnvPrefix".toList
    · subst hp; rw [Dict.get_set_self]; rfl
    apply Dict.get_set_isSome
    by_cases hq : k = "ProjectPackageName".toList
    · subst hq; rw [Dict.get_set_self]; rfl
    apply Dict.get_set_isSome
    simp only [spaKeys, List.mem_cons, List.mem_singleton, List.not_mem_nil, or_false] at hk
    rcases hk with rfl | rfl | rfl | rfl | rfl | rfl | rfl | rfl | rfl | rfl | rfl
    all_goals first | rfl | exact absurd rfl hp | exact absurd rfl hq
  · simp at h

set_option maxRecDepth 8000 in
/-- The names of the archetype nodes parse, and the fields printed in the
names and in the contents are among the keys of the dictionaries. -/
theorem templates_fields :
    (∀ tf ∈ headlessTemplates,
      (parse tf.name).toBool = true ∧ ∀ k ∈ fieldsOf tf.name ++ tf.fields, k ∈ serviceKeys) ∧
    (∀ tf ∈ indirectSelectionTemplates,
      (parse tf.name).toBool = true ∧ ∀ k ∈ fieldsOf tf.name ++ tf.fields, k ∈ serviceKeys) ∧
    (∀ tf ∈ spaTemplates,
      (parse tf.name).toBool = true ∧ ∀ k ∈ fieldsOf tf.name ++ tf.fields, k ∈ spaKeys) := by
  refine ⟨by decide, by decide, by decide⟩

/-- C27. For each of the archetypes headless-service, indirect-selection and
spa, the name of every directory and Go source file parses, and every field
printed by an action in a name or in a content is a key of the dictionary of
the corresponding `AsMap`, for every value of the parameters (for `SPAParams`,
whenever `AsMap` returns).  A field that is a key prints its entry. -/
theorem C27_placeholders_defined (t : CaseTables) (hsp : HeadlessServiceParams)
    (isp : IndirectSelectionParams) (p : SPAParams) :
    (∀ tf ∈ headlessTemplates, (parse tf.name).toBool = true ∧
      ∀ k ∈ fieldsOf tf.name ++ tf.fields, (hsp.AsMap.1.get k).isSome = true) ∧
    (∀ tf ∈ indirectSelectionTemplates, (parse tf.name).toBool = true ∧
      ∀ k ∈ fieldsOf tf.name ++ tf.fields, (isp.AsMap.1.get k).isSome = true) ∧
    (∀ d e, SPAParams.AsMap t p = some (d, e) →
      ∀ tf ∈ spaTemplates, (parse tf.name).toBool = true ∧
        ∀ k ∈ fieldsOf tf.name ++ tf.fields, (d.get k).isSome = true) ∧
    (∀ (d : Dict) (k : Str), (d.get k).isSome = true →
      ∃ v, d.get k = some v ∧ execNode d (.field k) = v) ∧
    fieldsOf (packageDir headlessRoot ++ "/config.go".toList)
      = ["ProjectName".toList, "ProjectPackageName".toList] := by
  obtain ⟨h1, h2, h3⟩ := templates_fields
  refine ⟨?_, ?_, ?_, ?_, by decide⟩
  · intro tf htf
    exact ⟨(h1 tf htf).1, fun k hk => HeadlessServiceParams_keys hsp k ((h1 tf htf).2 k hk)⟩
  · intro tf htf
    exact ⟨(h2 tf htf).1, fun k hk => IndirectSelectionParams_keys isp k ((h2 tf htf).2 k hk)⟩
  · intro d e h tf htf
    exact ⟨(h3 tf htf).1, fun k hk => SPAParams_keys t p d e h k ((h3 tf htf).2 k hk)⟩
  · intro d k h
    cases hg : d.get k with
    | none => rw [hg] at h; simp at h
    | some v => exact ⟨v, rfl, by simp [execNode, hg]⟩

/-! ## Lemmas: a slash in a template that parses -/

theorem mem_dropWhile_or (p : Char → Bool) : ∀ (l : Str) (c : Char), c ∈ l →
    c ∈ l.dropWhile p ∨ p c = true := by
  intro l
  induction l with
  | nil => intro c h; simp at h
  | cons a t ih =>
    intro c h
    by_cases ha : p a = true
    · rw [List.dropWhile_cons_of_pos ha]
      rcases List.mem_cons.mp h with rfl | h
      · exact Or.inr ha
      · exact ih c h
    · rw [List.dropWhile_cons_of_neg ha]
      exact Or.inl h

theorem mem_trimBlank_or (s : Str) (c : Char) (h : c ∈ s) : c ∈ trimBlank s ∨ isBlank c = true := by
  unfold trimBlank
  rcases mem_dropWhile_or isBlank s c h with h1 | h1
  · rcases mem_dropWhile_or isBlank (s.dropWhile isBlank).reverse c (List.mem_reverse.mpr h1)
      with h2 | h2
    · exact Or.inl (List.mem_reverse.mpr h2)
    · exact Or.inr h2
  · exact Or.inr h1

/-- An action that parses has no slash in it. -/
theorem parseAction_no_slash (body : Str) (node : Node) (h : parseAction body = .ok node) :
    '/' ∉ body := by
  intro hm
  unfold parseAction at h
  rcases mem_trimBlank_or body '/' hm with h1 | h1
  · split at h
    · rename_i k hk
      rw [hk] at h1
      split at h
      · rename_i hf
        rcases List.mem_cons.mp h1 with h2 | h2
        · exact absurd h2 (by decide)
        · have := isFieldName_all k hf '/' h2
          exact absurd this (by decide)
      · simp at h
    · simp at h
    · simp at h
  · exact absurd h1 (by decide)

/-- When no right delimiter occurs before a slash, the first right delimiter
of the whole lies after the slash. -/
theorem Index_right_after : ∀ (x n : Str) (j : Nat), Index rightDelim x = none →
    Index rightDelim (x ++ '/' :: n) = some j → x.length < j := by
  intro x
  induction x with
  | nil =>
    intro n j _ h
    rw [List.nil_append, Index_cons] at h
    split at h
    · rename_i hp
      obtain ⟨r, hr⟩ := (isPrefixOf_two '}' '}' _).mp hp
      simp at hr
    · cases hI : Index rightDelim n with
      | none => rw [hI] at h; simp at h
      | some j1 =>
        rw [hI] at h
        simp only [Option.map_some', Option.some.injEq] at h
        simp only [List.length_nil]
        omega
  | cons c t ih =>
    intro n j hx h
    obtain ⟨hp, ht⟩ := Index_cons_none rightDelim c t hx
    rw [List.cons_append, Index_cons] at h
    split at h
    · rename_i hp2
      exfalso
      obtain ⟨r, hr⟩ := (isPrefixOf_two '}' '}' _).mp hp2
      cases t with
      | nil =>
        simp only [List.nil_append, List.cons.injEq] at hr
        exact absurd hr.2.1 (by decide)
      | cons c2 t2 =>
        simp only [List.cons_append, List.cons.injEq] at hr
        have : rightDelim.isPrefixOf (c :: c2 :: t2) = true :=
          (isPrefixOf_two '}' '}' _).mpr ⟨t2, by rw [hr.1, hr.2.1]⟩
        rw [this] at hp
        simp at hp
    · cases hI : Index rightDelim (t ++ '/' :: n) with
      | none => rw [hI] at h; simp at h
      | some j1 =>
        rw [hI] at h
        simp only [Option.map_some', Option.some.injEq] at h
        have := ih n j1 ht hI
        simp only [List.length_cons]
        omega

/-- A template that parses and has a slash at some place: what follows the
slash, when it parses by itself, prints the end of the output, after a
slash. -/
theorem parse_slash (d : Dict) : ∀ (k : Nat) (x : Str), x.length ≤ k →
    ∀ (n : Str) (nodes nn : List Node), parse (x ++ '/' :: n) = .ok nodes → parse n = .ok nn →
      ∃ pre, execute d nodes = pre ++ '/' :: execute d nn := by
  intro k
  induction k with
  | zero =>
    intro x hx n nodes nn h hn
    have hx0 : x = [] := List.length_eq_zero.mp (Nat.le_zero.mp hx)
    subst hx0
    have hp := parse_append_left ['/'] n (by decide) (by decide)
    rw [hn] at hp
    simp only [List.singleton_append] at hp
    rw [List.nil_append, hp] at h
    simp only [Except.ok.injEq] at h
    subst h
    exact ⟨[], by rw [execute_prependText]; rfl⟩
  | succ k ih =>
    intro x hx n nodes nn h hn
    cases hI : Index leftDelim x with
    | none =>
      have hl : Contains (x ++ ['/']) leftDelim = false := by
        unfold Contains
        rw [Index_snoc_none x '/' hI (by decide)]
        rfl
      have hp := parse_append_left (x ++ ['/']) n hl (by simp)
      rw [hn] at hp
      have e : x ++ ['/'] ++ n = x ++ '/' :: n := by simp
      rw [e, h] at hp
      simp only [Except.ok.injEq] at hp
      subst hp
      exact ⟨x, by rw [execute_prependText]; simp⟩
    | some i =>
      have hs := Index_spec leftDelim x i hI
      have hIs : Index leftDelim (x ++ '/' :: n) = some i := Index_append_right _ _ _ _ hI
      have hlen := Index_lt_length_add leftDelim x i hI
      have hld : leftDelim.length = 2 := rfl
      rw [parse_eq] at h
      have hcut : cut leftDelim (x ++ '/' :: n)
          = some (x.take i, x.drop (i + 2) ++ '/' :: n) := by
        unfold cut
        rw [hIs]
        simp only [Option.some.injEq, Prod.mk.injEq, hld]
        constructor
        · rw [List.take_append_of_le_length (by omega)]
        · rw [List.drop_append_of_le_length (by omega)]
      rw [hcut] at h
      simp only [] at h
      cases hJ : Index rightDelim (x.drop (i + 2)) with
      | none =>
        exfalso
        cases hJ2 : Index rightDelim (x.drop (i + 2) ++ '/' :: n) with
        | none =>
          have : cut rightDelim (x.drop (i + 2) ++ '/' :: n) = none := by unfold cut; rw [hJ2]
          rw [this] at h
          simp at h
        | some j =>
          have hj := Index_right_after _ n j hJ hJ2
          have : cut rightDelim (x.drop (i + 2) ++ '/' :: n)
              = some ((x.drop (i + 2) ++ '/' :: n).take j,
                  (x.drop (i + 2) ++ '/' :: n).drop (j + rightDelim.length)) := by
            unfold cut; rw [hJ2]
          rw [this] at h
          simp only [] at h
          cases hpa : parseAction ((x.drop (i + 2) ++ '/' :: n).take j) with
          | error e => rw [hpa] at h; simp at h
          | ok node =>
            apply parseAction_no_slash _ node hpa
            rw [List.take_append_eq_append_take]
            apply List.mem_append_right
            have : j - (x.drop (i + 2)).length = (j - (x.drop (i + 2)).length - 1) + 1 := by omega
            rw [this, List.take_succ_cons]
            exact List.mem_cons_self _ _
      | some j =>
        have hJ2 : Index rightDelim (x.drop (i + 2) ++ '/' :: n) = some j :=
          Index_append_right _ _ _ _ hJ
        have hjl := Index_lt_length_add rightDelim (x.drop (i + 2)) j hJ
        have hrd : rightDelim.length = 2 := rfl
        have hcut2 : cut rightDelim (x.drop (i + 2) ++ '/' :: n)
            = some ((x.drop (i + 2)).take j, (x.drop (i + 2)).drop (j + 2) ++ '/' :: n) := by
          unfold cut
          rw [hJ2]
          simp only [Option.some.injEq, Prod.mk.injEq, hrd]
          constructor
          · rw [List.take_append_of_le_length (by omega)]
          · rw [List.drop_append_of_le_length (by omega)]
        rw [hcut2] at h
        simp only [] at h
        cases hpa : parseAction ((x.drop (i + 2)).take j) with
        | error e => rw [hpa] at h; simp at h
        | ok node =>
          rw [hpa] at h
          simp only [] at h
          cases hpost : parse ((x.drop (i + 2)).drop (j + 2) ++ '/' :: n) with
          | error e => rw [hpost] at h; simp at h
          | ok nodes1 =>
            rw [hpost] at h
            simp only [Except.ok.injEq] at h
            subst h
            obtain ⟨pre, hpre⟩ := ih ((x.drop (i + 2)).drop (j + 2))
              (by simp only [List.length_drop]; omega) n nodes1 nn hpost hn
            refine ⟨x.take i ++ execNode d node ++ pre, ?_⟩
            simp only [execute, List.map_cons, List.flatten_cons] at hpre ⊢
            rw [hpre]
            simp [execNode]

theorem ResolveTemplateVars_slash {σ : Type} (w : TmplWriter σ) (x n out r : Str)
    (h : ResolveTemplateVars w (x ++ '/' :: n) = .ok out)
    (hn : ResolveTemplateVars w n = .ok r) : ∃ pre, out = pre ++ '/' :: r := by
  unfold ResolveTemplateVars at h hn
  cases hp : parse (x ++ '/' :: n) with
  | error e => rw [hp] at h; simp at h
  | ok nodes =>
    cases hq : parse n with
    | error e => rw [hq] at hn; simp at hn
    | ok nn =>
      rw [hp] at h
      rw [hq] at hn
      simp only [Except.ok.injEq] at h hn
      rw [← h, ← hn]
      exact parse_slash w.TmplVals x.length x (Nat.le_refl _) n nodes nn hp hq

/-! ## Lemmas: the `Path` and the `Name` of an enumerated node -/

theorem getFilePathsLoop_name (recur : Str → Except GoError (List FilePath)) (root : Str)
    (hrec : ∀ cpath res, recur cpath = .ok res → ∀ fp ∈ res,
      fp.Path = cpath ++ '/' :: fp.Name ∨ ∃ x, fp.Path = cpath ++ '/' :: (x ++ '/' :: fp.Name)) :
    ∀ (entries : List EmbedFile) (acc res : List FilePath),
      (∀ fp ∈ acc, fp.Path = root ++ '/' :: fp.Name ∨
        ∃ x, fp.Path = root ++ '/' :: (x ++ '/' :: fp.Name)) →
      getFilePathsLoop recur root entries acc = .ok res →
      ∀ fp ∈ res, fp.Path = root ++ '/' :: fp.Name ∨
        ∃ x, fp.Path = root ++ '/' :: (x ++ '/' :: fp.Name) := by
  intro entries
  induction entries with
  | nil =>
    intro acc res hacc h
    simp only [getFilePathsLoop, Except.ok.injEq] at h
    subst h; exact hacc
  | cons e es ih =>
    intro acc res hacc h
    rw [getFilePathsLoop] at h
    simp only [] at h
    split at h
    · cases hr : recur (root ++ '/' :: e.Name) with
      | error err => rw [hr] at h; simp at h
      | ok children =>
        rw [hr] at h
        simp only [] at h
        refine ih _ res ?_ h
        intro fp hfp
        rcases List.mem_append.mp hfp with hfp | hfp
        · rcases List.mem_append.mp hfp with hfp | hfp
          · exact hacc fp hfp
          · simp only [List.mem_singleton] at hfp
            subst hfp; exact Or.inl rfl
        · rcases hrec _ _ hr fp hfp with hrel | ⟨x, hrel⟩
          · exact Or.inr ⟨e.Name, by rw [hrel]; simp⟩
          · exact Or.inr ⟨e.Name ++ '/' :: x, by rw [hrel]; simp⟩
    · refine ih _ res ?_ h
      intro fp hfp
      rcases List.mem_append.mp hfp with hfp | hfp
      · exact hacc fp hfp
      · simp only [List.mem_singleton] at hfp
        subst hfp; exact Or.inl rfl

/-- The `Path` of an enumerated node is `root`, a slash, possibly the names
of directories each followed by a slash, and the node's `Name`. -/
theorem GetFilePathsFuel_name (fs : EmbedFS) :
    ∀ (d : Nat) (root : Str) (res : List FilePath), GetFilePathsFuel fs d root = .ok res →
      ∀ fp ∈ res, fp.Path = root ++ '/' :: fp.Name ∨
        ∃ x, fp.Path = root ++ '/' :: (x ++ '/' :: fp.Name) := by
  intro d
  induction d with
  | zero => intro root res h; simp [GetFilePathsFuel] at h
  | succ d ih =>
    intro root res h
    rw [GetFilePathsFuel] at h
    cases hr : fs.ReadDir root with
    | error e => rw [hr] at h; simp at h
    | ok entries =>
      rw [hr] at h
      simp only [] at h
      exact getFilePathsLoop_name _ root (ih) entries [] res (by simp) h

theorem NewTmplWriter_nodes {σ : Type} (a : Assets) (outFs : Fs σ) (projType : Str) (vals : Dict)
    (w : TmplWriter σ) (h : NewTmplWriter a outFs projType vals = .ok w) :
    ∀ fp ∈ w.FilePaths, fp.Path = w.ProjDir ++ '/' :: fp.Name ∨
      ∃ x, fp.Path = w.ProjDir ++ '/' :: (x ++ '/' :: fp.Name) := by
  unfold NewTmplWriter at h
  cases hg : GetProjectFs a projType with
  | error e => rw [hg] at h; simp at h
  | ok pr =>
    obtain ⟨fs, dirName⟩ := pr
    rw [hg] at h
    simp only [] at h
    cases hf : GetFilePaths fs dirName with
    | error e => rw [hf] at h; simp at h
    | ok fps =>
      rw [hf] at h
      simp only [Except.ok.injEq] at h
      subst h
      exact GetFilePathsFuel_name fs _ dirName fps hf

/-- After a successful resolution of a node whose `Path` is the archetype
root, a slash, possibly directories, and its `Name`: when the resolved name
neither contains the root nor begins with a slash, `TemplName` is the
resolved name and `TemplPath` is `TemplName`, or something, a slash and
`TemplName`. -/
theorem resolveFilePath_suffix {σ : Type} (w : TmplWriter σ) (fp : FilePath) (n : Str)
    (hroot : Contains w.ProjDir leftDelim = false)
    (hpath : fp.Path = w.ProjDir ++ '/' :: fp.Name ∨
      ∃ x, fp.Path = w.ProjDir ++ '/' :: (x ++ '/' :: fp.Name))
    (h : (resolveFilePath w fp).2 = .nil)
    (hn : ResolveTemplateVars w fp.Name = .ok n)
    (hnr : Contains n w.ProjDir = false) (hns : n.head? ≠ some '/') :
    (resolveFilePath w fp).1.TemplName = n ∧ n ≠ [] ∧
      ((resolveFilePath w fp).1.TemplPath = n ∨
        ∃ pre, (resolveFilePath w fp).1.TemplPath = pre ++ '/' :: n) := by
  have hrel : ∃ rel, fp.Path = w.ProjDir ++ '/' :: rel := by
    rcases hpath with e | ⟨x, e⟩
    · exact ⟨_, e⟩
    · exact ⟨_, e⟩
  obtain ⟨rel, hrel⟩ := hrel
  obtain ⟨out, n1, name, g1, g2, g3, g4⟩ := resolveFilePath_under w fp rel hroot hrel h
  rw [hn] at g2
  simp only [Except.ok.injEq] at g2
  subst g2
  rw [Replace_absent n w.ProjDir hnr] at g3
  have hname : name = n ∧ n ≠ [] := by
    cases n with
    | nil => simp [stripLeadingSlash] at g3
    | cons c t =>
      simp only [stripLeadingSlash] at g3
      have hc : c ≠ '/' := by
        intro e; apply hns; rw [e]; rfl
      rw [if_neg hc] at g3
      simp only [Option.some.injEq] at g3
      exact ⟨g3.symm, by simp⟩
  obtain ⟨hname, hne⟩ := hname
  subst hname
  rw [g4]
  refine ⟨rfl, hne, ?_⟩
  simp only []
  rw [hrel] at g1
  obtain ⟨out1, o1, o2⟩ := ResolveTemplateVars_under w w.ProjDir rel _ hroot g1
  have ho : out1 = out := by
    have := List.append_cancel_left o2
    simp only [List.cons.injEq, true_and] at this
    exact this.symm
  subst ho
  rcases hpath with e | ⟨x, e⟩
  · left
    have hr : rel = fp.Name := by
      rw [hrel] at e
      have := List.append_cancel_left e
      simpa using this
    rw [hr, hn] at o1
    simp only [Except.ok.injEq] at o1
    exact o1.symm
  · right
    have hr : rel = x ++ '/' :: fp.Name := by
      rw [hrel] at e
      have := List.append_cancel_left e
      simpa using this
    rw [hr] at o1
    exact ResolveTemplateVars_slash w x fp.Name out1 name o1 hn

/-- C30. For a writer made by `NewTmplWriter` and a successful
`ResolveAllPathTemplates`: every node is resolved by `resolveFilePath`, and
for a node whose resolved name neither contains the archetype root nor begins
with a slash, `TemplName` is that name, `TemplPath` is non-empty and ends with
`TemplName` (it is `TemplName`, or something, a slash and `TemplName`).  If
`TemplName` is `go.mod_` or `go.sum_`, the slice of `fixGoModTemplPaths` is in
range on `TemplPath` and on `TemplName`, the character dropped from
`TemplPath` is the final underscore of the name, and the step returns with
`TemplPath` still ending with `TemplName`. -/
theorem C30_templPath_ends_with_templName {σ : Type} (a : Assets) (outFs : Fs σ)
    (projType : Str) (vals : Dict) (w : TmplWriter σ)
    (hnew : NewTmplWriter a outFs projType vals = .ok w)
    (hres : (ResolveAllPathTemplates w).2 = .nil) (fp : FilePath) (hfp : fp ∈ w.FilePaths)
    (n : Str) (hn : ResolveTemplateVars w fp.Name = .ok n)
    (hnr : Contains n w.ProjDir = false) (hns : n.head? ≠ some '/') :
    (ResolveAllPathTemplates w).1 = w.FilePaths.map (fun fp => (resolveFilePath w fp).1) ∧
    (resolveFilePath w fp).1.TemplName = n ∧
    (resolveFilePath w fp).1.TemplPath ≠ [] ∧
    HasSuffix (resolveFilePath w fp).1.TemplPath (resolveFilePath w fp).1.TemplName = true ∧
    ((resolveFilePath w fp).1.TemplPath = n ∨
      ∃ pre, (resolveFilePath w fp).1.TemplPath = pre ++ '/' :: n) ∧
    (isGoModMask (resolveFilePath w fp).1.TemplName →
      ∃ p m, sliceDropLast (resolveFilePath w fp).1.TemplPath = some p ∧
        sliceDropLast (resolveFilePath w fp).1.TemplName = some m ∧
        (resolveFilePath w fp).1.TemplPath = p ++ ['_'] ∧
        (resolveFilePath w fp).1.TemplName = m ++ ['_'] ∧
        (fixGoModFilePath (resolveFilePath w fp).1).2 = .nil ∧
        (fixGoModFilePath (resolveFilePath w fp).1).1.TemplPath = p ∧
        (fixGoModFilePath (resolveFilePath w fp).1).1.TemplName = m ∧
        HasSuffix p m = true) := by
  obtain ⟨hr1, hr2⟩ := rangeFilePaths_nil (resolveFilePath w) w.FilePaths hres
  obtain ⟨k1, _, _, _⟩ := NewTmplWriter_ok a outFs projType vals w hnew
  obtain ⟨s1, s2, s3⟩ := resolveFilePath_suffix w fp n k1
    (NewTmplWriter_nodes a outFs projType vals w hnew fp hfp) (hr2 fp hfp) hn hnr hns
  have hsuf : ∃ q, (resolveFilePath w fp).1.TemplPath = q ++ n := by
    rcases s3 with e | ⟨pre, e⟩
    · exact ⟨[], by rw [e]; rfl⟩
    · exact ⟨pre ++ ['/'], by rw [e]; simp⟩
  have hne : (resolveFilePath w fp).1.TemplPath ≠ [] := by
    obtain ⟨q, e⟩ := hsuf
    rw [e]
    intro h0
    exact s2 (List.append_eq_nil.mp h0).2
  refine ⟨hr1, s1, hne, ?_, s3, ?_⟩
  · rw [s1]; exact (HasSuffix_iff _ _).mpr hsuf
  · intro hmask
    obtain ⟨m, hm⟩ := (HasSuffix_iff _ _).mp (isGoModMask_hasSuffix _ hmask)
    obtain ⟨q, hq⟩ := hsuf
    rw [← s1, hm] at hq
    have hp : (resolveFilePath w fp).1.TemplPath = (q ++ m) ++ ['_'] := by rw [hq]; simp
    have hfix := fixGoModFilePath_mask (resolveFilePath w fp).1 hmask hne
    refine ⟨q ++ m, m, ?_, ?_, hp, hm, ?_, ?_, ?_, (HasSuffix_iff _ _).mpr ⟨q, rfl⟩⟩
    · rw [sliceDropLast_of_ne_nil _ hne, hp, List.dropLast_concat]
    · rw [sliceDropLast_of_ne_nil _ (isGoModMask_ne_nil _ hmask)]
      conv => lhs; rw [hm]
      rw [List.dropLast_concat]
    · rw [hfix]
    · rw [hfix]
      simp only []
      rw [hp, List.dropLast_concat]
    · rw [hfix]
      simp only []
      conv => lhs; rw [hm]
      rw [List.dropLast_concat]

/-- Witness for C30: the node `go.mod_` of the example archetype with
`ProjectName` set to `demo`. -/
theorem C30_templPath_ends_with_templName_witness :
    HasSuffix
      (resolveFilePath (exampleWriter demoVals)
        ⟨headlessRoot ++ '/' :: placeholder "ProjectName".toList ++ "/go.mod_".toList,
          "go.mod_".toList, [], [], false⟩).1.TemplPath
      (resolveFilePath (exampleWriter demoVals)
        ⟨headlessRoot ++ '/' :: placeholder "ProjectName".toList ++ "/go.mod_".toList,
          "go.mod_".toList, [], [], false⟩).1.TemplName = true ∧
    (resolveFilePath (exampleWriter demoVals)
        ⟨headlessRoot ++ '/' :: placeholder "ProjectName".toList ++ "/go.mod_".toList,
          "go.mod_".toList, [], [], false⟩).1.TemplPath = "demo/go.mod_".toList ∧
    (fixGoModFilePath (resolveFilePath (exampleWriter demoVals)
        ⟨headlessRoot ++ '/' :: placeholder "ProjectName".toList ++ "/go.mod_".toList,
          "go.mod_".toList, [], [], false⟩).1).1.TemplPath = "demo/go.mod".toList :=
  ⟨(C30_templPath_ends_with_templName exampleAssets MemFs.impl HeadlessServiceType demoVals
      (exampleWriter demoVals) exampleWriter_new (by decide)
      ⟨headlessRoot ++ '/' :: placeholder "ProjectName".toList ++ "/go.mod_".toList,
        "go.mod_".toList, [], [], false⟩ (by decide) "go.mod_".toList (by decide) (by decide)
      (by decide)).2.2.2.1,
    by decide, by decide⟩

end Boilerplate
